import Mathlib

/-!
# MonotonicMap: monotonicity, realizability and neighbours

A shallow embedding of `examples/BooleanSwitching/Parameter/MonotonicMap.h`.

* Vertices, bit positions and loop counters are natural numbers. The bound of
  the vertex loops, `int64_t N = (1 << n)`, is computed on the 32-bit `int` of
  the literal `1`: it is `2 ^ n` for `n ≤ 30` and `INT_MIN` for `n = 31`, where
  no loop `for ( int64_t i = 0; i < N; ++ i )` is entered (`shiftOne`, `upTo`).
  For `n ≥ 32` C++ leaves the shift undefined. The same shift gives the count
  of `data_ . resize ( (1 << n), 0 )` in the constructors and the `bit` of
  `monotonic()`, whose children `i | bit` are `int64_t` values.
* Output levels (`data_`), `m` and the entries of `logic_` are `int64_t` in the
  source and integers here. The only arithmetic on them is `-- copy[i]` under
  `copy[i] > 0` and `++ copy[i]` under `copy[i] < m`, which cannot overflow.
* Constraint fields and slices are bit patterns, kept as natural numbers; the
  complement `~mask` is taken on 64 bits.
* `data_[k]` is an unchecked vector access in the source. Here every access is
  checked, and an access outside the vector ends the call with
  `Outcome.outOfRange`.
* `throw std::logic_error` ends the call with `Outcome.unsupportedFactorization`.
-/

namespace BooleanSwitching

/-- How a call ends: it returns a value, it throws `std::logic_error`
(`unsupportedFactorization`), or it reads `data_` outside the vector. -/
inductive Outcome (α : Type) where
  | returned (value : α)
  | unsupportedFactorization
  | outOfRange
  deriving DecidableEq

/-- A loop with early exit: `body` runs on the elements in order, `none` means
the iteration falls through to the next element, `some r` leaves the whole
function with `r`. -/
def firstExit {α β : Type} (body : α → Option β) : List α → Option β
  | [] => none
  | x :: xs =>
    match body x with
    | some r => some r
    | none => firstExit body xs

/-- The value `a & ~mask` on 64-bit words, for a non-negative `a`. -/
def andNot (a mask : Nat) : Nat := a &&& (2 ^ 64 - 1 - mask)

/-- The value of the expression `1 << k`, as widened to `int64_t`. The literal
`1` is an `int`, so the shift is done on 32 bits: the value is `2 ^ k` for
`k ≤ 30` and `INT_MIN = -2 ^ 31` for `k = 31`. For `k ≥ 32` the shift is
undefined in C++; `shiftOne` keeps the value `INT_MIN` there to be total. -/
def shiftOne (k : Nat) : Int := if k ≤ 30 then 2 ^ k else -(2 ^ 31)

/-- The values that `i` takes in `for ( int64_t i = 0; i < N; ++ i )`: none when
`N ≤ 0`. -/
def upTo (N : Int) : List Nat := List.range N.toNat

/-- The unchecked access `data_[k]` for an `int64_t` index `k`: a negative index
is outside the vector. -/
def dataAt (data : List Int) (k : Int) : Option Int :=
  if k < 0 then none else data[k.toNat]?

/-- The class `MonotonicMap`: `n` inputs, levels `0..m`, the factorization
`logic_`, the level of each vertex `data_`, and the constraints
`(mask, (x, y))`. -/
structure MonotonicMap where
  n : Nat
  m : Int
  logic_ : List Int
  data_ : List Int
  constraints_ : List (Nat × (Nat × Nat))
  deriving DecidableEq

namespace MonotonicMap

/-- The constructor `MonotonicMap(n, m, logic, constraints, data)`. -/
def mk5 (n : Nat) (m : Int) (logic : List Int)
    (constraints : List (Nat × (Nat × Nat))) (data : List Int) : MonotonicMap :=
  { n := n, m := m, logic_ := logic, data_ := data, constraints_ := constraints }

/-- The vector `children` that `monotonic` builds for vertex `i`: with
`int64_t bit = 1 << pos`, the value `i | bit` for every `pos < n` with
`i & bit == 0`, in increasing `pos`. The children are `int64_t` values: for
`pos = 31` the bit is `INT_MIN` and `i | bit` is negative. -/
def children (n i : Nat) : List Int :=
  (List.range n).filterMap fun pos =>
    if Int.land i (shiftOne pos) = 0 then some (Int.lor i (shiftOne pos)) else none

/-- The body of the `BOOST_FOREACH` over `children`:
`if ( data_[child] < data_[i] ) return false;`. -/
def checkChild (data : List Int) (i : Nat) (child : Int) : Option (Outcome Bool) :=
  match dataAt data child, data[i]? with
  | some dc, some di => if dc < di then some (.returned false) else none
  | _, _ => some .outOfRange

/-- The method `monotonic()`, with `N = (1 << n)` as the bound of the loop over
the vertices. -/
def monotonic (M : MonotonicMap) : Outcome Bool :=
  match firstExit (fun i => firstExit (checkChild M.data_ i) (children M.n i))
      (upTo (shiftOne M.n)) with
  | some r => r
  | none => .returned true

/-- The guard of Step 1:
`((a & ~mask) == (b & ~mask)) && ((a & mask) == x) && ((b & mask) == y)`. -/
def constraintApplies (a b : Nat) (c : Nat × (Nat × Nat)) : Prop :=
  andNot a c.1 = andNot b c.1 ∧ a &&& c.1 = c.2.1 ∧ b &&& c.1 = c.2.2

instance (a b : Nat) (c : Nat × (Nat × Nat)) : Decidable (constraintApplies a b c) := by
  unfold constraintApplies; infer_instance

/-- The body of the innermost loop of Step 1, for one constraint. -/
def checkConstraint (data : List Int) (a b : Nat) (c : Nat × (Nat × Nat)) :
    Option (Outcome Bool) :=
  if constraintApplies a b c then
    match data[a]?, data[b]? with
    | some da, some db => if da > db then some (.returned false) else none
    | _, _ => some .outOfRange
  else none

/-- Step 1 of `realizable()`: the three nested loops over `a < N`, `b < N`
(`N = (1 << n)`) and the constraints. `none` means the block is left without
returning. -/
def constraintPhase (M : MonotonicMap) : Option (Outcome Bool) :=
  firstExit (fun a =>
    firstExit (fun b => firstExit (checkConstraint M.data_ a b) M.constraints_)
      (upTo (shiftOne M.n)))
    (upTo (shiftOne M.n))

/-- The loop computing `max_terms_in_factor`, starting from 0. -/
def maxTermsInFactor (logic : List Int) : Int :=
  logic.foldl (fun acc l => max acc l) 0

/-- The innermost loop (over `c`) of the all-sum / all-product case, carrying
the flags `less` and `greater`. -/
def scanFree (data : List Int) (i a b : Nat) :
    List Nat → Bool → Bool → Option (Outcome Bool)
  | [], _, _ => none
  | c :: cs, less, greater =>
    if c &&& i ≠ 0 then scanFree data i a b cs less greater
    else
      match data[a ||| c]?, data[b ||| c]? with
      | some x, some y =>
        let less1 := if x < y then true else less
        let greater1 := if x > y then true else greater
        if less1 && greater1 then some (.returned false)
        else scanFree data i a b cs less1 greater1
      | _, _ => some .outOfRange

/-- The all-sum / all-product case of Step 2: four nested loops bounded by
`N = (1 << n)`. -/
def allSumProduct (M : MonotonicMap) : Outcome Bool :=
  let N := shiftOne M.n
  match firstExit (fun i =>
      firstExit (fun a =>
        if a &&& i ≠ a then none
        else firstExit (fun b =>
          if b &&& i ≠ b then none
          else scanFree M.data_ i a b (upTo N) false false)
          (upTo N))
        (upTo N))
      (upTo N) with
  | some r => r
  | none => .returned true

/-- Case (2, 1) of Step 2. -/
def case21 (data : List Int) : Outcome Bool :=
  match data[2]?, data[1]?, data[6]?, data[5]?, data[4]?, data[3]? with
  | some D010, some D001, some D110, some D101, some D100, some D011 =>
    if D010 < D001 ∧ ¬ (D110 ≤ D101) then .returned false
    else if D100 < D001 ∧ ¬ (D110 ≤ D011) then .returned false
    else if D010 > D100 ∧ ¬ (D011 ≥ D101) then .returned false
    else if D010 < D100 ∧ ¬ (D011 ≤ D101) then .returned false
    else .returned true
  | _, _, _, _, _, _ => .outOfRange

/-- Case (1, 2) of Step 2. -/
def case12 (data : List Int) : Outcome Bool :=
  match data[2]?, data[1]?, data[6]?, data[5]?, data[4]?, data[3]? with
  | some D010, some D001, some D110, some D101, some D100, some D011 =>
    if D001 < D100 ∧ ¬ (D011 ≤ D110) then .returned false
    else if D010 < D100 ∧ ¬ (D011 ≤ D101) then .returned false
    else if D001 > D010 ∧ ¬ (D101 ≥ D110) then .returned false
    else if D001 < D010 ∧ ¬ (D101 ≤ D110) then .returned false
    else .returned true
  | _, _, _, _, _, _ => .outOfRange

/-- The vector `slices` of case (2, 2). -/
def slices : List Nat := [0b1100, 0b0011, 0b1011, 0b0111, 0b1101, 0b1110]

/-- The vector `factorslices` of case (2, 2). -/
def factorslices : List Nat := [0b1100, 0b0011]

/-- The body of the slice-condition loops of case (2, 2), for one `slice`, `x`
and `v`. -/
def checkSlice (data : List Int) (slice x v : Nat) : Option (Outcome Bool) :=
  let y := (x &&& slice) ||| andNot v slice
  let u := andNot x slice ||| (v &&& slice)
  match data[x]?, data[y]? with
  | some dx, some dy =>
    if dx < dy then
      match data[u]?, data[v]? with
      | some du, some dv => if ¬ (du ≤ dv) then some (.returned false) else none
      | _, _ => some .outOfRange
    else none
  | _, _ => some .outOfRange

/-- The slice conditions of case (2, 2). -/
def sliceConditions (data : List Int) : Option (Outcome Bool) :=
  firstExit (fun slice =>
    firstExit (fun x => firstExit (checkSlice data slice x) (List.range 16))
      (List.range 16))
    slices

/-- The loop over `z` that computes `condition_met`: `some true` as soon as a
`z` with `data_[(x & slice) | (z & ~slice)] > data_[(y & slice) | (z & ~slice)]`
is found (the `break`), `some false` when the loop runs out, `none` when an
access is outside the vector. -/
def conditionMet (data : List Int) (slice x y : Nat) : List Nat → Option Bool
  | [] => some false
  | z :: zs =>
    match data[(x &&& slice) ||| andNot z slice]?, data[(y &&& slice) ||| andNot z slice]? with
    | some p, some q => if p > q then some true else conditionMet data slice x y zs
    | _, _ => none

/-- The body of the promotion loop over `i`, for one bit position `i < 4`, where
the `int` shift `1 << i` is `2 ^ i`. -/
def checkPromotion (data : List Int) (slice x y i : Nat) : Option (Outcome Bool) :=
  let bit := 1 <<< i
  if slice &&& bit = 0 then none
  else if (x &&& bit) ||| (y &&& bit) ≠ 0 then none
  else
    match data[x ||| bit]?, data[y ||| bit]? with
    | some dX, some dY => if dX > dY then some (.returned false) else none
    | _, _ => some .outOfRange

/-- The body of the loop over `factorslices`, for one `x`, `y` and `slice`. -/
def checkFactorSlice (data : List Int) (x y slice : Nat) : Option (Outcome Bool) :=
  match conditionMet data slice x y (List.range 16) with
  | none => some .outOfRange
  | some false => none
  | some true => firstExit (checkPromotion data slice x y) (List.range 4)

/-- The promotion condition of case (2, 2). -/
def promotionCondition (data : List Int) : Option (Outcome Bool) :=
  firstExit (fun x =>
    firstExit (fun y =>
      match data[x]?, data[y]? with
      | some dx, some dy =>
        if dx ≥ dy then none
        else firstExit (checkFactorSlice data x y) factorslices
      | _, _ => some .outOfRange)
      (List.range 16))
    (List.range 16)

/-- Case (2, 2) of Step 2. -/
def case22 (data : List Int) : Outcome Bool :=
  match sliceConditions data with
  | some r => r
  | none =>
    match promotionCondition data with
    | some r => r
    | none => .returned true

/-- Step 2 of `realizable()`: the dispatch on `logic_`, ending in the `throw`
when no case applies. -/
def shapePhase (M : MonotonicMap) : Outcome Bool :=
  if M.logic_.length = 1 ∨ maxTermsInFactor M.logic_ = 1 then allSumProduct M
  else if M.logic_.length = 2 then
    if M.logic_[0]? = some 2 ∧ M.logic_[1]? = some 1 then case21 M.data_
    else if M.logic_[0]? = some 1 ∧ M.logic_[1]? = some 2 then case12 M.data_
    else if M.logic_[0]? = some 2 ∧ M.logic_[1]? = some 2 then case22 M.data_
    else .unsupportedFactorization
  else .unsupportedFactorization

/-- The method `realizable()`. -/
def realizable (M : MonotonicMap) : Outcome Bool :=
  match constraintPhase M with
  | some r => r
  | none => shapePhase M

/-- The test `new_map -> monotonic () && new_map -> realizable ()` on the map
built from `copy`; `realizable` is only called when `monotonic` returned
true. -/
def admitted (M : MonotonicMap) (copy : List Int) : Outcome Bool :=
  match monotonic (mk5 M.n M.m M.logic_ M.constraints_ copy) with
  | .returned true => realizable (mk5 M.n M.m M.logic_ M.constraints_ copy)
  | r => r

/-- One probe of `neighbors()`: `copy` has just been changed; the new map is
tested and appended to `results` when admitted. -/
def probe (M : MonotonicMap) (copy : List Int) (results : List MonotonicMap) :
    Outcome (List MonotonicMap) :=
  match admitted M copy with
  | .returned true => .returned (results ++ [mk5 M.n M.m M.logic_ M.constraints_ copy])
  | .returned false => .returned results
  | .unsupportedFactorization => .unsupportedFactorization
  | .outOfRange => .outOfRange

/-- The second `if` of the loop body of `neighbors()`: under `copy[i] < m`,
increment, probe, decrement. Returns the buffer and the results. -/
def incrementStep (M : MonotonicMap) (i : Nat) (copy : List Int)
    (results : List MonotonicMap) : Outcome (List Int × List MonotonicMap) :=
  match copy[i]? with
  | none => .outOfRange
  | some v =>
    if v < M.m then
      let up := copy.set i (v + 1)
      match probe M up results with
      | .returned results1 => .returned (up.set i (v + 1 - 1), results1)
      | .unsupportedFactorization => .unsupportedFactorization
      | .outOfRange => .outOfRange
    else .returned (copy, results)

/-- The body of the loop of `neighbors()` for vertex `i`: under `copy[i] > 0`,
decrement, probe, increment; then the increment step. -/
def neighborsStep (M : MonotonicMap) (i : Nat) (copy : List Int)
    (results : List MonotonicMap) : Outcome (List Int × List MonotonicMap) :=
  match copy[i]? with
  | none => .outOfRange
  | some v =>
    if v > 0 then
      let down := copy.set i (v - 1)
      match probe M down results with
      | .returned results1 => incrementStep M i (down.set i (v - 1 + 1)) results1
      | .unsupportedFactorization => .unsupportedFactorization
      | .outOfRange => .outOfRange
    else incrementStep M i copy results

/-- The loop of `neighbors()` over the vertices, threading the buffer `copy`
and the vector `results`. -/
def neighborsLoop (M : MonotonicMap) :
    List Nat → List Int → List MonotonicMap → Outcome (List MonotonicMap)
  | [], _, results => .returned results
  | i :: is, copy, results =>
    match neighborsStep M i copy results with
    | .returned (copy1, results1) => neighborsLoop M is copy1 results1
    | .unsupportedFactorization => .unsupportedFactorization
    | .outOfRange => .outOfRange

/-- The method `neighbors()`: the loop over `i < N`, `N = (1 << n)`, on the
buffer `copy = data_` and the empty `results`. -/
def neighbors (M : MonotonicMap) : Outcome (List MonotonicMap) :=
  neighborsLoop M (upTo (shiftOne M.n)) M.data_ []

/-- The body of the loop of `operator ==`. -/
def checkEntry (data rhs : List Int) (i : Nat) : Option (Outcome Bool) :=
  match data[i]?, rhs[i]? with
  | some p, some q => if p ≠ q then some (.returned false) else none
  | _, _ => some .outOfRange

/-- The method `operator ==`: after `n` and `m`, the entries `i < N`,
`N = (1 << n)`, are compared. -/
def equals (M rhs : MonotonicMap) : Outcome Bool :=
  if M.n ≠ rhs.n then .returned false
  else if M.m ≠ rhs.m then .returned false
  else
    match firstExit (checkEntry M.data_ rhs.data_) (upTo (shiftOne M.n)) with
    | some r => r
    | none => .returned true

/-- The bit rotation of the (1, 2) case, as the comment "We just rotate the
bits" is read by the specification: bit 0 goes to bit 2, bit 1 to bit 0 and
bit 2 to bit 1. -/
def rot (v : Nat) : Nat := ((v <<< 2) ||| (v >>> 1)) &&& 7

/-- The data array `D'` with `D'[v] = D[rot v]` on the eight vertices. -/
def rotated (D : List Int) : List Int := (List.range 8).map fun v => D.getD (rot v) 0

/-- What one probe appends to `results` when the test on `copy` returns: the
map built from `copy` if it is admitted, nothing otherwise. Used to state what
the loop of `neighbors()` computes. -/
def probed (M : MonotonicMap) (copy : List Int) : List MonotonicMap :=
  if admitted M copy = .returned true then [mk5 M.n M.m M.logic_ M.constraints_ copy] else []

/-- What iteration `i` of the loop of `neighbors()` appends to `results` when
no call fails: the decremented map under `data[i] > 0`, then the incremented map
under `data[i] < m`, each only if admitted. -/
def appended (M : MonotonicMap) (data : List Int) (i : Nat) : List MonotonicMap :=
  (if data.getD i 0 > 0 then probed M (data.set i (data.getD i 0 - 1)) else []) ++
  (if data.getD i 0 < M.m then probed M (data.set i (data.getD i 0 + 1)) else [])

/-- The level of vertex `i`, for statements about maps whose `data_` covers the
vertex. -/
def level (M : MonotonicMap) (i : Nat) : Int := M.data_.getD i 0

/-- Well-formed map: `data_` has one entry for each of the `2 ^ n` vertices. -/
def WellFormed (M : MonotonicMap) : Prop := M.data_.length = 2 ^ M.n

instance (M : MonotonicMap) : Decidable (WellFormed M) := by
  unfold WellFormed; infer_instance

/-- The loop of `hash_value`: `boost::hash_combine(seed, p.data_[i])` for each
`i` in order. `combine` stands for `boost::hash_combine`, a library function
that is not part of this repository: it maps the old seed and the value to the
new seed. -/
def hashLoop (combine : Nat → Int → Nat) (data : List Int) : List Nat → Nat → Outcome Nat
  | [], seed => .returned seed
  | i :: is, seed =>
    match data[i]? with
    | some v => hashLoop combine data is (combine seed v)
    | none => .outOfRange

/-- The friend function `hash_value`, starting from `seed = 0`, over the entries
`i < N`, `N = (1 << p.n)`. -/
def hash_value (combine : Nat → Int → Nat) (p : MonotonicMap) : Outcome Nat :=
  hashLoop combine p.data_ (upTo (shiftOne p.n)) 0

/-- The call `v.resize(count, value)` of `std::vector`: the first `count`
elements are kept and the vector is padded with `value` up to `count`. -/
def resize {α : Type} (v : List α) (count : Nat) (value : α) : List α :=
  v.take count ++ List.replicate (count - v.length) value

/-- How a call of one of the three constructors that resize `data_` ends: the
map is built, or `resize` throws `std::length_error`. -/
inductive Construction where
  | built (M : MonotonicMap)
  | lengthError
  deriving DecidableEq

/-- The call `data_ . resize ( (1 << n), 0 )` on the empty `data_`. The `int`
value of the shift is converted to `size_t`: a negative value becomes a count
above `max_size()`, and `resize` throws `std::length_error` (`none`). -/
def resizeData (n : Nat) : Option (List Int) :=
  if shiftOne n < 0 then none else some (resize [] (shiftOne n).toNat 0)

/-- The constructor `MonotonicMap(n, m)`: the vectors start empty, then `data_`
is resized to `1 << n` zeros and `logic_` to the single entry `n`. -/
def mk2 (n : Nat) (m : Int) : Construction :=
  match resizeData n with
  | none => .lengthError
  | some data =>
    .built { n := n, m := m, logic_ := resize [] 1 (n : Int), data_ := data,
             constraints_ := [] }

/-- The constructor `MonotonicMap(n, m, logic)`. -/
def mk3 (n : Nat) (m : Int) (logic : List Int) : Construction :=
  match resizeData n with
  | none => .lengthError
  | some data => .built { n := n, m := m, logic_ := logic, data_ := data, constraints_ := [] }

/-- The constructor `MonotonicMap(n, m, logic, constraints)`. -/
def mk4 (n : Nat) (m : Int) (logic : List Int) (constraints : List (Nat × (Nat × Nat))) :
    Construction :=
  match resizeData n with
  | none => .lengthError
  | some data =>
    .built { n := n, m := m, logic_ := logic, data_ := data, constraints_ := constraints }

/-- A call of the five-argument constructor: the initializer list copies the
arguments and the body is empty, so the call always returns the map. -/
def construct (n : Nat) (m : Int) (logic : List Int)
    (constraints : List (Nat × (Nat × Nat))) (data : List Int) : Outcome MonotonicMap :=
  .returned (mk5 n m logic constraints data)

/-- How a call of `prettyPrint` ends: it returns the text, it throws
`std::logic_error` from one of the two length checks, or it reads `data_`,
`input_symbols` or `output_symbols` outside the vector. -/
inductive PrintOutcome where
  | text (s : String)
  | symbolCountMismatch
  | outOfRange
  deriving DecidableEq

/-- The loop over `k` of `prettyPrint` for one factor `logic_[j] = lj`, on the
remaining values of `k`: it writes `L(` or `U(` according to bit `count` of `i`,
then `input_symbols[count ++]`, the symbol and, except for the last term,
` + `. It threads the stream `ss` and `count`; `none` is an access outside
`input_symbols`. The test `(i & (1 << count)) == 0` is made on a vertex
`i < N ≤ 2 ^ 30`, for which it is the test of bit `count` of `i`. -/
def emitTerms (symbol : String) (input_symbols : List String) (i : Nat) (lj : Int) :
    List Nat → String → Nat → Option (String × Nat)
  | [], ss, count => some (ss, count)
  | k :: ks, ss, count =>
    match input_symbols[count]? with
    | none => none
    | some name =>
      let ss1 := ss ++ (if i &&& (1 <<< count) = 0 then "L(" else "U(") ++ name ++ ", " ++
        symbol ++ ")"
      let ss2 := if (k : Int) ≠ lj - 1 then ss1 ++ " + " else ss1
      emitTerms symbol input_symbols i lj ks ss2 (count + 1)

/-- The loop over `j` of `prettyPrint`, on the remaining entries of `logic_`:
each factor is written between `(` and `)`. -/
def emitFactors (symbol : String) (input_symbols : List String) (i : Nat) :
    List Int → String → Nat → Option (String × Nat)
  | [], ss, count => some (ss, count)
  | lj :: ls, ss, count =>
    match emitTerms symbol input_symbols i lj (List.range lj.toNat) (ss ++ "(") count with
    | none => none
    | some (ss1, count1) => emitFactors symbol input_symbols i ls (ss1 ++ ")") count1

/-- The optional lower bound written before the factors:
`THETA(symbol, output_symbols[bin-1]) <= ` under `bin > 0`. -/
def emitLower (symbol : String) (output_symbols : List String) (bin : Int) (ss : String) :
    Option String :=
  if bin > 0 then
    match output_symbols[(bin - 1).toNat]? with
    | some o => some (ss ++ "THETA(" ++ symbol ++ ", " ++ o ++ ") <= ")
    | none => none
  else some ss

/-- The optional upper bound written after the factors:
` <= THETA(symbol, output_symbols[bin])` under `bin < m`. A negative `bin` is an
index outside `output_symbols`. -/
def emitUpper (symbol : String) (output_symbols : List String) (m bin : Int) (ss : String) :
    Option String :=
  if bin < m then
    if bin < 0 then none
    else
      match output_symbols[bin.toNat]? with
      | some o => some (ss ++ " <= THETA(" ++ symbol ++ ", " ++ o ++ ")")
      | none => none
  else some ss

/-- The body of the loop over the vertices of `prettyPrint`, for vertex `i`. -/
def emitVertex (M : MonotonicMap) (symbol : String) (input_symbols output_symbols : List String)
    (ss : String) (i : Nat) : Option String :=
  match M.data_[i]? with
  | none => none
  | some bin =>
    match emitLower symbol output_symbols bin ss with
    | none => none
    | some ss1 =>
      match emitFactors symbol input_symbols i M.logic_ ss1 0 with
      | none => none
      | some (ss2, _) =>
        match emitUpper symbol output_symbols M.m bin ss2 with
        | none => none
        | some ss3 => some (ss3 ++ ";\n")

/-- The loop over the vertices of `prettyPrint`, threading the stream. -/
def emitAll (M : MonotonicMap) (symbol : String) (input_symbols output_symbols : List String) :
    List Nat → String → Option String
  | [], ss => some ss
  | i :: is, ss =>
    match emitVertex M symbol input_symbols output_symbols ss i with
    | none => none
    | some ss1 => emitAll M symbol input_symbols output_symbols is ss1

/-- The method `prettyPrint`: the two length checks, then the loop over the
vertices `i < N`, `N = (1 << n)`. -/
def prettyPrint (M : MonotonicMap) (symbol : String)
    (input_symbols output_symbols : List String) : PrintOutcome :=
  if input_symbols.length ≠ M.n then .symbolCountMismatch
  else if (output_symbols.length : Int) ≠ M.m then .symbolCountMismatch
  else
    match emitAll M symbol input_symbols output_symbols (upTo (shiftOne M.n)) "" with
    | some ss => .text ss
    | none => .outOfRange

/-- The lower bound of an entry as the specification words it:
`THETA(symbol, output_symbols[bin-1]) <= ` exactly when `bin > 0`. -/
def lowerBound (symbol : String) (output_symbols : List String) (bin : Int) : String :=
  if bin > 0 then "THETA(" ++ symbol ++ ", " ++ output_symbols.getD (bin - 1).toNat "" ++ ") <= "
  else ""

/-- The upper bound of an entry as the specification words it:
` <= THETA(symbol, output_symbols[bin])` exactly when `bin < m`. -/
def upperBound (symbol : String) (output_symbols : List String) (m bin : Int) : String :=
  if bin < m then " <= THETA(" ++ symbol ++ ", " ++ output_symbols.getD bin.toNat "" ++ ")"
  else ""

/-! ## Loops with early exit -/

theorem firstExit_eq_none_iff {α β : Type} (body : α → Option β) (xs : List α) :
    firstExit body xs = none ↔ ∀ x ∈ xs, body x = none := by
  induction xs with
  | nil => simp [firstExit]
  | cons x xs ih =>
    cases hx : body x with
    | none => simp [firstExit, hx, ih]
    | some r => simp [firstExit, hx]

theorem firstExit_eq_some {α β : Type} (body : α → Option β) (xs : List α) (r : β)
    (h : firstExit body xs = some r) : ∃ x ∈ xs, body x = some r := by
  induction xs with
  | nil => simp [firstExit] at h
  | cons x xs ih =>
    cases hx : body x with
    | none =>
      simp only [firstExit, hx] at h
      obtain ⟨y, hy, hyr⟩ := ih h
      exact ⟨y, List.mem_cons_of_mem _ hy, hyr⟩
    | some r1 =>
      simp only [firstExit, hx, Option.some.injEq] at h
      exact ⟨x, List.mem_cons_self _ _, by rw [hx, h]⟩

/-- When every iteration either falls through or leaves with the same `r`,
the loop leaves with `r` as soon as one iteration does. -/
theorem firstExit_of_exists {α β : Type} (body : α → Option β) (xs : List α) (r : β)
    (hall : ∀ x ∈ xs, body x = none ∨ body x = some r)
    (hex : ∃ x ∈ xs, body x = some r) : firstExit body xs = some r := by
  cases h : firstExit body xs with
  | none =>
    obtain ⟨x, hx, hxr⟩ := hex
    rw [(firstExit_eq_none_iff body xs).1 h x hx] at hxr
    cases hxr
  | some r1 =>
    obtain ⟨x, hx, hxr⟩ := firstExit_eq_some body xs r1 h
    rcases hall x hx with h0 | h1
    · rw [h0] at hxr; cases hxr
    · rw [h1] at hxr; exact hxr ▸ rfl

/-- A loop whose iterations only fall through or leave with `r` ends with
`none` or `some r`. -/
theorem firstExit_cases {α β : Type} (body : α → Option β) (xs : List α) (r : β)
    (hall : ∀ x ∈ xs, body x = none ∨ body x = some r) :
    firstExit body xs = none ∨ firstExit body xs = some r := by
  cases h : firstExit body xs with
  | none => exact Or.inl rfl
  | some r1 =>
    obtain ⟨x, hx, hxr⟩ := firstExit_eq_some body xs r1 h
    rcases hall x hx with h0 | h1
    · rw [h0] at hxr; cases hxr
    · rw [h1] at hxr; exact Or.inr hxr.symm

/-! ## The 32-bit shift and the vertex loops -/

theorem mem_range_shift (n x : Nat) : x ∈ List.range (1 <<< n) ↔ x < 2 ^ n := by
  rw [Nat.one_shiftLeft, List.mem_range]

theorem shiftOne_of_le (k : Nat) (h : k ≤ 30) : shiftOne k = ((2 ^ k : Nat) : Int) := by
  unfold shiftOne
  rw [if_pos h]
  push_cast
  rfl

/-- For `n ≤ 30` the vertex loops visit `0, 1, ..., 2 ^ n - 1`. -/
theorem upTo_shiftOne (n : Nat) (hn : n ≤ 30) : upTo (shiftOne n) = List.range (1 <<< n) := by
  unfold upTo
  rw [shiftOne_of_le n hn, Int.toNat_natCast, Nat.one_shiftLeft]

/-- Beyond `n = 30` the bound `N` is negative and no vertex loop is entered. -/
theorem upTo_shiftOne_of_lt (n : Nat) (hn : 30 < n) : upTo (shiftOne n) = [] := by
  unfold upTo shiftOne
  rw [if_neg (by omega)]
  rfl

theorem mem_upTo (n x : Nat) (hn : n ≤ 30) : x ∈ upTo (shiftOne n) ↔ x < 2 ^ n := by
  rw [upTo_shiftOne n hn, mem_range_shift]

/-- A vertex visited by a loop is below `2 ^ n`, whatever `n` is. -/
theorem lt_of_mem_upTo (n x : Nat) (h : x ∈ upTo (shiftOne n)) : x < 2 ^ n := by
  by_cases hn : n ≤ 30
  · exact (mem_upTo n x hn).1 h
  · rw [upTo_shiftOne_of_lt n (by omega)] at h
    cases h

theorem length_upTo_le (n : Nat) : (upTo (shiftOne n)).length ≤ 2 ^ n := by
  by_cases hn : n ≤ 30
  · rw [upTo_shiftOne n hn, List.length_range, Nat.one_shiftLeft]
  · rw [upTo_shiftOne_of_lt n (by omega)]
    exact Nat.zero_le _

/-! ## Vector accesses of a well-formed map -/

theorem getElem?_eq_getD (data : List Int) (i : Nat) (h : i < data.length) :
    data[i]? = some (data.getD i 0) := by
  rw [List.getD_eq_getElem?_getD, List.getElem?_eq_getElem h]; rfl

theorem data_at (M : MonotonicMap) (hwf : WellFormed M) (i : Nat) (h : i < 2 ^ M.n) :
    M.data_[i]? = some (level M i) :=
  getElem?_eq_getD M.data_ i (by rw [hwf]; exact h)

theorem wellFormed_of_length (M : MonotonicMap) (h : M.data_.length = 2 ^ M.n) :
    WellFormed M := h

theorem length_two_cons_replicate (a b c : Int) :
    (a :: b :: List.replicate (2 ^ 31 - 2) c).length = 2 ^ 31 := by
  rw [List.length_cons, List.length_cons, List.length_replicate]
  decide

theorem length_four_cons_replicate (a b c d e : Int) :
    (a :: b :: c :: d :: List.replicate (2 ^ 31 - 4) e).length = 2 ^ 31 := by
  rw [List.length_cons, List.length_cons, List.length_cons, List.length_cons,
    List.length_replicate]
  decide

theorem zero_of_mem_zeros (v : Int)
    (h : v ∈ (0 : Int) :: 0 :: List.replicate (2 ^ 31 - 2) 0) : v = 0 := by
  rcases List.mem_cons.1 h with h | h
  · exact h
  · rcases List.mem_cons.1 h with h | h
    · exact h
    · exact (List.mem_replicate.1 h).2

theorem or_bit_lt (n i pos : Nat) (hi : i < 2 ^ n) (hpos : pos < n) :
    i ||| 2 ^ pos < 2 ^ n :=
  Nat.or_lt_two_pow hi (Nat.pow_lt_pow_right (by decide) hpos)

/-! ## `monotonic` -/

theorem mem_children (n i : Nat) (hn : n ≤ 31) (child : Int) :
    child ∈ children n i ↔
      ∃ pos, pos < n ∧ i &&& 2 ^ pos = 0 ∧ child = ((i ||| 2 ^ pos : Nat) : Int) := by
  unfold children
  rw [List.mem_filterMap]
  have hland : ∀ pos, pos < n →
      (Int.land i (shiftOne pos) = 0 ↔ i &&& 2 ^ pos = 0) ∧
      Int.lor i (shiftOne pos) = ((i ||| 2 ^ pos : Nat) : Int) := by
    intro pos hpos
    rw [shiftOne_of_le pos (by omega)]
    constructor
    · show (((i &&& 2 ^ pos : Nat) : Int) = 0 ↔ i &&& 2 ^ pos = 0)
      exact Int.natCast_eq_zero
    · rfl
  constructor
  · rintro ⟨pos, hpos, h⟩
    have hpos1 := List.mem_range.1 hpos
    obtain ⟨h1, h2⟩ := hland pos hpos1
    refine ⟨pos, hpos1, ?_⟩
    by_cases hb : i &&& 2 ^ pos = 0
    · rw [if_pos (h1.2 hb), h2] at h
      exact ⟨hb, (Option.some.inj h).symm⟩
    · rw [if_neg (fun hc => hb (h1.1 hc))] at h
      cases h
  · rintro ⟨pos, hpos, hb, rfl⟩
    obtain ⟨h1, h2⟩ := hland pos hpos
    refine ⟨pos, List.mem_range.2 hpos, ?_⟩
    rw [if_pos (h1.2 hb), h2]

theorem dataAt_natCast (data : List Int) (k : Nat) : dataAt data (k : Int) = data[k]? := by
  unfold dataAt
  rw [if_neg (by omega), Int.toNat_natCast]

theorem checkChild_eq (M : MonotonicMap) (hwf : WellFormed M) (i child : Nat)
    (hi : i < 2 ^ M.n) (hc : child < 2 ^ M.n) :
    checkChild M.data_ i (child : Int) =
      if level M child < level M i then some (.returned false) else none := by
  unfold checkChild
  rw [dataAt_natCast, data_at M hwf i hi, data_at M hwf child hc]

/-- Beyond `n = 30` the loop of `monotonic()` is not entered and the call
returns true. -/
theorem monotonic_of_lt (M : MonotonicMap) (hn : 30 < M.n) : monotonic M = .returned true := by
  unfold monotonic
  rw [upTo_shiftOne_of_lt M.n hn]
  rfl

/-- The covering-relation reading of `monotonic()` on a well-formed map with
`n ≤ 30`, together with the fact that the call returns. -/
theorem monotonic_covering (M : MonotonicMap) (hwf : WellFormed M) (hn : M.n ≤ 30) :
    (monotonic M = .returned true ∨ monotonic M = .returned false) ∧
    (monotonic M = .returned true ↔
      ∀ i, i < 2 ^ M.n → ∀ pos, pos < M.n → i &&& 2 ^ pos = 0 →
        level M i ≤ level M (i ||| 2 ^ pos)) := by
  have hn31 : M.n ≤ 31 := by omega
  have hbody : ∀ i ∈ List.range (1 <<< M.n), ∀ pos, pos < M.n →
      checkChild M.data_ i ((i ||| 2 ^ pos : Nat) : Int) =
        if level M (i ||| 2 ^ pos) < level M i then some (.returned false) else none := by
    intro i hi pos hpos
    rw [Nat.one_shiftLeft] at hi
    have hi1 := List.mem_range.1 hi
    exact checkChild_eq M hwf i _ hi1 (or_bit_lt _ _ _ hi1 hpos)
  have hinner : ∀ i ∈ List.range (1 <<< M.n),
      firstExit (checkChild M.data_ i) (children M.n i) = none ∨
      firstExit (checkChild M.data_ i) (children M.n i) = some (.returned false) := by
    intro i hi
    apply firstExit_cases
    intro child hc
    obtain ⟨pos, hpos, _, rfl⟩ := (mem_children _ _ hn31 _).1 hc
    rw [hbody i hi pos hpos]
    split <;> simp
  have houter := firstExit_cases
    (fun i => firstExit (checkChild M.data_ i) (children M.n i))
    (List.range (1 <<< M.n)) (.returned false) hinner
  have hnone : firstExit (fun i => firstExit (checkChild M.data_ i) (children M.n i))
      (List.range (1 <<< M.n)) = none ↔
      ∀ i, i < 2 ^ M.n → ∀ pos, pos < M.n → i &&& 2 ^ pos = 0 →
        level M i ≤ level M (i ||| 2 ^ pos) := by
    rw [firstExit_eq_none_iff]
    constructor
    · intro h i hi pos hpos hb
      have hi1 : i ∈ List.range (1 <<< M.n) := by
        rw [Nat.one_shiftLeft]; exact List.mem_range.2 hi
      have h1 := (firstExit_eq_none_iff _ _).1 (h i hi1) ((i ||| 2 ^ pos : Nat) : Int)
        ((mem_children _ _ hn31 _).2 ⟨pos, hpos, hb, rfl⟩)
      rw [hbody i hi1 pos hpos] at h1
      by_contra hlt
      rw [if_pos (not_le.1 hlt)] at h1
      cases h1
    · intro h i hi
      rw [firstExit_eq_none_iff]
      intro child hc
      obtain ⟨pos, hpos, hb, rfl⟩ := (mem_children _ _ hn31 _).1 hc
      rw [hbody i hi pos hpos]
      rw [Nat.one_shiftLeft] at hi
      rw [if_neg (not_lt.2 (h i (List.mem_range.1 hi) pos hpos hb))]
  unfold monotonic
  rw [upTo_shiftOne M.n hn]
  rcases houter with h0 | h1
  · rw [h0]
    exact ⟨Or.inl rfl, ⟨fun _ => hnone.1 h0, fun _ => rfl⟩⟩
  · rw [h1]
    refine ⟨Or.inr rfl, ⟨fun h => (by cases h), fun h => ?_⟩⟩
    rw [hnone.2 h] at h1
    cases h1

/-- On a well-formed map `monotonic()` returns a boolean, whatever `n` is. -/
theorem monotonic_returns (M : MonotonicMap) (hwf : WellFormed M) :
    monotonic M = .returned true ∨ monotonic M = .returned false := by
  by_cases hn : M.n ≤ 30
  · exact (monotonic_covering M hwf hn).1
  · exact Or.inl (monotonic_of_lt M (by omega))

/-! ## Bitwise inclusion is generated by one-bit steps -/

theorem and_bit_eq_zero (a pos : Nat) (h : a.testBit pos = false) : a &&& 2 ^ pos = 0 := by
  apply Nat.eq_of_testBit_eq
  intro j
  rw [Nat.testBit_and, Nat.testBit_two_pow, Nat.zero_testBit]
  by_cases hj : pos = j
  · subst hj; simp [h]
  · simp [hj]

theorem testBit_of_and_bit_eq_zero (a pos : Nat) (h : a &&& 2 ^ pos = 0) :
    a.testBit pos = false := by
  have := congrArg (fun t => Nat.testBit t pos) h
  simpa [Nat.testBit_and, Nat.testBit_two_pow] using this

theorem lt_or_bit (a pos : Nat) (h : a.testBit pos = false) : a < a ||| 2 ^ pos := by
  apply Nat.lt_of_testBit pos h
  · simp [Nat.testBit_or, Nat.testBit_two_pow]
  · intro j hj
    have : ¬ pos = j := by omega
    simp [Nat.testBit_or, Nat.testBit_two_pow, this]

/-- A vertex strictly included in `b` can take one more bit of `b`. -/
theorem subset_step (n a b : Nat) (hb : b < 2 ^ n) (hab : a &&& b = a) (hne : a ≠ b) :
    ∃ pos, pos < n ∧ a &&& 2 ^ pos = 0 ∧ (a ||| 2 ^ pos) &&& b = a ||| 2 ^ pos ∧
      a < a ||| 2 ^ pos := by
  obtain ⟨pos, hpos⟩ := Nat.ne_implies_bit_diff hne
  have hsub : ∀ j, a.testBit j = true → b.testBit j = true := by
    intro j hj
    have := congrArg (fun t => Nat.testBit t j) hab
    simp only [Nat.testBit_and, hj, Bool.true_and] at this
    exact this
  have ha : a.testBit pos = false := by
    by_contra h
    have h1 : a.testBit pos = true := by simpa using h
    exact hpos (by rw [h1, hsub pos h1])
  have hbp : b.testBit pos = true := by
    rw [ha] at hpos
    cases hb1 : b.testBit pos with
    | true => rfl
    | false => exact absurd hb1.symm hpos
  have hlt : pos < n := by
    by_contra h
    have : b < 2 ^ pos := lt_of_lt_of_le hb (Nat.pow_le_pow_right (by decide) (not_lt.1 h))
    rw [Nat.testBit_lt_two_pow this] at hbp
    cases hbp
  refine ⟨pos, hlt, and_bit_eq_zero a pos ha, ?_, lt_or_bit a pos ha⟩
  apply Nat.eq_of_testBit_eq
  intro j
  rw [Nat.testBit_and, Nat.testBit_or, Nat.testBit_two_pow]
  by_cases hj : pos = j
  · subst hj; simp [hbp]
  · cases haj : a.testBit j with
    | true => simp [hsub j haj, hj]
    | false => simp [hj]

theorem and_or_bit_self (a pos : Nat) : a &&& (a ||| 2 ^ pos) = a := by
  apply Nat.eq_of_testBit_eq
  intro j
  rw [Nat.testBit_and, Nat.testBit_or]
  cases a.testBit j <;> simp

/-- A function on the vertices that never decreases when one bit is added never
decreases along bitwise inclusion. -/
theorem covering_to_inclusion (n : Nat) (f : Nat → Int)
    (hcov : ∀ i, i < 2 ^ n → ∀ pos, pos < n → i &&& 2 ^ pos = 0 → f i ≤ f (i ||| 2 ^ pos))
    (k : Nat) : ∀ a b, b - a = k → a < 2 ^ n → b < 2 ^ n → a &&& b = a → f a ≤ f b := by
  induction k using Nat.strong_induction_on with
  | _ k ih =>
    intro a b hk ha hb hab
    by_cases hne : a = b
    · rw [hne]
    · obtain ⟨pos, hpos, hbit, hinc, hlt⟩ := subset_step n a b hb hab hne
      have hle : a ||| 2 ^ pos ≤ b := by
        have := @Nat.and_le_right (a ||| 2 ^ pos) b
        rw [hinc] at this; exact this
      have hstep := hcov a ha pos hpos hbit
      have hrest := ih (b - (a ||| 2 ^ pos)) (by omega) (a ||| 2 ^ pos) b rfl
        (lt_of_le_of_lt hle hb) hb hinc
      exact le_trans hstep hrest

/-! ## Step 1 of `realizable`: the constraint phase -/

theorem checkConstraint_eq (M : MonotonicMap) (hwf : WellFormed M) (a b : Nat)
    (c : Nat × (Nat × Nat)) (ha : a < 2 ^ M.n) (hb : b < 2 ^ M.n) :
    checkConstraint M.data_ a b c =
      if constraintApplies a b c ∧ level M a > level M b then some (.returned false)
      else none := by
  unfold checkConstraint
  rw [data_at M hwf a ha, data_at M hwf b hb]
  by_cases h1 : constraintApplies a b c
  · by_cases h2 : level M a > level M b
    · simp [h1, h2]
    · simp [h1, h2]
  · simp [h1]

/-- Beyond `n = 30` the loops of Step 1 are not entered. -/
theorem constraintPhase_of_lt (M : MonotonicMap) (hn : 30 < M.n) : constraintPhase M = none := by
  unfold constraintPhase
  rw [upTo_shiftOne_of_lt M.n hn]
  rfl

theorem constraintPhase_cases (M : MonotonicMap) (hwf : WellFormed M) :
    constraintPhase M = none ∨ constraintPhase M = some (.returned false) := by
  unfold constraintPhase
  apply firstExit_cases
  intro a ha
  apply firstExit_cases
  intro b hb
  apply firstExit_cases
  intro c _
  rw [checkConstraint_eq M hwf a b c (lt_of_mem_upTo _ _ ha) (lt_of_mem_upTo _ _ hb)]
  split <;> simp

/-- On a well-formed map with `n ≤ 30` Step 1 is left without returning exactly
when no applicable constraint is violated. -/
theorem constraintPhase_eq_none_iff (M : MonotonicMap) (hwf : WellFormed M) (hn : M.n ≤ 30) :
    constraintPhase M = none ↔
      ∀ a b, a < 2 ^ M.n → b < 2 ^ M.n → ∀ c ∈ M.constraints_,
        constraintApplies a b c → level M a ≤ level M b := by
  unfold constraintPhase
  rw [upTo_shiftOne M.n hn, firstExit_eq_none_iff, Nat.one_shiftLeft]
  constructor
  · intro h a b ha hb c hc happ
    have h1 := (firstExit_eq_none_iff _ _).1 (h a (List.mem_range.2 ha)) b (List.mem_range.2 hb)
    have h2 := (firstExit_eq_none_iff _ _).1 h1 c hc
    rw [checkConstraint_eq M hwf a b c ha hb] at h2
    by_contra hlt
    rw [if_pos ⟨happ, not_le.1 hlt⟩] at h2
    cases h2
  · intro h a ha
    rw [firstExit_eq_none_iff]
    intro b hb
    rw [firstExit_eq_none_iff]
    intro c hc
    rw [checkConstraint_eq M hwf a b c (List.mem_range.1 ha) (List.mem_range.1 hb)]
    rw [if_neg]
    rintro ⟨happ, hgt⟩
    exact absurd (h a b (List.mem_range.1 ha) (List.mem_range.1 hb) c hc happ) (not_le.2 hgt)

theorem constraintPhase_nil (M : MonotonicMap) (h : M.constraints_ = []) :
    constraintPhase M = none := by
  unfold constraintPhase
  rw [firstExit_eq_none_iff]
  intro a _
  rw [firstExit_eq_none_iff]
  intro b _
  rw [h]
  rfl

theorem realizable_of_constraintPhase_none (M : MonotonicMap) (h : constraintPhase M = none) :
    realizable M = shapePhase M := by
  unfold realizable
  rw [h]

/-- Beyond `n = 30` the all-sum / all-product search is not entered and the
case returns true. -/
theorem allSumProduct_of_lt (M : MonotonicMap) (hn : 30 < M.n) :
    allSumProduct M = .returned true := by
  unfold allSumProduct
  dsimp only
  rw [upTo_shiftOne_of_lt M.n hn]
  rfl

/-- Beyond `n = 30`, with one factor or `max_terms_in_factor == 1`, neither
Step 1 nor the search of Step 2 is entered and `realizable()` returns true. -/
theorem realizable_of_lt (M : MonotonicMap) (hn : 30 < M.n)
    (h : M.logic_.length = 1 ∨ maxTermsInFactor M.logic_ = 1) :
    realizable M = .returned true := by
  rw [realizable_of_constraintPhase_none M (constraintPhase_of_lt M hn)]
  unfold shapePhase
  rw [if_pos h]
  exact allSumProduct_of_lt M hn

/-- C1 (amended): for every `n ≤ 30`, on a map whose `data_` has `2 ^ n`
entries, `monotonic()` returns, and it returns true exactly when, for every
vertex `i < 2 ^ n` and every bit `2 ^ pos` with `pos < n` that is not set in
`i`, `data_[i] ≤ data_[i | 2 ^ pos]`. -/
theorem C1_monotonic_iff_one_bit_steps (M : MonotonicMap) (hwf : WellFormed M)
    (hn : M.n ≤ 30) :
    (∃ r, monotonic M = .returned r) ∧
    (monotonic M = .returned true ↔
      ∀ i, i < 2 ^ M.n → ∀ pos, pos < M.n → i &&& 2 ^ pos = 0 →
        level M i ≤ level M (i ||| 2 ^ pos)) := by
  obtain ⟨hret, hiff⟩ := monotonic_covering M hwf hn
  refine ⟨?_, hiff⟩
  rcases hret with h | h
  · exact ⟨true, h⟩
  · exact ⟨false, h⟩

/-- C1 at the worked example `n = 2`, `data = [0, 0, 0, 1]`: the hypothesis holds
and the theorem gives `monotonic() == true`. -/
theorem C1_monotonic_iff_one_bit_steps_witness :
    WellFormed (mk5 2 1 [2] [] [0, 0, 0, 1]) ∧ (mk5 2 1 [2] [] [0, 0, 0, 1]).n ≤ 30 ∧
    monotonic (mk5 2 1 [2] [] [0, 0, 0, 1]) = .returned true :=
  ⟨by decide, by decide,
   (C1_monotonic_iff_one_bit_steps (mk5 2 1 [2] [] [0, 0, 0, 1]) (by decide)
     (by decide)).2.2 (by decide)⟩

/-- C1 as stated fails at `n = 31`, on the map of `2 ^ 31` entries with
`data_[0] = 1` and every other entry 0: `data_[0] > data_[0 | 2 ^ 0]`, but
`N = (1 << n)` is `INT_MIN`, the loop of `monotonic()` is not entered and the
call returns true. -/
theorem C1_int_shift_counterexample :
    WellFormed (mk5 31 1 [31] [] (1 :: 0 :: List.replicate (2 ^ 31 - 2) 0)) ∧
    (¬ ∀ i, i < 2 ^ 31 → ∀ pos, pos < 31 → i &&& 2 ^ pos = 0 →
      level (mk5 31 1 [31] [] (1 :: 0 :: List.replicate (2 ^ 31 - 2) 0)) i ≤
        level (mk5 31 1 [31] [] (1 :: 0 :: List.replicate (2 ^ 31 - 2) 0)) (i ||| 2 ^ pos)) ∧
    monotonic (mk5 31 1 [31] [] (1 :: 0 :: List.replicate (2 ^ 31 - 2) 0)) = .returned true :=
  ⟨wellFormed_of_length _ (length_two_cons_replicate 1 0 0),
   fun h => absurd (h 0 (by decide) 0 (by decide) (by decide)) (by decide),
   monotonic_of_lt _ (by decide)⟩

/-- C2 (amended): for every `n ≤ 30`, on a map whose `data_` has `2 ^ n`
entries, `monotonic()` returns, and it returns true exactly when
`data_[a] ≤ data_[b]` for all vertices `a, b < 2 ^ n` with `a & b == a` (the
whole inclusion order, not only the one-bit steps the loop visits). -/
theorem C2_monotonic_iff_inclusion_order (M : MonotonicMap) (hwf : WellFormed M)
    (hn : M.n ≤ 30) :
    (∃ r, monotonic M = .returned r) ∧
    (monotonic M = .returned true ↔
      ∀ a b, a < 2 ^ M.n → b < 2 ^ M.n → a &&& b = a → level M a ≤ level M b) := by
  obtain ⟨hret, hiff⟩ := monotonic_covering M hwf hn
  refine ⟨?_, ?_⟩
  · rcases hret with h | h
    · exact ⟨true, h⟩
    · exact ⟨false, h⟩
  · rw [hiff]
    constructor
    · intro hcov a b ha hb hab
      exact covering_to_inclusion M.n (level M) hcov (b - a) a b rfl ha hb hab
    · intro hall i hi pos hpos _
      exact hall i (i ||| 2 ^ pos) hi (or_bit_lt _ _ _ hi hpos) (and_or_bit_self i pos)

/-- C2 at `n = 2`, `data = [0, 1, 0, 0]`: the pair `a = 1 ⊆ b = 3` decreases, and
the theorem gives that `monotonic()` does not return true. -/
theorem C2_monotonic_iff_inclusion_order_witness :
    WellFormed (mk5 2 1 [2] [] [0, 1, 0, 0]) ∧ (mk5 2 1 [2] [] [0, 1, 0, 0]).n ≤ 30 ∧
    monotonic (mk5 2 1 [2] [] [0, 1, 0, 0]) ≠ .returned true :=
  ⟨by decide, by decide, fun h =>
    absurd ((C2_monotonic_iff_inclusion_order (mk5 2 1 [2] [] [0, 1, 0, 0])
      (by decide) (by decide)).2.1 h 1 3 (by decide) (by decide) (by decide)) (by decide)⟩

/-- C2 as stated fails at `n = 31`, on the map of `2 ^ 31` entries with
`data_[1] = 1` and every other entry 0: vertex `1` is included in vertex `3`
and `data_[1] > data_[3]`, but the loop of `monotonic()` is not entered
(`N = INT_MIN`) and the call returns true. -/
theorem C2_int_shift_counterexample :
    WellFormed (mk5 31 1 [31] [] (0 :: 1 :: 0 :: 0 :: List.replicate (2 ^ 31 - 4) 0)) ∧
    (¬ ∀ a b, a < 2 ^ 31 → b < 2 ^ 31 → a &&& b = a →
      level (mk5 31 1 [31] [] (0 :: 1 :: 0 :: 0 :: List.replicate (2 ^ 31 - 4) 0)) a ≤
        level (mk5 31 1 [31] [] (0 :: 1 :: 0 :: 0 :: List.replicate (2 ^ 31 - 4) 0)) b) ∧
    monotonic (mk5 31 1 [31] [] (0 :: 1 :: 0 :: 0 :: List.replicate (2 ^ 31 - 4) 0)) =
      .returned true :=
  ⟨wellFormed_of_length _ (length_four_cons_replicate 0 1 0 0 0),
   fun h => absurd (h 1 3 (by decide) (by decide) (by decide)) (by decide),
   monotonic_of_lt _ (by decide)⟩

/-- C3 (amended): for every `n ≤ 30`, on a map whose `data_` has `2 ^ n`
entries, whatever `logic_` is, if some vertices `a, b < 2 ^ n` and some
constraint `(mask, (x, y))` of `constraints_` satisfy
`(a & ~mask) == (b & ~mask)`, `(a & mask) == x`, `(b & mask) == y` and
`data_[a] > data_[b]`, then `realizable()` returns false. -/
theorem C3_violated_constraint_returns_false (M : MonotonicMap) (hwf : WellFormed M)
    (hn : M.n ≤ 30)
    (a b : Nat) (c : Nat × (Nat × Nat)) (ha : a < 2 ^ M.n) (hb : b < 2 ^ M.n)
    (hc : c ∈ M.constraints_) (hout : andNot a c.1 = andNot b c.1)
    (hx : a &&& c.1 = c.2.1) (hy : b &&& c.1 = c.2.2) (hgt : level M a > level M b) :
    realizable M = .returned false := by
  have hne : constraintPhase M ≠ none := by
    intro h
    exact absurd ((constraintPhase_eq_none_iff M hwf hn).1 h a b ha hb c hc ⟨hout, hx, hy⟩)
      (not_le.2 hgt)
  unfold realizable
  rcases constraintPhase_cases M hwf with h | h
  · exact absurd h hne
  · rw [h]

/-- C3 at `n = 4`, the unsupported factorization `[3, 1]`, constraint
`(1, (1, 0))` and `data_[0] = 0`, `data_[1] = 1`: the pair `a = 1`, `b = 0`
violates the constraint and `realizable()` returns false. -/
theorem C3_violated_constraint_returns_false_witness :
    WellFormed (mk5 4 1 [3, 1] [(1, (1, 0))] [0, 1, 0, 0, 0, 0, 0, 0, 0, 0, 0, 0, 0, 0, 0, 0]) ∧
    (mk5 4 1 [3, 1] [(1, (1, 0))] [0, 1, 0, 0, 0, 0, 0, 0, 0, 0, 0, 0, 0, 0, 0, 0]).n ≤ 30 ∧
    realizable (mk5 4 1 [3, 1] [(1, (1, 0))] [0, 1, 0, 0, 0, 0, 0, 0, 0, 0, 0, 0, 0, 0, 0, 0]) =
      .returned false :=
  ⟨by decide, by decide,
   C3_violated_constraint_returns_false
     (mk5 4 1 [3, 1] [(1, (1, 0))] [0, 1, 0, 0, 0, 0, 0, 0, 0, 0, 0, 0, 0, 0, 0, 0]) (by decide)
     (by decide) 1 0 (1, (1, 0)) (by decide) (by decide) (by decide) (by decide) (by decide)
     (by decide) (by decide)⟩

/-- C3 as stated fails at `n = 31`, factorization `[31]`, constraint
`(1, (1, 0))` and the map of `2 ^ 31` entries with `data_[1] = 1` and every
other entry 0: the pair `a = 1`, `b = 0` meets the guard and
`data_[1] > data_[0]`, but `N = (1 << n)` is `INT_MIN`, Step 1 and the all-sum
search are not entered, and `realizable()` returns true. -/
theorem C3_int_shift_counterexample :
    WellFormed (mk5 31 1 [31] [(1, (1, 0))] (0 :: 1 :: List.replicate (2 ^ 31 - 2) 0)) ∧
    1 < 2 ^ 31 ∧ 0 < 2 ^ 31 ∧
    (1, (1, 0)) ∈ (mk5 31 1 [31] [(1, (1, 0))]
      (0 :: 1 :: List.replicate (2 ^ 31 - 2) 0)).constraints_ ∧
    andNot 1 1 = andNot 0 1 ∧ 1 &&& 1 = 1 ∧ 0 &&& 1 = 0 ∧
    level (mk5 31 1 [31] [(1, (1, 0))] (0 :: 1 :: List.replicate (2 ^ 31 - 2) 0)) 1 >
      level (mk5 31 1 [31] [(1, (1, 0))] (0 :: 1 :: List.replicate (2 ^ 31 - 2) 0)) 0 ∧
    realizable (mk5 31 1 [31] [(1, (1, 0))] (0 :: 1 :: List.replicate (2 ^ 31 - 2) 0)) =
      .returned true :=
  ⟨wellFormed_of_length _ (length_two_cons_replicate 0 1 0), by decide, by decide,
   List.mem_singleton.2 rfl, by decide, by decide, by decide, by decide,
   realizable_of_lt _ (by decide) (Or.inl rfl)⟩

theorem scanFree_spec (data : List Int) (i a b : Nat) (cs : List Nat)
    (hin : ∀ c ∈ cs, c &&& i = 0 → a ||| c < data.length ∧ b ||| c < data.length) :
    ∀ less greater : Bool, ¬ (less = true ∧ greater = true) →
      scanFree data i a b cs less greater =
        if (less = true ∨ ∃ c ∈ cs, c &&& i = 0 ∧ data.getD (a ||| c) 0 < data.getD (b ||| c) 0) ∧
           (greater = true ∨ ∃ c ∈ cs, c &&& i = 0 ∧ data.getD (a ||| c) 0 > data.getD (b ||| c) 0)
        then some (.returned false) else none := by
  induction cs with
  | nil =>
    intro less greater hinv
    simp only [scanFree, List.not_mem_nil, false_and, exists_false, or_false]
    rw [if_neg hinv]
  | cons c cs ih =>
    intro less greater hinv
    have hin1 : ∀ c1 ∈ cs, c1 &&& i = 0 → a ||| c1 < data.length ∧ b ||| c1 < data.length :=
      fun c1 h1 => hin c1 (List.mem_cons_of_mem _ h1)
    by_cases hci : c &&& i = 0
    · obtain ⟨hac, hbc⟩ := hin c (List.mem_cons_self _ _) hci
      simp only [scanFree, hci, ne_eq, not_true_eq_false, if_false,
        getElem?_eq_getD data _ hac, getElem?_eq_getD data _ hbc, List.exists_mem_cons_iff,
        true_and, gt_iff_lt] at hinv ⊢
      rcases lt_trichotomy (data.getD (a ||| c) 0) (data.getD (b ||| c) 0) with hlt | heq | hgt
      · have hng : ¬ data.getD (b ||| c) 0 < data.getD (a ||| c) 0 := not_lt.2 (le_of_lt hlt)
        simp only [hlt, hng, if_true, if_false, Bool.true_and, true_or, or_true, false_or]
        cases greater with
        | true => simp
        | false =>
          rw [ih hin1 true false (by simp)]
          simp
      · have h1 : ¬ data.getD (a ||| c) 0 < data.getD (b ||| c) 0 := by rw [heq]; exact lt_irrefl _
        have h2 : ¬ data.getD (b ||| c) 0 < data.getD (a ||| c) 0 := by rw [heq]; exact lt_irrefl _
        simp only [h1, h2, if_false, false_or]
        have hb : (less && greater) = false := by
          cases less <;> cases greater <;> simp at hinv ⊢
        rw [hb]
        simp only [Bool.false_eq_true, if_false]
        exact ih hin1 less greater hinv
      · have hnl : ¬ data.getD (a ||| c) 0 < data.getD (b ||| c) 0 := not_lt.2 (le_of_lt hgt)
        simp only [hgt, hnl, if_true, if_false, Bool.and_true, true_or, or_true, false_or]
        cases less with
        | true => simp
        | false =>
          rw [ih hin1 false true (by simp)]
          simp
    · simp only [scanFree, ne_eq, hci, not_false_eq_true, if_true, List.exists_mem_cons_iff,
        false_and, false_or]
      exact ih hin1 less greater hinv

/-- A loop whose iteration on `x` leaves with `r` exactly when `P x` holds
leaves with `r` exactly when some element satisfies `P`. -/
theorem firstExit_guard {α β : Type} (body : α → Option β) (xs : List α) (r : β)
    (P : α → Prop)
    (h : ∀ x ∈ xs, (P x → body x = some r) ∧ (¬ P x → body x = none)) :
    ((∃ x ∈ xs, P x) → firstExit body xs = some r) ∧
    ((¬ ∃ x ∈ xs, P x) → firstExit body xs = none) := by
  constructor
  · rintro ⟨x, hx, hp⟩
    apply firstExit_of_exists
    · intro y hy
      by_cases hpy : P y
      · exact Or.inr ((h y hy).1 hpy)
      · exact Or.inl ((h y hy).2 hpy)
    · exact ⟨x, hx, (h x hx).1 hp⟩
  · intro hno
    rw [firstExit_eq_none_iff]
    intro x hx
    exact (h x hx).2 (fun hp => hno ⟨x, hx, hp⟩)

/-- The all-sum / all-product search on a well-formed map with `n ≤ 30`: it
returns, and it returns false exactly when some `(I, a, b)` has a free
assignment with `<` and one with `>`. -/
theorem allSumProduct_spec (M : MonotonicMap) (hwf : WellFormed M) (hn : M.n ≤ 30) :
    ((∃ I, I < 2 ^ M.n ∧ ∃ a, a < 2 ^ M.n ∧ a &&& I = a ∧ ∃ b, b < 2 ^ M.n ∧ b &&& I = b ∧
        (∃ c1, c1 < 2 ^ M.n ∧ c1 &&& I = 0 ∧ level M (a ||| c1) < level M (b ||| c1)) ∧
        (∃ c2, c2 < 2 ^ M.n ∧ c2 &&& I = 0 ∧ level M (a ||| c2) > level M (b ||| c2))) →
      allSumProduct M = .returned false) ∧
    ((¬ ∃ I, I < 2 ^ M.n ∧ ∃ a, a < 2 ^ M.n ∧ a &&& I = a ∧ ∃ b, b < 2 ^ M.n ∧ b &&& I = b ∧
        (∃ c1, c1 < 2 ^ M.n ∧ c1 &&& I = 0 ∧ level M (a ||| c1) < level M (b ||| c1)) ∧
        (∃ c2, c2 < 2 ^ M.n ∧ c2 &&& I = 0 ∧ level M (a ||| c2) > level M (b ||| c2))) →
      allSumProduct M = .returned true) := by
  have hscan : ∀ i a b, a < 2 ^ M.n → b < 2 ^ M.n →
      (((∃ c1, c1 < 2 ^ M.n ∧ c1 &&& i = 0 ∧ level M (a ||| c1) < level M (b ||| c1)) ∧
        (∃ c2, c2 < 2 ^ M.n ∧ c2 &&& i = 0 ∧ level M (a ||| c2) > level M (b ||| c2))) →
        scanFree M.data_ i a b (List.range (1 <<< M.n)) false false = some (.returned false)) ∧
      ((¬ ((∃ c1, c1 < 2 ^ M.n ∧ c1 &&& i = 0 ∧ level M (a ||| c1) < level M (b ||| c1)) ∧
        (∃ c2, c2 < 2 ^ M.n ∧ c2 &&& i = 0 ∧ level M (a ||| c2) > level M (b ||| c2)))) →
        scanFree M.data_ i a b (List.range (1 <<< M.n)) false false = none) := by
    intro i a b ha hb
    have hin : ∀ c ∈ List.range (1 <<< M.n), c &&& i = 0 →
        a ||| c < M.data_.length ∧ b ||| c < M.data_.length := by
      intro c hc _
      rw [mem_range_shift] at hc
      rw [hwf]
      exact ⟨Nat.or_lt_two_pow ha hc, Nat.or_lt_two_pow hb hc⟩
    rw [scanFree_spec M.data_ i a b _ hin false false (by simp)]
    simp only [Bool.false_eq_true, false_or, mem_range_shift, level]
    constructor
    · rintro ⟨⟨c1, h1, h1'⟩, ⟨c2, h2, h2'⟩⟩
      rw [if_pos ⟨⟨c1, h1, h1'⟩, ⟨c2, h2, h2'⟩⟩]
    · intro hno
      rw [if_neg]
      rintro ⟨⟨c1, h1, h1'⟩, ⟨c2, h2, h2'⟩⟩
      exact hno ⟨⟨c1, h1, h1'⟩, ⟨c2, h2, h2'⟩⟩
  have hB : ∀ i a, a < 2 ^ M.n → ∀ b ∈ List.range (1 <<< M.n),
      ((b &&& i = b ∧
        (∃ c1, c1 < 2 ^ M.n ∧ c1 &&& i = 0 ∧ level M (a ||| c1) < level M (b ||| c1)) ∧
        (∃ c2, c2 < 2 ^ M.n ∧ c2 &&& i = 0 ∧ level M (a ||| c2) > level M (b ||| c2))) →
        (if b &&& i ≠ b then none
          else scanFree M.data_ i a b (List.range (1 <<< M.n)) false false) =
          some (.returned false)) ∧
      ((¬ (b &&& i = b ∧
        (∃ c1, c1 < 2 ^ M.n ∧ c1 &&& i = 0 ∧ level M (a ||| c1) < level M (b ||| c1)) ∧
        (∃ c2, c2 < 2 ^ M.n ∧ c2 &&& i = 0 ∧ level M (a ||| c2) > level M (b ||| c2)))) →
        (if b &&& i ≠ b then none
          else scanFree M.data_ i a b (List.range (1 <<< M.n)) false false) = none) := by
    intro i a ha b hb
    rw [mem_range_shift] at hb
    constructor
    · rintro ⟨hbi, hconf⟩
      rw [if_neg (not_not.2 hbi)]
      exact (hscan i a b ha hb).1 hconf
    · intro hno
      by_cases hbi : b &&& i = b
      · rw [if_neg (not_not.2 hbi)]
        exact (hscan i a b ha hb).2 (fun hconf => hno ⟨hbi, hconf⟩)
      · rw [if_pos hbi]
  have hA : ∀ i, ∀ a ∈ List.range (1 <<< M.n),
      ((a &&& i = a ∧ ∃ b ∈ List.range (1 <<< M.n), b &&& i = b ∧
        (∃ c1, c1 < 2 ^ M.n ∧ c1 &&& i = 0 ∧ level M (a ||| c1) < level M (b ||| c1)) ∧
        (∃ c2, c2 < 2 ^ M.n ∧ c2 &&& i = 0 ∧ level M (a ||| c2) > level M (b ||| c2))) →
        (if a &&& i ≠ a then none
          else firstExit (fun b => if b &&& i ≠ b then none
            else scanFree M.data_ i a b (List.range (1 <<< M.n)) false false)
            (List.range (1 <<< M.n))) = some (.returned false)) ∧
      ((¬ (a &&& i = a ∧ ∃ b ∈ List.range (1 <<< M.n), b &&& i = b ∧
        (∃ c1, c1 < 2 ^ M.n ∧ c1 &&& i = 0 ∧ level M (a ||| c1) < level M (b ||| c1)) ∧
        (∃ c2, c2 < 2 ^ M.n ∧ c2 &&& i = 0 ∧ level M (a ||| c2) > level M (b ||| c2)))) →
        (if a &&& i ≠ a then none
          else firstExit (fun b => if b &&& i ≠ b then none
            else scanFree M.data_ i a b (List.range (1 <<< M.n)) false false)
            (List.range (1 <<< M.n))) = none) := by
    intro i a ha
    rw [mem_range_shift] at ha
    have hg := firstExit_guard _ (List.range (1 <<< M.n)) (Outcome.returned false) _ (hB i a ha)
    constructor
    · rintro ⟨hai, hconf⟩
      rw [if_neg (not_not.2 hai)]
      exact hg.1 hconf
    · intro hno
      by_cases hai : a &&& i = a
      · rw [if_neg (not_not.2 hai)]
        exact hg.2 (fun hconf => hno ⟨hai, hconf⟩)
      · rw [if_pos hai]
  have hI := firstExit_guard _ (List.range (1 <<< M.n)) (Outcome.returned false) _
    (fun i (_ : i ∈ List.range (1 <<< M.n)) =>
      firstExit_guard _ (List.range (1 <<< M.n)) (Outcome.returned false) _ (hA i))
  unfold allSumProduct
  dsimp only
  rw [upTo_shiftOne M.n hn]
  constructor
  · rintro ⟨I, hI1, a, ha, hai, b, hb, hbi, hconf⟩
    rw [hI.1 ⟨I, (mem_range_shift _ _).2 hI1, a, (mem_range_shift _ _).2 ha, hai, b,
      (mem_range_shift _ _).2 hb, hbi, hconf⟩]
  · intro hno
    rw [hI.2]
    rintro ⟨I, hI1, a, ha, hai, b, hb, hbi, hconf⟩
    exact hno ⟨I, (mem_range_shift _ _).1 hI1, a, (mem_range_shift _ _).1 ha, hai, b,
      (mem_range_shift _ _).1 hb, hbi, hconf⟩

/-- On a well-formed map the all-sum / all-product search returns a boolean,
whatever `n` is. -/
theorem allSumProduct_returns (M : MonotonicMap) (hwf : WellFormed M) :
    ∃ r, allSumProduct M = .returned r := by
  by_cases hn : M.n ≤ 30
  · by_cases hconf : ∃ I, I < 2 ^ M.n ∧ ∃ a, a < 2 ^ M.n ∧ a &&& I = a ∧ ∃ b, b < 2 ^ M.n ∧
        b &&& I = b ∧
        (∃ c1, c1 < 2 ^ M.n ∧ c1 &&& I = 0 ∧ level M (a ||| c1) < level M (b ||| c1)) ∧
        (∃ c2, c2 < 2 ^ M.n ∧ c2 &&& I = 0 ∧ level M (a ||| c2) > level M (b ||| c2))
    · exact ⟨false, (allSumProduct_spec M hwf hn).1 hconf⟩
    · exact ⟨true, (allSumProduct_spec M hwf hn).2 hconf⟩
  · exact ⟨true, allSumProduct_of_lt M (by omega)⟩

/-! ## Step 2 of `realizable`: the dispatch -/

theorem foldl_max_ge_acc (l : List Int) : ∀ acc : Int, acc ≤ l.foldl (fun acc l => max acc l) acc := by
  induction l with
  | nil => intro acc; exact le_refl _
  | cons x xs ih =>
    intro acc
    exact le_trans (le_max_left acc x) (ih (max acc x))

theorem foldl_max_ge_mem (l : List Int) :
    ∀ acc : Int, ∀ f ∈ l, f ≤ l.foldl (fun acc l => max acc l) acc := by
  induction l with
  | nil => intro acc f hf; cases hf
  | cons x xs ih =>
    intro acc f hf
    rcases List.mem_cons.1 hf with h | h
    · rw [h]
      exact le_trans (le_max_right acc x) (foldl_max_ge_acc xs (max acc x))
    · exact ih (max acc x) f h

theorem foldl_max_ones (l : List Int) (h : ∀ f ∈ l, f = 1) :
    ∀ acc : Int, 1 ≤ acc → l.foldl (fun acc l => max acc l) acc = acc := by
  induction l with
  | nil => intro acc _; rfl
  | cons x xs ih =>
    intro acc hacc
    have hx : x = 1 := h x (List.mem_cons_self _ _)
    have hmax : max acc x = acc := by rw [hx]; exact max_eq_left hacc
    rw [List.foldl_cons, hmax]
    exact ih (fun f hf => h f (List.mem_cons_of_mem _ hf)) acc hacc

/-- A non-empty factorization of ones has `max_terms_in_factor == 1`. -/
theorem maxTermsInFactor_ones (l : List Int) (hne : l ≠ []) (h : ∀ f ∈ l, f = 1) :
    maxTermsInFactor l = 1 := by
  cases l with
  | nil => exact absurd rfl hne
  | cons x xs =>
    have hx : x = 1 := h x (List.mem_cons_self _ _)
    unfold maxTermsInFactor
    rw [List.foldl_cons, hx]
    exact foldl_max_ones xs (fun f hf => h f (List.mem_cons_of_mem _ hf)) (max 0 1) (by decide)

/-- With positive entries, `max_terms_in_factor == 1` only for a factorization
of ones. -/
theorem ones_of_maxTermsInFactor (l : List Int) (hpos : ∀ f ∈ l, 0 < f)
    (h : maxTermsInFactor l = 1) : ∀ f ∈ l, f = 1 := by
  intro f hf
  have h1 : f ≤ 1 := by
    have := foldl_max_ge_mem l 0 f hf
    unfold maxTermsInFactor at h
    rw [h] at this
    exact this
  have h2 := hpos f hf
  omega

theorem shapePhase_allSumProduct (M : MonotonicMap)
    (hshape : M.logic_.length = 1 ∨ (M.logic_ ≠ [] ∧ ∀ f ∈ M.logic_, f = 1)) :
    shapePhase M = allSumProduct M := by
  unfold shapePhase
  rw [if_pos]
  rcases hshape with h | ⟨hne, hall⟩
  · exact Or.inl h
  · exact Or.inr (maxTermsInFactor_ones _ hne hall)

/-- C4 (amended): for every `n ≤ 30`, on a map whose `data_` has `2 ^ n`
entries, whose `logic_` has exactly one entry or is non-empty with every entry
1, and whose Step 1 is left without returning, `realizable()` returns, and it
returns true exactly when no `I, a, b < 2 ^ n` with `a & I == a`, `b & I == b`
have both a `c1 < 2 ^ n` disjoint from `I` with `data_[a | c1] < data_[b | c1]`
and a `c2 < 2 ^ n` disjoint from `I` with `data_[a | c2] > data_[b | c2]`. -/
theorem C4_all_sum_all_product (M : MonotonicMap) (hwf : WellFormed M) (hn : M.n ≤ 30)
    (hshape : M.logic_.length = 1 ∨ (M.logic_ ≠ [] ∧ ∀ f ∈ M.logic_, f = 1))
    (hcons : constraintPhase M = none) :
    (∃ r, realizable M = .returned r) ∧
    (realizable M = .returned true ↔
      ¬ ∃ I, I < 2 ^ M.n ∧ ∃ a, a < 2 ^ M.n ∧ a &&& I = a ∧ ∃ b, b < 2 ^ M.n ∧ b &&& I = b ∧
        (∃ c1, c1 < 2 ^ M.n ∧ c1 &&& I = 0 ∧ level M (a ||| c1) < level M (b ||| c1)) ∧
        (∃ c2, c2 < 2 ^ M.n ∧ c2 &&& I = 0 ∧ level M (a ||| c2) > level M (b ||| c2))) := by
  rw [realizable_of_constraintPhase_none M hcons, shapePhase_allSumProduct M hshape]
  obtain ⟨hfalse, htrue⟩ := allSumProduct_spec M hwf hn
  by_cases hconf : ∃ I, I < 2 ^ M.n ∧ ∃ a, a < 2 ^ M.n ∧ a &&& I = a ∧ ∃ b, b < 2 ^ M.n ∧
      b &&& I = b ∧
      (∃ c1, c1 < 2 ^ M.n ∧ c1 &&& I = 0 ∧ level M (a ||| c1) < level M (b ||| c1)) ∧
      (∃ c2, c2 < 2 ^ M.n ∧ c2 &&& I = 0 ∧ level M (a ||| c2) > level M (b ||| c2))
  · rw [hfalse hconf]
    exact ⟨⟨false, rfl⟩, ⟨fun h => (by cases h), fun h => absurd hconf h⟩⟩
  · rw [htrue hconf]
    exact ⟨⟨true, rfl⟩, ⟨fun _ => hconf, fun _ => rfl⟩⟩

/-- C4 at the worked example `n = 2`, `m = 1`, factorization `[2]`,
`data = [0, 0, 0, 1]`: the hypotheses hold and `realizable()` returns true. -/
theorem C4_all_sum_all_product_witness :
    WellFormed (mk5 2 1 [2] [] [0, 0, 0, 1]) ∧ (mk5 2 1 [2] [] [0, 0, 0, 1]).n ≤ 30 ∧
    constraintPhase (mk5 2 1 [2] [] [0, 0, 0, 1]) = none ∧
    realizable (mk5 2 1 [2] [] [0, 0, 0, 1]) = .returned true :=
  ⟨by decide, by decide, by decide,
   (C4_all_sum_all_product (mk5 2 1 [2] [] [0, 0, 0, 1]) (by decide) (by decide)
     (Or.inl (by decide)) (by decide)).2.2 (by decide)⟩

/-- C4 as stated fails at two inputs. At `n = 0` with the empty factorization,
whose factors are (vacuously) all of size 1: the map is well-formed, Step 1
passes and no `(I, a, b)` is in conflict, but `realizable()` throws. At
`n = 31` with the factorization `[31]`, no constraint and the data
`0, 1, 1, 0, 0, ...` (`2 ^ 31` entries): `I = 1`, `a = 0`, `b = 1` are in
conflict (`c1 = 0` gives `data_[0] < data_[1]`, `c2 = 2` gives
`data_[2] > data_[3]`), but `N = (1 << n)` is `INT_MIN`, the search is not
entered and `realizable()` returns true. -/
theorem C4_empty_factorization_counterexample :
    (WellFormed (mk5 0 1 [] [] [0]) ∧
    (∀ f ∈ (mk5 0 1 [] [] [0]).logic_, f = 1) ∧
    constraintPhase (mk5 0 1 [] [] [0]) = none ∧
    (¬ ∃ I, I < 2 ^ 0 ∧ ∃ a, a < 2 ^ 0 ∧ a &&& I = a ∧ ∃ b, b < 2 ^ 0 ∧ b &&& I = b ∧
        (∃ c1, c1 < 2 ^ 0 ∧ c1 &&& I = 0 ∧
          level (mk5 0 1 [] [] [0]) (a ||| c1) < level (mk5 0 1 [] [] [0]) (b ||| c1)) ∧
        (∃ c2, c2 < 2 ^ 0 ∧ c2 &&& I = 0 ∧
          level (mk5 0 1 [] [] [0]) (a ||| c2) > level (mk5 0 1 [] [] [0]) (b ||| c2))) ∧
    realizable (mk5 0 1 [] [] [0]) = .unsupportedFactorization) ∧
    (WellFormed (mk5 31 1 [31] [] (0 :: 1 :: 1 :: 0 :: List.replicate (2 ^ 31 - 4) 0)) ∧
    (mk5 31 1 [31] [] (0 :: 1 :: 1 :: 0 :: List.replicate (2 ^ 31 - 4) 0)).logic_.length = 1 ∧
    constraintPhase (mk5 31 1 [31] [] (0 :: 1 :: 1 :: 0 :: List.replicate (2 ^ 31 - 4) 0)) =
      none ∧
    (∃ I, I < 2 ^ 31 ∧ ∃ a, a < 2 ^ 31 ∧ a &&& I = a ∧ ∃ b, b < 2 ^ 31 ∧ b &&& I = b ∧
        (∃ c1, c1 < 2 ^ 31 ∧ c1 &&& I = 0 ∧
          level (mk5 31 1 [31] [] (0 :: 1 :: 1 :: 0 :: List.replicate (2 ^ 31 - 4) 0))
              (a ||| c1) <
            level (mk5 31 1 [31] [] (0 :: 1 :: 1 :: 0 :: List.replicate (2 ^ 31 - 4) 0))
              (b ||| c1)) ∧
        (∃ c2, c2 < 2 ^ 31 ∧ c2 &&& I = 0 ∧
          level (mk5 31 1 [31] [] (0 :: 1 :: 1 :: 0 :: List.replicate (2 ^ 31 - 4) 0))
              (a ||| c2) >
            level (mk5 31 1 [31] [] (0 :: 1 :: 1 :: 0 :: List.replicate (2 ^ 31 - 4) 0))
              (b ||| c2))) ∧
    realizable (mk5 31 1 [31] [] (0 :: 1 :: 1 :: 0 :: List.replicate (2 ^ 31 - 4) 0)) =
      .returned true) :=
  ⟨⟨by decide, by decide, by decide, by decide, by decide⟩,
   ⟨wellFormed_of_length _ (length_four_cons_replicate 0 1 1 0 0), rfl,
    constraintPhase_of_lt _ (by decide),
    ⟨1, by decide, 0, by decide, by decide, 1, by decide, by decide,
      ⟨0, by decide, by decide, by decide⟩, ⟨2, by decide, by decide, by decide⟩⟩,
    realizable_of_lt _ (by decide) (Or.inl rfl)⟩⟩


/-! ## The two-factor cases (2, 1) and (1, 2) -/

theorem shapePhase_case21 (M : MonotonicMap) (h : M.logic_ = [2, 1]) :
    shapePhase M = case21 M.data_ := by
  unfold shapePhase
  rw [h, if_neg (by decide), if_pos (by decide), if_pos (by decide)]

theorem shapePhase_case12 (M : MonotonicMap) (h : M.logic_ = [1, 2]) :
    shapePhase M = case12 M.data_ := by
  unfold shapePhase
  rw [h, if_neg (by decide), if_pos (by decide), if_neg (by decide), if_pos (by decide)]

/-- Case (2, 1) on eight entries: it returns, and it returns true exactly when
the four rules hold. -/
theorem case21_spec (data : List Int) (hlen : data.length = 8) :
    (∃ r, case21 data = .returned r) ∧
    (case21 data = .returned true ↔
      (data.getD 2 0 < data.getD 1 0 → data.getD 6 0 ≤ data.getD 5 0) ∧
      (data.getD 4 0 < data.getD 1 0 → data.getD 6 0 ≤ data.getD 3 0) ∧
      (data.getD 2 0 > data.getD 4 0 → data.getD 3 0 ≥ data.getD 5 0) ∧
      (data.getD 2 0 < data.getD 4 0 → data.getD 3 0 ≤ data.getD 5 0)) := by
  unfold case21
  rw [getElem?_eq_getD data 1 (by omega), getElem?_eq_getD data 2 (by omega),
    getElem?_eq_getD data 3 (by omega), getElem?_eq_getD data 4 (by omega),
    getElem?_eq_getD data 5 (by omega), getElem?_eq_getD data 6 (by omega)]
  dsimp only
  split_ifs with h1 h2 h3 h4
  · exact ⟨⟨false, rfl⟩, ⟨fun h => (by cases h), fun h => absurd (h.1 h1.1) h1.2⟩⟩
  · exact ⟨⟨false, rfl⟩, ⟨fun h => (by cases h), fun h => absurd (h.2.1 h2.1) h2.2⟩⟩
  · exact ⟨⟨false, rfl⟩, ⟨fun h => (by cases h), fun h => absurd (h.2.2.1 h3.1) h3.2⟩⟩
  · exact ⟨⟨false, rfl⟩, ⟨fun h => (by cases h), fun h => absurd (h.2.2.2 h4.1) h4.2⟩⟩
  · refine ⟨⟨true, rfl⟩, ⟨fun _ => ⟨?_, ?_, ?_, ?_⟩, fun _ => rfl⟩⟩
    · intro h; by_contra hc; exact h1 ⟨h, hc⟩
    · intro h; by_contra hc; exact h2 ⟨h, hc⟩
    · intro h; by_contra hc; exact h3 ⟨h, hc⟩
    · intro h; by_contra hc; exact h4 ⟨h, hc⟩

/-- Case (1, 2) on eight entries: it returns, and it returns true exactly when
the four rotated rules hold. -/
theorem case12_spec (data : List Int) (hlen : data.length = 8) :
    (∃ r, case12 data = .returned r) ∧
    (case12 data = .returned true ↔
      (data.getD 1 0 < data.getD 4 0 → data.getD 3 0 ≤ data.getD 6 0) ∧
      (data.getD 2 0 < data.getD 4 0 → data.getD 3 0 ≤ data.getD 5 0) ∧
      (data.getD 1 0 > data.getD 2 0 → data.getD 5 0 ≥ data.getD 6 0) ∧
      (data.getD 1 0 < data.getD 2 0 → data.getD 5 0 ≤ data.getD 6 0)) := by
  unfold case12
  rw [getElem?_eq_getD data 1 (by omega), getElem?_eq_getD data 2 (by omega),
    getElem?_eq_getD data 3 (by omega), getElem?_eq_getD data 4 (by omega),
    getElem?_eq_getD data 5 (by omega), getElem?_eq_getD data 6 (by omega)]
  dsimp only
  split_ifs with h1 h2 h3 h4
  · exact ⟨⟨false, rfl⟩, ⟨fun h => (by cases h), fun h => absurd (h.1 h1.1) h1.2⟩⟩
  · exact ⟨⟨false, rfl⟩, ⟨fun h => (by cases h), fun h => absurd (h.2.1 h2.1) h2.2⟩⟩
  · exact ⟨⟨false, rfl⟩, ⟨fun h => (by cases h), fun h => absurd (h.2.2.1 h3.1) h3.2⟩⟩
  · exact ⟨⟨false, rfl⟩, ⟨fun h => (by cases h), fun h => absurd (h.2.2.2 h4.1) h4.2⟩⟩
  · refine ⟨⟨true, rfl⟩, ⟨fun _ => ⟨?_, ?_, ?_, ?_⟩, fun _ => rfl⟩⟩
    · intro h; by_contra hc; exact h1 ⟨h, hc⟩
    · intro h; by_contra hc; exact h2 ⟨h, hc⟩
    · intro h; by_contra hc; exact h3 ⟨h, hc⟩
    · intro h; by_contra hc; exact h4 ⟨h, hc⟩

theorem eq_of_length_eight (D : List Int) (h : D.length = 8) :
    ∃ d0 d1 d2 d3 d4 d5 d6 d7, D = [d0, d1, d2, d3, d4, d5, d6, d7] := by
  match D, h with
  | [d0, d1, d2, d3, d4, d5, d6, d7], _ => exact ⟨d0, d1, d2, d3, d4, d5, d6, d7, rfl⟩

/-- Case (1, 2) on `D` is case (2, 1) on the rotated array. -/
theorem case12_eq_case21_rotated (D : List Int) (h : D.length = 8) :
    case12 D = case21 (rotated D) := by
  obtain ⟨d0, d1, d2, d3, d4, d5, d6, d7, rfl⟩ := eq_of_length_eight D h
  rfl

/-- C5: for `n = 3`, `logic_ = [2, 1]` and eight data entries, when Step 1 is
left without returning, `realizable()` returns, and it returns true exactly when
`D010<D001 ⇒ D110≤D101`, `D100<D001 ⇒ D110≤D011`, `D010>D100 ⇒ D011≥D101` and
`D010<D100 ⇒ D011≤D101` all hold; and any data with `data_[2] = 0`,
`data_[1] = 1`, `data_[6] = 1`, `data_[5] = 0` makes `realizable()` return
false. -/
theorem C5_case_2_1 (M : MonotonicMap) (hn : M.n = 3) (hlogic : M.logic_ = [2, 1])
    (hlen : M.data_.length = 8) :
    (constraintPhase M = none →
      (∃ r, realizable M = .returned r) ∧
      (realizable M = .returned true ↔
        (level M 2 < level M 1 → level M 6 ≤ level M 5) ∧
        (level M 4 < level M 1 → level M 6 ≤ level M 3) ∧
        (level M 2 > level M 4 → level M 3 ≥ level M 5) ∧
        (level M 2 < level M 4 → level M 3 ≤ level M 5))) ∧
    (level M 2 = 0 → level M 1 = 1 → level M 6 = 1 → level M 5 = 0 →
      realizable M = .returned false) := by
  have hwf : WellFormed M := by unfold WellFormed; rw [hlen, hn]; rfl
  constructor
  · intro hcons
    rw [realizable_of_constraintPhase_none M hcons, shapePhase_case21 M hlogic]
    exact case21_spec M.data_ hlen
  · intro h2 h1 h6 h5
    rcases constraintPhase_cases M hwf with hcons | hcons
    · rw [realizable_of_constraintPhase_none M hcons, shapePhase_case21 M hlogic]
      obtain ⟨⟨r, hr⟩, hiff⟩ := case21_spec M.data_ hlen
      cases r with
      | false => exact hr
      | true =>
        have := (hiff.1 hr).1
        unfold level at h2 h1 h6 h5
        rw [h2, h1, h6, h5] at this
        exact absurd (this (by decide)) (by decide)
    · unfold realizable
      rw [hcons]

/-- C5 at the worked example `data = [0, 1, 0, 0, 0, 0, 1, 0]`: rule
`D010<D001 ⇒ D110≤D101` is violated and `realizable()` returns false. -/
theorem C5_case_2_1_witness :
    (mk5 3 1 [2, 1] [] [0, 1, 0, 0, 0, 0, 1, 0]).n = 3 ∧
    (mk5 3 1 [2, 1] [] [0, 1, 0, 0, 0, 0, 1, 0]).logic_ = [2, 1] ∧
    (mk5 3 1 [2, 1] [] [0, 1, 0, 0, 0, 0, 1, 0]).data_.length = 8 ∧
    realizable (mk5 3 1 [2, 1] [] [0, 1, 0, 0, 0, 0, 1, 0]) = .returned false :=
  ⟨rfl, rfl, rfl,
   (C5_case_2_1 (mk5 3 1 [2, 1] [] [0, 1, 0, 0, 0, 0, 1, 0]) rfl rfl rfl).2
     (by decide) (by decide) (by decide) (by decide)⟩

/-- C6: for eight data entries `D`, `n = 3` and no constraints, `realizable()`
with `logic_ = [1, 2]` on `D` is `realizable()` with `logic_ = [2, 1]` on `D'`,
`D'[v] = D[rot v]`; it returns, and it returns true exactly when
`D001<D100 ⇒ D011≤D110`, `D010<D100 ⇒ D011≤D101`, `D001>D010 ⇒ D101≥D110` and
`D001<D010 ⇒ D101≤D110` all hold. -/
theorem C6_case_1_2_is_rotated_2_1 (m : Int) (D : List Int) (hlen : D.length = 8) :
    realizable (mk5 3 m [1, 2] [] D) = realizable (mk5 3 m [2, 1] [] (rotated D)) ∧
    (∃ r, realizable (mk5 3 m [1, 2] [] D) = .returned r) ∧
    (realizable (mk5 3 m [1, 2] [] D) = .returned true ↔
      (D.getD 1 0 < D.getD 4 0 → D.getD 3 0 ≤ D.getD 6 0) ∧
      (D.getD 2 0 < D.getD 4 0 → D.getD 3 0 ≤ D.getD 5 0) ∧
      (D.getD 1 0 > D.getD 2 0 → D.getD 5 0 ≥ D.getD 6 0) ∧
      (D.getD 1 0 < D.getD 2 0 → D.getD 5 0 ≤ D.getD 6 0)) := by
  have h12 : realizable (mk5 3 m [1, 2] [] D) = case12 D := by
    rw [realizable_of_constraintPhase_none _ (constraintPhase_nil _ rfl),
      shapePhase_case12 _ rfl]
    rfl
  have h21 : realizable (mk5 3 m [2, 1] [] (rotated D)) = case21 (rotated D) := by
    rw [realizable_of_constraintPhase_none _ (constraintPhase_nil _ rfl),
      shapePhase_case21 _ rfl]
    rfl
  rw [h12, h21]
  exact ⟨case12_eq_case21_rotated D hlen, case12_spec D hlen⟩

/-- C6 at `D = [0, 1, 0, 1, 1, 0, 0, 1]`: rule `D001<D010 ⇒ D101≤D110` does not
apply, rule `D001>D010 ⇒ D101≥D110` holds, and both sides return true. -/
theorem C6_case_1_2_is_rotated_2_1_witness :
    [0, 1, 0, 1, 1, 0, 0, 1].length = 8 ∧
    realizable (mk5 3 1 [1, 2] [] [0, 1, 0, 1, 1, 0, 0, 1]) =
      realizable (mk5 3 1 [2, 1] [] (rotated [0, 1, 0, 1, 1, 0, 0, 1])) :=
  ⟨rfl, (C6_case_1_2_is_rotated_2_1 1 [0, 1, 0, 1, 1, 0, 0, 1] rfl).1⟩

/-! ## The two-factor case (2, 2) -/

theorem mix_lt_sixteen (x v s t : Nat) (hx : x < 16) (hv : v < 16) :
    (x &&& s) ||| (v &&& t) < 16 :=
  @Nat.or_lt_two_pow _ _ 4 (lt_of_le_of_lt Nat.and_le_left hx)
    (lt_of_le_of_lt Nat.and_le_left hv)

theorem slice_index_lt (x v slice : Nat) (hx : x < 16) (hv : v < 16) :
    (x &&& slice) ||| andNot v slice < 16 :=
  mix_lt_sixteen x v slice _ hx hv

theorem slice_index_lt2 (x v slice : Nat) (hx : x < 16) (hv : v < 16) :
    andNot x slice ||| (v &&& slice) < 16 :=
  mix_lt_sixteen x v _ slice hx hv

theorem promoted_lt_sixteen (x i : Nat) (hx : x < 16) (hi : i < 4) : x ||| 1 <<< i < 16 := by
  rw [Nat.one_shiftLeft]
  exact or_bit_lt 4 x i hx hi

theorem checkSlice_guard (data : List Int) (hlen : data.length = 16) (slice x v : Nat)
    (hx : x < 16) (hv : v < 16) :
    ((data.getD x 0 < data.getD ((x &&& slice) ||| andNot v slice) 0 ∧
        ¬ data.getD (andNot x slice ||| (v &&& slice)) 0 ≤ data.getD v 0) →
      checkSlice data slice x v = some (.returned false)) ∧
    (¬ (data.getD x 0 < data.getD ((x &&& slice) ||| andNot v slice) 0 ∧
        ¬ data.getD (andNot x slice ||| (v &&& slice)) 0 ≤ data.getD v 0) →
      checkSlice data slice x v = none) := by
  unfold checkSlice
  dsimp only
  rw [getElem?_eq_getD data x (by omega), getElem?_eq_getD data v (by omega),
    getElem?_eq_getD data _ (by rw [hlen]; exact slice_index_lt x v slice hx hv),
    getElem?_eq_getD data _ (by rw [hlen]; exact slice_index_lt2 x v slice hx hv)]
  dsimp only
  constructor
  · rintro ⟨h1, h2⟩
    rw [if_pos h1, if_pos h2]
  · intro hno
    by_cases h1 : data.getD x 0 < data.getD ((x &&& slice) ||| andNot v slice) 0
    · rw [if_pos h1, if_neg (fun h2 => hno ⟨h1, h2⟩)]
    · rw [if_neg h1]

/-- The slice conditions on sixteen entries leave with `false` exactly when a
slice, `x` and `v` violate them. -/
theorem sliceConditions_guard (data : List Int) (hlen : data.length = 16) :
    ((∃ slice ∈ slices, ∃ x ∈ List.range 16, ∃ v ∈ List.range 16,
        data.getD x 0 < data.getD ((x &&& slice) ||| andNot v slice) 0 ∧
        ¬ data.getD (andNot x slice ||| (v &&& slice)) 0 ≤ data.getD v 0) →
      sliceConditions data = some (.returned false)) ∧
    ((¬ ∃ slice ∈ slices, ∃ x ∈ List.range 16, ∃ v ∈ List.range 16,
        data.getD x 0 < data.getD ((x &&& slice) ||| andNot v slice) 0 ∧
        ¬ data.getD (andNot x slice ||| (v &&& slice)) 0 ≤ data.getD v 0) →
      sliceConditions data = none) := by
  unfold sliceConditions
  apply firstExit_guard
  intro slice _
  apply firstExit_guard
  intro x hx
  apply firstExit_guard
  intro v hv
  exact checkSlice_guard data hlen slice x v (List.mem_range.1 hx) (List.mem_range.1 hv)

theorem conditionMet_spec (data : List Int) (hlen : data.length = 16) (slice x y : Nat)
    (hx : x < 16) (hy : y < 16) (zs : List Nat) (hzs : ∀ z ∈ zs, z < 16) :
    ((∃ z ∈ zs, data.getD ((x &&& slice) ||| andNot z slice) 0 >
        data.getD ((y &&& slice) ||| andNot z slice) 0) →
      conditionMet data slice x y zs = some true) ∧
    ((¬ ∃ z ∈ zs, data.getD ((x &&& slice) ||| andNot z slice) 0 >
        data.getD ((y &&& slice) ||| andNot z slice) 0) →
      conditionMet data slice x y zs = some false) := by
  induction zs with
  | nil =>
    constructor
    · rintro ⟨z, hz, _⟩; cases hz
    · intro _; rfl
  | cons z zs ih =>
    have hz : z < 16 := hzs z (List.mem_cons_self _ _)
    obtain ⟨ih1, ih2⟩ := ih (fun z1 h1 => hzs z1 (List.mem_cons_of_mem _ h1))
    unfold conditionMet
    rw [getElem?_eq_getD data _ (by rw [hlen]; exact slice_index_lt x z slice hx hz),
      getElem?_eq_getD data _ (by rw [hlen]; exact slice_index_lt y z slice hy hz)]
    dsimp only
    by_cases hgt : data.getD ((x &&& slice) ||| andNot z slice) 0 >
        data.getD ((y &&& slice) ||| andNot z slice) 0
    · rw [if_pos hgt]
      exact ⟨fun _ => rfl, fun hno => absurd ⟨z, List.mem_cons_self _ _, hgt⟩ hno⟩
    · rw [if_neg hgt]
      constructor
      · rintro ⟨z1, hz1, hgt1⟩
        rcases List.mem_cons.1 hz1 with h | h
        · rw [h] at hgt1; exact absurd hgt1 hgt
        · exact ih1 ⟨z1, h, hgt1⟩
      · intro hno
        exact ih2 (fun ⟨z1, hz1, hgt1⟩ => hno ⟨z1, List.mem_cons_of_mem _ hz1, hgt1⟩)

theorem checkPromotion_guard (data : List Int) (hlen : data.length = 16) (slice x y i : Nat)
    (hx : x < 16) (hy : y < 16) (hi : i < 4) :
    ((slice &&& 1 <<< i ≠ 0 ∧ (x &&& 1 <<< i) ||| (y &&& 1 <<< i) = 0 ∧
        data.getD (x ||| 1 <<< i) 0 > data.getD (y ||| 1 <<< i) 0) →
      checkPromotion data slice x y i = some (.returned false)) ∧
    (¬ (slice &&& 1 <<< i ≠ 0 ∧ (x &&& 1 <<< i) ||| (y &&& 1 <<< i) = 0 ∧
        data.getD (x ||| 1 <<< i) 0 > data.getD (y ||| 1 <<< i) 0) →
      checkPromotion data slice x y i = none) := by
  unfold checkPromotion
  dsimp only
  rw [getElem?_eq_getD data _ (by rw [hlen]; exact promoted_lt_sixteen x i hx hi),
    getElem?_eq_getD data _ (by rw [hlen]; exact promoted_lt_sixteen y i hy hi)]
  dsimp only
  constructor
  · rintro ⟨h1, h2, h3⟩
    rw [if_neg h1, if_neg (not_not.2 h2), if_pos h3]
  · intro hno
    by_cases h1 : slice &&& 1 <<< i = 0
    · rw [if_pos h1]
    · rw [if_neg h1]
      by_cases h2 : (x &&& 1 <<< i) ||| (y &&& 1 <<< i) ≠ 0
      · rw [if_pos h2]
      · rw [if_neg h2, if_neg (fun h3 => hno ⟨h1, not_not.1 h2, h3⟩)]

theorem checkFactorSlice_guard (data : List Int) (hlen : data.length = 16) (x y slice : Nat)
    (hx : x < 16) (hy : y < 16) :
    (((∃ z ∈ List.range 16, data.getD ((x &&& slice) ||| andNot z slice) 0 >
          data.getD ((y &&& slice) ||| andNot z slice) 0) ∧
        ∃ i ∈ List.range 4, slice &&& 1 <<< i ≠ 0 ∧ (x &&& 1 <<< i) ||| (y &&& 1 <<< i) = 0 ∧
          data.getD (x ||| 1 <<< i) 0 > data.getD (y ||| 1 <<< i) 0) →
      checkFactorSlice data x y slice = some (.returned false)) ∧
    (¬ ((∃ z ∈ List.range 16, data.getD ((x &&& slice) ||| andNot z slice) 0 >
          data.getD ((y &&& slice) ||| andNot z slice) 0) ∧
        ∃ i ∈ List.range 4, slice &&& 1 <<< i ≠ 0 ∧ (x &&& 1 <<< i) ||| (y &&& 1 <<< i) = 0 ∧
          data.getD (x ||| 1 <<< i) 0 > data.getD (y ||| 1 <<< i) 0) →
      checkFactorSlice data x y slice = none) := by
  obtain ⟨hc1, hc2⟩ := conditionMet_spec data hlen slice x y hx hy (List.range 16)
    (fun z hz => List.mem_range.1 hz)
  have hp := firstExit_guard (checkPromotion data slice x y) (List.range 4)
    (Outcome.returned false) _
    (fun i hi => checkPromotion_guard data hlen slice x y i hx hy (List.mem_range.1 hi))
  unfold checkFactorSlice
  by_cases hz : ∃ z ∈ List.range 16, data.getD ((x &&& slice) ||| andNot z slice) 0 >
      data.getD ((y &&& slice) ||| andNot z slice) 0
  · rw [hc1 hz]
    dsimp only
    exact ⟨fun h => hp.1 h.2, fun hno => hp.2 (fun h => hno ⟨hz, h⟩)⟩
  · rw [hc2 hz]
    dsimp only
    exact ⟨fun h => absurd h.1 hz, fun _ => rfl⟩

theorem or_eq_zero (a b : Nat) : a ||| b = 0 ↔ a = 0 ∧ b = 0 := by
  constructor
  · intro h
    have hbit : ∀ j, a.testBit j = false ∧ b.testBit j = false := by
      intro j
      have := congrArg (fun t => Nat.testBit t j) h
      simpa [Nat.testBit_or] using this
    constructor
    · apply Nat.eq_of_testBit_eq
      intro j
      rw [(hbit j).1, Nat.zero_testBit]
    · apply Nat.eq_of_testBit_eq
      intro j
      rw [(hbit j).2, Nat.zero_testBit]
  · rintro ⟨rfl, rfl⟩
    rfl

/-- The promotion condition on sixteen entries leaves with `false` exactly when
some `x`, `y`, factor slice and bit violate it. -/
theorem promotionCondition_guard (data : List Int) (hlen : data.length = 16) :
    ((∃ x ∈ List.range 16, ∃ y ∈ List.range 16, data.getD x 0 < data.getD y 0 ∧
        ∃ slice ∈ factorslices,
          (∃ z ∈ List.range 16, data.getD ((x &&& slice) ||| andNot z slice) 0 >
            data.getD ((y &&& slice) ||| andNot z slice) 0) ∧
          ∃ i ∈ List.range 4, slice &&& 1 <<< i ≠ 0 ∧
            (x &&& 1 <<< i) ||| (y &&& 1 <<< i) = 0 ∧
            data.getD (x ||| 1 <<< i) 0 > data.getD (y ||| 1 <<< i) 0) →
      promotionCondition data = some (.returned false)) ∧
    ((¬ ∃ x ∈ List.range 16, ∃ y ∈ List.range 16, data.getD x 0 < data.getD y 0 ∧
        ∃ slice ∈ factorslices,
          (∃ z ∈ List.range 16, data.getD ((x &&& slice) ||| andNot z slice) 0 >
            data.getD ((y &&& slice) ||| andNot z slice) 0) ∧
          ∃ i ∈ List.range 4, slice &&& 1 <<< i ≠ 0 ∧
            (x &&& 1 <<< i) ||| (y &&& 1 <<< i) = 0 ∧
            data.getD (x ||| 1 <<< i) 0 > data.getD (y ||| 1 <<< i) 0) →
      promotionCondition data = none) := by
  unfold promotionCondition
  apply firstExit_guard
  intro x hx
  apply firstExit_guard
  intro y hy
  have hx1 := List.mem_range.1 hx
  have hy1 := List.mem_range.1 hy
  have hf := firstExit_guard (checkFactorSlice data x y) factorslices (Outcome.returned false) _
    (fun slice _ => checkFactorSlice_guard data hlen x y slice hx1 hy1)
  rw [getElem?_eq_getD data x (by omega), getElem?_eq_getD data y (by omega)]
  dsimp only
  constructor
  · rintro ⟨hlt, hviol⟩
    rw [if_neg (not_le.2 hlt)]
    exact hf.1 hviol
  · intro hno
    by_cases hge : data.getD x 0 ≥ data.getD y 0
    · rw [if_pos hge]
    · rw [if_neg hge]
      exact hf.2 (fun hviol => hno ⟨not_le.1 hge, hviol⟩)

/-- Case (2, 2) on sixteen entries: it returns, and it returns true exactly when
the slice conditions and the promotion condition hold. -/
theorem case22_spec (data : List Int) (hlen : data.length = 16) :
    (∃ r, case22 data = .returned r) ∧
    (case22 data = .returned true ↔
      (∀ slice ∈ [0b1100, 0b0011, 0b1011, 0b0111, 0b1101, 0b1110],
        ∀ x v, x < 16 → v < 16 →
          data.getD x 0 < data.getD ((x &&& slice) ||| andNot v slice) 0 →
          data.getD (andNot x slice ||| (v &&& slice)) 0 ≤ data.getD v 0) ∧
      (∀ x y, x < 16 → y < 16 → data.getD x 0 < data.getD y 0 →
        ∀ slice ∈ [0b1100, 0b0011],
          (∃ z, z < 16 ∧ data.getD ((x &&& slice) ||| andNot z slice) 0 >
            data.getD ((y &&& slice) ||| andNot z slice) 0) →
          ∀ i, i < 4 → slice &&& 2 ^ i ≠ 0 → x &&& 2 ^ i = 0 → y &&& 2 ^ i = 0 →
            data.getD (x ||| 2 ^ i) 0 ≤ data.getD (y ||| 2 ^ i) 0)) := by
  obtain ⟨hs1, hs2⟩ := sliceConditions_guard data hlen
  obtain ⟨hp1, hp2⟩ := promotionCondition_guard data hlen
  unfold case22
  by_cases hS : ∃ slice ∈ slices, ∃ x ∈ List.range 16, ∃ v ∈ List.range 16,
      data.getD x 0 < data.getD ((x &&& slice) ||| andNot v slice) 0 ∧
      ¬ data.getD (andNot x slice ||| (v &&& slice)) 0 ≤ data.getD v 0
  · rw [hs1 hS]
    refine ⟨⟨false, rfl⟩, ⟨fun h => (by cases h), fun h => ?_⟩⟩
    obtain ⟨slice, hsl, x, hx, v, hv, hlt, hnle⟩ := hS
    exact absurd (h.1 slice hsl x v (List.mem_range.1 hx) (List.mem_range.1 hv) hlt) hnle
  · rw [hs2 hS]
    dsimp only
    by_cases hP : ∃ x ∈ List.range 16, ∃ y ∈ List.range 16, data.getD x 0 < data.getD y 0 ∧
        ∃ slice ∈ factorslices,
          (∃ z ∈ List.range 16, data.getD ((x &&& slice) ||| andNot z slice) 0 >
            data.getD ((y &&& slice) ||| andNot z slice) 0) ∧
          ∃ i ∈ List.range 4, slice &&& 1 <<< i ≠ 0 ∧
            (x &&& 1 <<< i) ||| (y &&& 1 <<< i) = 0 ∧
            data.getD (x ||| 1 <<< i) 0 > data.getD (y ||| 1 <<< i) 0
    · rw [hp1 hP]
      refine ⟨⟨false, rfl⟩, ⟨fun h => (by cases h), fun h => ?_⟩⟩
      obtain ⟨x, hx, y, hy, hlt, slice, hsl, ⟨z, hz, hzgt⟩, i, hi, hb, hxy, hgt⟩ := hP
      rw [Nat.one_shiftLeft] at hb hxy hgt
      have hxy1 := (or_eq_zero _ _).1 hxy
      exact absurd (h.2 x y (List.mem_range.1 hx) (List.mem_range.1 hy) hlt slice hsl
        ⟨z, List.mem_range.1 hz, hzgt⟩ i (List.mem_range.1 hi) hb hxy1.1 hxy1.2) (not_le.2 hgt)
    · rw [hp2 hP]
      refine ⟨⟨true, rfl⟩, ⟨fun _ => ⟨?_, ?_⟩, fun _ => rfl⟩⟩
      · intro slice hsl x v hx hv hlt
        by_contra hnle
        exact hS ⟨slice, hsl, x, List.mem_range.2 hx, v, List.mem_range.2 hv, hlt, hnle⟩
      · intro x y hx hy hlt slice hsl hz i hi hb hxi hyi
        obtain ⟨z, hz1, hzgt⟩ := hz
        by_contra hnle
        refine hP ⟨x, List.mem_range.2 hx, y, List.mem_range.2 hy, hlt, slice, hsl,
          ⟨z, List.mem_range.2 hz1, hzgt⟩, i, List.mem_range.2 hi, ?_, ?_, ?_⟩
        · rw [Nat.one_shiftLeft]; exact hb
        · rw [Nat.one_shiftLeft]; exact (or_eq_zero _ _).2 ⟨hxi, hyi⟩
        · rw [Nat.one_shiftLeft]; exact not_le.1 hnle

theorem shapePhase_case22 (M : MonotonicMap) (h : M.logic_ = [2, 2]) :
    shapePhase M = case22 M.data_ := by
  unfold shapePhase
  rw [h, if_neg (by decide), if_pos (by decide), if_neg (by decide), if_neg (by decide),
    if_pos (by decide)]

/-- C7: for `logic_ = [2, 2]` and sixteen data entries (`n = 4`), when Step 1 is
left without returning, `realizable()` returns, and it returns true exactly when
(slice conditions) for every slice in `{1100, 0011, 1011, 0111, 1101, 1110}` and
all `x, v < 16`, with `y = (x & slice) | (v & ~slice)` and
`u = (x & ~slice) | (v & slice)`, `data_[x] < data_[y]` implies
`data_[u] ≤ data_[v]`; and (promotion condition) for all `x, y < 16` with
`data_[x] < data_[y]` and each slice in `{1100, 0011}`, if some `z < 16` has
`data_[(x & slice) | (z & ~slice)] > data_[(y & slice) | (z & ~slice)]`, then for
every bit of the slice set in neither `x` nor `y`,
`data_[x | bit] ≤ data_[y | bit]`. -/
theorem C7_case_2_2 (M : MonotonicMap) (hlogic : M.logic_ = [2, 2])
    (hlen : M.data_.length = 16) (hcons : constraintPhase M = none) :
    (∃ r, realizable M = .returned r) ∧
    (realizable M = .returned true ↔
      (∀ slice ∈ [0b1100, 0b0011, 0b1011, 0b0111, 0b1101, 0b1110],
        ∀ x v, x < 16 → v < 16 →
          level M x < level M ((x &&& slice) ||| andNot v slice) →
          level M (andNot x slice ||| (v &&& slice)) ≤ level M v) ∧
      (∀ x y, x < 16 → y < 16 → level M x < level M y →
        ∀ slice ∈ [0b1100, 0b0011],
          (∃ z, z < 16 ∧ level M ((x &&& slice) ||| andNot z slice) >
            level M ((y &&& slice) ||| andNot z slice)) →
          ∀ i, i < 4 → slice &&& 2 ^ i ≠ 0 → x &&& 2 ^ i = 0 → y &&& 2 ^ i = 0 →
            level M (x ||| 2 ^ i) ≤ level M (y ||| 2 ^ i))) := by
  rw [realizable_of_constraintPhase_none M hcons, shapePhase_case22 M hlogic]
  exact case22_spec M.data_ hlen

/-- C7 at the map with the level 1 on vertex 1111 only: the hypotheses hold and
`realizable()` returns. -/
theorem C7_case_2_2_witness :
    (mk5 4 1 [2, 2] [] [0, 0, 0, 0, 0, 0, 0, 0, 0, 0, 0, 0, 0, 0, 0, 1]).n = 4 ∧
    (mk5 4 1 [2, 2] [] [0, 0, 0, 0, 0, 0, 0, 0, 0, 0, 0, 0, 0, 0, 0, 1]).logic_ = [2, 2] ∧
    (mk5 4 1 [2, 2] [] [0, 0, 0, 0, 0, 0, 0, 0, 0, 0, 0, 0, 0, 0, 0, 1]).data_.length = 16 ∧
    constraintPhase (mk5 4 1 [2, 2] [] [0, 0, 0, 0, 0, 0, 0, 0, 0, 0, 0, 0, 0, 0, 0, 1]) = none ∧
    ∃ r, realizable (mk5 4 1 [2, 2] [] [0, 0, 0, 0, 0, 0, 0, 0, 0, 0, 0, 0, 0, 0, 0, 1]) =
      .returned r :=
  ⟨rfl, rfl, rfl, constraintPhase_nil _ rfl,
   (C7_case_2_2 (mk5 4 1 [2, 2] [] [0, 0, 0, 0, 0, 0, 0, 0, 0, 0, 0, 0, 0, 0, 0, 1]) rfl rfl
     (constraintPhase_nil _ rfl)).1⟩

/-! ## The dispatch on supported and unsupported shapes -/

theorem eq_pair_of_length_two (l : List Int) (h : l.length = 2) : ∃ l0 l1, l = [l0, l1] := by
  match l, h with
  | [l0, l1], _ => exact ⟨l0, l1, rfl⟩

/-- Step 2 throws on every factorization of positive entries that is none of
the implemented shapes. -/
theorem shapePhase_unsupported (M : MonotonicMap) (hpos : ∀ f ∈ M.logic_, 0 < f)
    (h1 : M.logic_.length ≠ 1) (hones : ¬ ∀ f ∈ M.logic_, f = 1)
    (h21 : M.logic_ ≠ [2, 1]) (h12 : M.logic_ ≠ [1, 2]) (h22 : M.logic_ ≠ [2, 2]) :
    shapePhase M = .unsupportedFactorization := by
  have hmax : maxTermsInFactor M.logic_ ≠ 1 :=
    fun h => hones (ones_of_maxTermsInFactor M.logic_ hpos h)
  unfold shapePhase
  rw [if_neg (fun h => h.elim h1 hmax)]
  by_cases h2 : M.logic_.length = 2
  · rw [if_pos h2]
    obtain ⟨l0, l1, hl⟩ := eq_pair_of_length_two M.logic_ h2
    rw [hl] at h21 h12 h22 ⊢
    simp only [List.getElem?_cons_zero, List.getElem?_cons_succ, Option.some.injEq]
    rw [if_neg (fun h => h21 (by rw [h.1, h.2])), if_neg (fun h => h12 (by rw [h.1, h.2])),
      if_neg (fun h => h22 (by rw [h.1, h.2]))]
  · rw [if_neg h2]

/-- C8 (amended): for every map whose `logic_` has positive entries and is none
of the implemented shapes (not one entry, not all entries 1, not `[2, 1]`,
`[1, 2]` or `[2, 2]`), whatever `data_` is, when Step 1 is left without
returning, `realizable()` throws and returns no boolean. -/
theorem C8_unsupported_shape_throws (M : MonotonicMap) (hpos : ∀ f ∈ M.logic_, 0 < f)
    (h1 : M.logic_.length ≠ 1) (hones : ¬ ∀ f ∈ M.logic_, f = 1)
    (h21 : M.logic_ ≠ [2, 1]) (h12 : M.logic_ ≠ [1, 2]) (h22 : M.logic_ ≠ [2, 2])
    (hcons : constraintPhase M = none) :
    realizable M = .unsupportedFactorization := by
  rw [realizable_of_constraintPhase_none M hcons]
  exact shapePhase_unsupported M hpos h1 hones h21 h12 h22

/-- C8 at `n = 4`, factorization `[3, 1]`, no constraints, all-zero data:
`realizable()` throws. -/
theorem C8_unsupported_shape_throws_witness :
    (∀ f ∈ (mk5 4 1 [3, 1] [] (List.replicate 16 0)).logic_, 0 < f) ∧
    constraintPhase (mk5 4 1 [3, 1] [] (List.replicate 16 0)) = none ∧
    realizable (mk5 4 1 [3, 1] [] (List.replicate 16 0)) = .unsupportedFactorization :=
  ⟨by decide, constraintPhase_nil _ rfl,
   C8_unsupported_shape_throws (mk5 4 1 [3, 1] [] (List.replicate 16 0)) (by decide)
     (by decide) (by decide) (by decide) (by decide) (by decide) (constraintPhase_nil _ rfl)⟩

/-- C8 as stated fails at `n = 4`, factorization `[3, 1]`, constraint
`(1, (1, 0))` and `data_[0] = 0`, `data_[1] = 1`: the map is well-formed and its
shape is not implemented, but Step 1 finds `data_[1] > data_[0]` and
`realizable()` returns false before the dispatch is reached. -/
theorem C8_constraint_first_counterexample :
    WellFormed (mk5 4 1 [3, 1] [(1, (1, 0))] [0, 1, 0, 0, 0, 0, 0, 0, 0, 0, 0, 0, 0, 0, 0, 0]) ∧
    ([3, 1] : List Int).length ≠ 1 ∧ (¬ ∀ f ∈ ([3, 1] : List Int), f = 1) ∧
    ([3, 1] : List Int) ≠ [2, 1] ∧ ([3, 1] : List Int) ≠ [1, 2] ∧
    ([3, 1] : List Int) ≠ [2, 2] ∧
    realizable (mk5 4 1 [3, 1] [(1, (1, 0))] [0, 1, 0, 0, 0, 0, 0, 0, 0, 0, 0, 0, 0, 0, 0, 0]) =
      .returned false :=
  ⟨by decide, by decide, by decide, by decide, by decide, by decide, by decide⟩

theorem n_of_sum (M : MonotonicMap) (k : Nat) (hsum : M.logic_.sum = (M.n : Int))
    (h : M.logic_.sum = (k : Int)) : M.n = k := by
  rw [hsum] at h
  exact Int.ofNat.inj h

/-- C9 (amended): for every map whose `data_` has `2 ^ n` entries and whose
`logic_` sums to `n` and has exactly one entry, or is non-empty with all
entries 1, or is `[2, 1]`, `[1, 2]` or `[2, 2]`, `realizable()` returns a
boolean, for every data and every constraint set. -/
theorem C9_supported_shapes_return (M : MonotonicMap) (hwf : WellFormed M)
    (hsum : M.logic_.sum = (M.n : Int))
    (hshape : M.logic_.length = 1 ∨ (M.logic_ ≠ [] ∧ ∀ f ∈ M.logic_, f = 1) ∨
      M.logic_ = [2, 1] ∨ M.logic_ = [1, 2] ∨ M.logic_ = [2, 2]) :
    ∃ r, realizable M = .returned r := by
  rcases constraintPhase_cases M hwf with hcons | hcons
  · rw [realizable_of_constraintPhase_none M hcons]
    rcases hshape with h | h | h | h | h
    · rw [shapePhase_allSumProduct M (Or.inl h)]
      exact allSumProduct_returns M hwf
    · rw [shapePhase_allSumProduct M (Or.inr h)]
      exact allSumProduct_returns M hwf
    · have hn : M.n = 3 := n_of_sum M 3 hsum (by rw [h]; rfl)
      rw [shapePhase_case21 M h]
      exact (case21_spec M.data_ (by rw [hwf, hn]; rfl)).1
    · have hn : M.n = 3 := n_of_sum M 3 hsum (by rw [h]; rfl)
      rw [shapePhase_case12 M h]
      exact (case12_spec M.data_ (by rw [hwf, hn]; rfl)).1
    · have hn : M.n = 4 := n_of_sum M 4 hsum (by rw [h]; rfl)
      rw [shapePhase_case22 M h]
      exact (case22_spec M.data_ (by rw [hwf, hn]; rfl)).1
  · unfold realizable
    rw [hcons]
    exact ⟨false, rfl⟩

/-- C9 at `n = 3`, factorization `[1, 2]`, constraint `(1, (1, 0))`,
`data = [0, 1, 0, 1, 1, 0, 0, 1]`: the hypotheses hold and `realizable()`
returns. -/
theorem C9_supported_shapes_return_witness :
    WellFormed (mk5 3 1 [1, 2] [(1, (1, 0))] [0, 1, 0, 1, 1, 0, 0, 1]) ∧
    ([1, 2] : List Int).sum = ((3 : Nat) : Int) ∧
    ∃ r, realizable (mk5 3 1 [1, 2] [(1, (1, 0))] [0, 1, 0, 1, 1, 0, 0, 1]) = .returned r :=
  ⟨by decide, by decide,
   C9_supported_shapes_return (mk5 3 1 [1, 2] [(1, (1, 0))] [0, 1, 0, 1, 1, 0, 0, 1])
     (by decide) (by decide) (Or.inr (Or.inr (Or.inr (Or.inl rfl))))⟩

/-- C9 as stated fails at `n = 0` with the empty factorization: the map is
well-formed (one data entry, entries summing to 0), its factors are (vacuously)
all of size 1, and `realizable()` throws. -/
theorem C9_empty_factorization_counterexample :
    WellFormed (mk5 0 0 [] [] [0]) ∧
    (mk5 0 0 [] [] [0]).logic_.sum = (((mk5 0 0 [] [] [0]).n : Nat) : Int) ∧
    (∀ f ∈ (mk5 0 0 [] [] [0]).logic_, f = 1) ∧
    realizable (mk5 0 0 [] [] [0]) = .unsupportedFactorization :=
  ⟨by decide, by decide, by decide, by decide⟩

/-! ## `neighbors` -/

theorem set_restore (copy : List Int) (i : Nat) (v w : Int) (h : copy[i]? = some v) :
    (copy.set i w).set i v = copy := by
  rw [List.set_set]
  apply List.ext_getElem?
  intro j
  rw [List.getElem?_set]
  by_cases hij : i = j
  · subst hij
    have hlt : i < copy.length := (List.getElem?_eq_some.1 h).1
    rw [if_pos rfl, if_pos hlt, h]
  · rw [if_neg hij]

theorem getD_of_getElem? (copy : List Int) (i : Nat) (v : Int) (h : copy[i]? = some v) :
    copy.getD i 0 = v := by
  rw [List.getD_eq_getElem?_getD, h]
  rfl

theorem probe_returned (M : MonotonicMap) (copy : List Int) (results rs : List MonotonicMap)
    (h : probe M copy results = .returned rs) : rs = results ++ probed M copy := by
  unfold probe at h
  unfold probed
  cases hadm : admitted M copy with
  | returned b =>
    cases b with
    | true =>
      rw [hadm] at h
      rw [if_pos rfl]
      exact (Outcome.returned.inj h).symm
    | false =>
      rw [hadm] at h
      rw [if_neg (by intro hc; cases hc), List.append_nil]
      exact (Outcome.returned.inj h).symm
  | unsupportedFactorization => rw [hadm] at h; cases h
  | outOfRange => rw [hadm] at h; cases h

theorem incrementStep_returned (M : MonotonicMap) (i : Nat) (copy c : List Int)
    (results rs : List MonotonicMap)
    (h : incrementStep M i copy results = .returned (c, rs)) :
    c = copy ∧
    rs = results ++
      (if copy.getD i 0 < M.m then probed M (copy.set i (copy.getD i 0 + 1)) else []) := by
  unfold incrementStep at h
  cases hv : copy[i]? with
  | none => rw [hv] at h; cases h
  | some v =>
    rw [hv] at h
    rw [getD_of_getElem? copy i v hv]
    dsimp only at h
    by_cases hlt : v < M.m
    · rw [if_pos hlt] at h ⊢
      cases hp : probe M (copy.set i (v + 1)) results with
      | returned rs1 =>
        rw [hp] at h
        dsimp only at h
        have h1 := Outcome.returned.inj h
        have hc : (copy.set i (v + 1)).set i (v + 1 - 1) = copy := by
          rw [add_sub_cancel_right]
          exact set_restore copy i v (v + 1) hv
        rw [hc] at h1
        exact ⟨(congrArg Prod.fst h1).symm,
          (probe_returned M _ results rs1 hp) ▸ (congrArg Prod.snd h1).symm⟩
      | unsupportedFactorization => rw [hp] at h; cases h
      | outOfRange => rw [hp] at h; cases h
    · rw [if_neg hlt] at h ⊢
      have h1 := Outcome.returned.inj h
      rw [List.append_nil]
      exact ⟨(congrArg Prod.fst h1).symm, (congrArg Prod.snd h1).symm⟩

/-- An iteration of the loop of `neighbors()` that does not fail leaves the
buffer as it found it and appends `appended M copy i`. -/
theorem neighborsStep_returned (M : MonotonicMap) (i : Nat) (copy c : List Int)
    (results rs : List MonotonicMap)
    (h : neighborsStep M i copy results = .returned (c, rs)) :
    c = copy ∧ rs = results ++ appended M copy i := by
  unfold neighborsStep at h
  unfold appended
  cases hv : copy[i]? with
  | none => rw [hv] at h; cases h
  | some v =>
    rw [hv] at h
    dsimp only at h
    have hgetD := getD_of_getElem? copy i v hv
    by_cases hgt : v > 0
    · rw [if_pos hgt] at h
      cases hp : probe M (copy.set i (v - 1)) results with
      | returned rs1 =>
        rw [hp] at h
        dsimp only at h
        have hc : (copy.set i (v - 1)).set i (v - 1 + 1) = copy := by
          rw [sub_add_cancel]
          exact set_restore copy i v (v - 1) hv
        rw [hc] at h
        obtain ⟨h1, h2⟩ := incrementStep_returned M i copy c rs1 rs h
        rw [probe_returned M _ results rs1 hp] at h2
        rw [hgetD] at h2 ⊢
        rw [if_pos hgt, ← List.append_assoc]
        exact ⟨h1, h2⟩
      | unsupportedFactorization => rw [hp] at h; cases h
      | outOfRange => rw [hp] at h; cases h
    · rw [if_neg hgt] at h
      obtain ⟨h1, h2⟩ := incrementStep_returned M i copy c results rs h
      rw [hgetD] at h2 ⊢
      rw [if_neg hgt, List.nil_append]
      exact ⟨h1, h2⟩

theorem neighborsLoop_returned (M : MonotonicMap) (is : List Nat) :
    ∀ (copy : List Int) (results rs : List MonotonicMap),
      neighborsLoop M is copy results = .returned rs →
      rs = results ++ is.flatMap (appended M copy) := by
  induction is with
  | nil =>
    intro copy results rs h
    unfold neighborsLoop at h
    rw [List.flatMap_nil, List.append_nil]
    exact (Outcome.returned.inj h).symm
  | cons i is ih =>
    intro copy results rs h
    unfold neighborsLoop at h
    cases hs : neighborsStep M i copy results with
    | returned p =>
      obtain ⟨c, rs1⟩ := p
      rw [hs] at h
      dsimp only at h
      obtain ⟨hc, hrs1⟩ := neighborsStep_returned M i copy c results rs1 hs
      rw [hc] at h
      rw [ih copy rs1 rs h, hrs1, List.flatMap_cons, List.append_assoc]
    | unsupportedFactorization => rw [hs] at h; cases h
    | outOfRange => rw [hs] at h; cases h

/-- When `neighbors()` returns, its result is the concatenation, over the
vertices in increasing order, of what each iteration appends. -/
theorem neighbors_returned (M : MonotonicMap) (rs : List MonotonicMap)
    (h : neighbors M = .returned rs) :
    rs = (upTo (shiftOne M.n)).flatMap (appended M M.data_) := by
  unfold neighbors at h
  rw [neighborsLoop_returned M _ M.data_ [] rs h, List.nil_append]

theorem mem_probed (M : MonotonicMap) (copy : List Int) (R : MonotonicMap)
    (h : R ∈ probed M copy) :
    R = mk5 M.n M.m M.logic_ M.constraints_ copy ∧ admitted M copy = .returned true := by
  unfold probed at h
  by_cases hadm : admitted M copy = .returned true
  · rw [if_pos hadm] at h
    exact ⟨List.mem_singleton.1 h, hadm⟩
  · rw [if_neg hadm] at h
    cases h

/-- Every map appended by iteration `i` is the source with `data[i]` moved by
one step that the guards allow, and was admitted. -/
theorem mem_appended (M : MonotonicMap) (data : List Int) (i : Nat) (R : MonotonicMap)
    (h : R ∈ appended M data i) :
    ∃ d : Int, ((d = 1 ∧ data.getD i 0 < M.m) ∨ (d = -1 ∧ data.getD i 0 > 0)) ∧
      R = mk5 M.n M.m M.logic_ M.constraints_ (data.set i (data.getD i 0 + d)) ∧
      admitted M (data.set i (data.getD i 0 + d)) = .returned true := by
  unfold appended at h
  rcases List.mem_append.1 h with h1 | h1
  · by_cases hgt : data.getD i 0 > 0
    · rw [if_pos hgt] at h1
      obtain ⟨hR, hadm⟩ := mem_probed M _ R h1
      exact ⟨-1, Or.inr ⟨rfl, hgt⟩, hR, hadm⟩
    · rw [if_neg hgt] at h1
      cases h1
  · by_cases hlt : data.getD i 0 < M.m
    · rw [if_pos hlt] at h1
      obtain ⟨hR, hadm⟩ := mem_probed M _ R h1
      exact ⟨1, Or.inl ⟨rfl, hlt⟩, hR, hadm⟩
    · rw [if_neg hlt] at h1
      cases h1

theorem mem_neighbors (M : MonotonicMap) (rs : List MonotonicMap)
    (h : neighbors M = .returned rs) (R : MonotonicMap) (hR : R ∈ rs) :
    ∃ i, i ∈ upTo (shiftOne M.n) ∧ i < 2 ^ M.n ∧ R ∈ appended M M.data_ i := by
  rw [neighbors_returned M rs h, List.mem_flatMap] at hR
  obtain ⟨i, hi, hmem⟩ := hR
  exact ⟨i, hi, lt_of_mem_upTo _ _ hi, hmem⟩

/-- Beyond `n = 30` the loop of `neighbors()` is not entered and the call
returns no map. -/
theorem neighbors_of_lt (M : MonotonicMap) (hn : 30 < M.n) : neighbors M = .returned [] := by
  unfold neighbors
  rw [upTo_shiftOne_of_lt M.n hn]
  rfl

theorem getD_set_self (data : List Int) (i : Nat) (w : Int) (hi : i < data.length) :
    (data.set i w).getD i 0 = w := by
  rw [List.getD_eq_getElem?_getD, List.getElem?_set, if_pos rfl, if_pos hi]
  rfl

theorem getD_set_other (data : List Int) (i j : Nat) (w : Int) (hij : j ≠ i) :
    (data.set i w).getD j 0 = data.getD j 0 := by
  rw [List.getD_eq_getElem?_getD, List.getD_eq_getElem?_getD, List.getElem?_set,
    if_neg (fun h => hij h.symm)]

/-- On two well-formed maps with the same `n` and `m` whose levels differ at a
vertex that the loop visits, `operator ==` returns false. -/
theorem equals_false_of_differ (A B : MonotonicMap) (hn : A.n = B.n) (hm : A.m = B.m)
    (hA : WellFormed A) (hB : WellFormed B) (i : Nat) (hi : i ∈ upTo (shiftOne A.n))
    (hne : level A i ≠ level B i) : equals A B = .returned false := by
  have hbody : ∀ j ∈ upTo (shiftOne A.n),
      (level A j ≠ level B j → checkEntry A.data_ B.data_ j = some (.returned false)) ∧
      (¬ level A j ≠ level B j → checkEntry A.data_ B.data_ j = none) := by
    intro j hj
    have hj1 := lt_of_mem_upTo _ _ hj
    unfold checkEntry
    rw [data_at A hA j hj1, data_at B hB j (by rw [← hn]; exact hj1)]
    dsimp only
    exact ⟨fun h => by rw [if_pos h], fun h => by rw [if_neg h]⟩
  have hloop := (firstExit_guard (checkEntry A.data_ B.data_) (upTo (shiftOne A.n))
    (Outcome.returned false) _ hbody).1 ⟨i, hi, hne⟩
  unfold equals
  rw [if_neg (not_not.2 hn), if_neg (not_not.2 hm), hloop]

/-- C10: when `neighbors()` returns on a map whose `data_` has `2 ^ n` entries,
every returned map has the source's `n`, `m` and data length, its data differs
from the source's at exactly one vertex, there by exactly `+1` or `-1`, and
`operator ==` between the source and the returned map (either way round)
returns false. -/
theorem C10_neighbors_differ_at_one_vertex (M : MonotonicMap) (hwf : WellFormed M)
    (rs : List MonotonicMap) (h : neighbors M = .returned rs) (R : MonotonicMap)
    (hR : R ∈ rs) :
    R.n = M.n ∧ R.m = M.m ∧ R.data_.length = M.data_.length ∧
    (∃ i, i < 2 ^ M.n ∧ (level R i = level M i + 1 ∨ level R i = level M i - 1) ∧
      ∀ j, j < 2 ^ M.n → j ≠ i → level R j = level M j) ∧
    equals M R = .returned false ∧ equals R M = .returned false := by
  obtain ⟨i, hiu, hi, hmem⟩ := mem_neighbors M rs h R hR
  obtain ⟨d, hd, hRd, _⟩ := mem_appended M M.data_ i R hmem
  have hilen : i < M.data_.length := by rw [hwf]; exact hi
  have hlevel : level R i = level M i + d := by
    rw [hRd]
    exact getD_set_self M.data_ i _ hilen
  have hother : ∀ j, j < 2 ^ M.n → j ≠ i → level R j = level M j := by
    intro j _ hji
    rw [hRd]
    exact getD_set_other M.data_ i j _ hji
  have hRn : R.n = M.n := by rw [hRd]; rfl
  have hRm : R.m = M.m := by rw [hRd]; rfl
  have hRlen : R.data_.length = M.data_.length := by
    rw [hRd]
    exact List.length_set _ _ _
  have hRwf : WellFormed R := by
    unfold WellFormed
    rw [hRlen, hRn]
    exact hwf
  have hne : level M i ≠ level R i := by
    rw [hlevel]
    rcases hd with ⟨hd1, _⟩ | ⟨hd1, _⟩ <;> rw [hd1] <;> omega
  refine ⟨hRn, hRm, hRlen, ⟨i, hi, ?_, hother⟩, ?_, ?_⟩
  · rcases hd with ⟨hd1, _⟩ | ⟨hd1, _⟩
    · exact Or.inl (by rw [hlevel, hd1])
    · exact Or.inr (by rw [hlevel, hd1]; rfl)
  · exact equals_false_of_differ M R hRn.symm hRm.symm hwf hRwf i hiu hne
  · exact equals_false_of_differ R M hRn hRm hRwf hwf i (by rw [hRn]; exact hiu) hne.symm

/-- C10 at `n = 1`, `m = 1`, factorization `[1]`, `data = [0, 1]`: `neighbors()`
returns the maps with data `[1, 1]` and `[0, 0]`, and the first one is not equal
to the source. -/
theorem C10_neighbors_differ_at_one_vertex_witness :
    WellFormed (mk5 1 1 [1] [] [0, 1]) ∧
    neighbors (mk5 1 1 [1] [] [0, 1]) =
      .returned [mk5 1 1 [1] [] [1, 1], mk5 1 1 [1] [] [0, 0]] ∧
    equals (mk5 1 1 [1] [] [0, 1]) (mk5 1 1 [1] [] [1, 1]) = .returned false :=
  ⟨by decide, by decide,
   (C10_neighbors_differ_at_one_vertex (mk5 1 1 [1] [] [0, 1]) (by decide)
     [mk5 1 1 [1] [] [1, 1], mk5 1 1 [1] [] [0, 0]] (by decide)
     (mk5 1 1 [1] [] [1, 1]) (by decide)).2.2.2.2.1⟩

/-! ## Admission of the neighbours -/

theorem admitted_true (M : MonotonicMap) (copy : List Int)
    (h : admitted M copy = .returned true) :
    monotonic (mk5 M.n M.m M.logic_ M.constraints_ copy) = .returned true ∧
    realizable (mk5 M.n M.m M.logic_ M.constraints_ copy) = .returned true := by
  unfold admitted at h
  cases hm : monotonic (mk5 M.n M.m M.logic_ M.constraints_ copy) with
  | returned b =>
    cases b with
    | true =>
      rw [hm] at h
      exact ⟨rfl, h⟩
    | false =>
      rw [hm] at h
      cases h
  | unsupportedFactorization => rw [hm] at h; cases h
  | outOfRange => rw [hm] at h; cases h

/-- C11: when `neighbors()` returns, on every returned map `monotonic()`
returns true and `realizable()` returns true, whatever the source map is. -/
theorem C11_neighbors_are_admitted (M : MonotonicMap) (rs : List MonotonicMap)
    (h : neighbors M = .returned rs) (R : MonotonicMap) (hR : R ∈ rs) :
    monotonic R = .returned true ∧ realizable R = .returned true := by
  obtain ⟨i, _, _, hmem⟩ := mem_neighbors M rs h R hR
  obtain ⟨d, _, hRd, hadm⟩ := mem_appended M M.data_ i R hmem
  rw [hRd]
  exact admitted_true M _ hadm

/-- C11 at `n = 2`, `m = 1`, factorization `[1, 1]`, source `data = [0, 1, 0, 0]`,
which is not monotonic: `neighbors()` returns the maps with data `[0, 0, 0, 0]`
and `[0, 1, 0, 1]`, and the second one is monotonic and realizable. -/
theorem C11_neighbors_are_admitted_witness :
    monotonic (mk5 2 1 [1, 1] [] [0, 1, 0, 0]) = .returned false ∧
    neighbors (mk5 2 1 [1, 1] [] [0, 1, 0, 0]) =
      .returned [mk5 2 1 [1, 1] [] [0, 0, 0, 0], mk5 2 1 [1, 1] [] [0, 1, 0, 1]] ∧
    monotonic (mk5 2 1 [1, 1] [] [0, 1, 0, 1]) = .returned true ∧
    realizable (mk5 2 1 [1, 1] [] [0, 1, 0, 1]) = .returned true :=
  ⟨by decide, by decide,
   C11_neighbors_are_admitted (mk5 2 1 [1, 1] [] [0, 1, 0, 0])
     [mk5 2 1 [1, 1] [] [0, 0, 0, 0], mk5 2 1 [1, 1] [] [0, 1, 0, 1]] (by decide)
     (mk5 2 1 [1, 1] [] [0, 1, 0, 1]) (by decide)⟩

/-! ## When `neighbors` returns -/

theorem probe_of_admitted (M : MonotonicMap) (copy : List Int) (results : List MonotonicMap)
    (b : Bool) (h : admitted M copy = .returned b) :
    probe M copy results = .returned (results ++ probed M copy) := by
  unfold probe probed
  rw [h]
  cases b with
  | true => rw [if_pos rfl]
  | false => rw [if_neg (by intro hc; cases hc), List.append_nil]

theorem incrementStep_of_admitted (M : MonotonicMap) (i : Nat) (copy : List Int)
    (results : List MonotonicMap) (hi : i < copy.length)
    (hadm : ∀ w, ∃ b, admitted M (copy.set i w) = .returned b) :
    incrementStep M i copy results = .returned (copy, results ++
      (if copy.getD i 0 < M.m then probed M (copy.set i (copy.getD i 0 + 1)) else [])) := by
  have hv := getElem?_eq_getD copy i hi
  unfold incrementStep
  rw [hv]
  dsimp only
  by_cases hlt : copy.getD i 0 < M.m
  · rw [if_pos hlt, if_pos hlt]
    obtain ⟨b, hb⟩ := hadm (copy.getD i 0 + 1)
    rw [probe_of_admitted M _ results b hb]
    dsimp only
    rw [add_sub_cancel_right, set_restore copy i _ _ hv]
  · rw [if_neg hlt, if_neg hlt, List.append_nil]

theorem neighborsStep_of_admitted (M : MonotonicMap) (i : Nat) (copy : List Int)
    (results : List MonotonicMap) (hi : i < copy.length)
    (hadm : ∀ w, ∃ b, admitted M (copy.set i w) = .returned b) :
    neighborsStep M i copy results = .returned (copy, results ++ appended M copy i) := by
  have hv := getElem?_eq_getD copy i hi
  unfold neighborsStep appended
  rw [hv]
  dsimp only
  by_cases hgt : copy.getD i 0 > 0
  · rw [if_pos hgt, if_pos hgt]
    obtain ⟨b, hb⟩ := hadm (copy.getD i 0 - 1)
    rw [probe_of_admitted M _ results b hb]
    dsimp only
    rw [sub_add_cancel, set_restore copy i _ _ hv,
      incrementStep_of_admitted M i copy _ hi hadm, List.append_assoc]
  · rw [if_neg hgt, if_neg hgt, incrementStep_of_admitted M i copy _ hi hadm, List.nil_append]

theorem neighborsLoop_of_admitted (M : MonotonicMap) (copy : List Int) (is : List Nat)
    (his : ∀ i ∈ is, i < copy.length)
    (hadm : ∀ i ∈ is, ∀ w, ∃ b, admitted M (copy.set i w) = .returned b) :
    ∀ results, neighborsLoop M is copy results =
      .returned (results ++ is.flatMap (appended M copy)) := by
  induction is with
  | nil =>
    intro results
    unfold neighborsLoop
    rw [List.flatMap_nil, List.append_nil]
  | cons i is ih =>
    intro results
    unfold neighborsLoop
    rw [neighborsStep_of_admitted M i copy results (his i (List.mem_cons_self _ _))
      (hadm i (List.mem_cons_self _ _))]
    dsimp only
    rw [ih (fun j hj => his j (List.mem_cons_of_mem _ hj))
      (fun j hj => hadm j (List.mem_cons_of_mem _ hj)), List.flatMap_cons, List.append_assoc]

/-- On a well-formed map, `neighbors()` returns as soon as the admission test
returns on every array of the same length. -/
theorem neighbors_of_admitted (M : MonotonicMap) (hwf : WellFormed M)
    (hadm : ∀ data : List Int, data.length = M.data_.length →
      ∃ b, admitted M data = .returned b) :
    neighbors M = .returned ((upTo (shiftOne M.n)).flatMap (appended M M.data_)) := by
  unfold neighbors
  rw [neighborsLoop_of_admitted M M.data_ _
    (fun i hi => by rw [hwf]; exact lt_of_mem_upTo _ _ hi)
    (fun i _ w => hadm _ (List.length_set _ _ _)), List.nil_append]

theorem admitted_returns (M : MonotonicMap) (data : List Int)
    (hlen : data.length = 2 ^ M.n)
    (hreal : ∃ r, realizable (mk5 M.n M.m M.logic_ M.constraints_ data) = .returned r) :
    ∃ b, admitted M data = .returned b := by
  have hwf : WellFormed (mk5 M.n M.m M.logic_ M.constraints_ data) := hlen
  unfold admitted
  rcases monotonic_returns _ hwf with h | h
  · rw [h]; exact hreal
  · rw [h]; exact ⟨false, rfl⟩

theorem shapePhase_raw_allSumProduct (M : MonotonicMap)
    (h : M.logic_.length = 1 ∨ maxTermsInFactor M.logic_ = 1) :
    shapePhase M = allSumProduct M := by
  unfold shapePhase
  rw [if_pos h]

/-- The dispatch of Step 2 only looks at `logic_`: when it does not throw, the
factorization is one of the implemented shapes. -/
theorem shape_of_not_unsupported (M : MonotonicMap)
    (h : shapePhase M ≠ .unsupportedFactorization) :
    (M.logic_.length = 1 ∨ maxTermsInFactor M.logic_ = 1) ∨
      M.logic_ = [2, 1] ∨ M.logic_ = [1, 2] ∨ M.logic_ = [2, 2] := by
  by_cases h1 : M.logic_.length = 1 ∨ maxTermsInFactor M.logic_ = 1
  · exact Or.inl h1
  · right
    unfold shapePhase at h
    rw [if_neg h1] at h
    by_cases h2 : M.logic_.length = 2
    · obtain ⟨l0, l1, hl⟩ := eq_pair_of_length_two M.logic_ h2
      rw [hl] at h ⊢
      simp only [List.length_cons, List.length_nil, List.getElem?_cons_zero,
        List.getElem?_cons_succ, Option.some.injEq] at h
      by_cases ha : l0 = 2 ∧ l1 = 1
      · exact Or.inl (by rw [ha.1, ha.2])
      · by_cases hb : l0 = 1 ∧ l1 = 2
        · exact Or.inr (Or.inl (by rw [hb.1, hb.2]))
        · by_cases hc : l0 = 2 ∧ l1 = 2
          · exact Or.inr (Or.inr (by rw [hc.1, hc.2]))
          · rw [if_pos (by decide), if_neg ha, if_neg hb, if_neg hc] at h
            exact absurd rfl h
    · rw [if_neg h2] at h
      exact absurd rfl h

/-- On a well-formed map whose `logic_` sums to `n`, `realizable()` returns a
boolean for each implemented shape of the dispatch. -/
theorem realizable_returns_of_shape (M : MonotonicMap) (hwf : WellFormed M)
    (hsum : M.logic_.sum = (M.n : Int))
    (hshape : (M.logic_.length = 1 ∨ maxTermsInFactor M.logic_ = 1) ∨
      M.logic_ = [2, 1] ∨ M.logic_ = [1, 2] ∨ M.logic_ = [2, 2]) :
    ∃ r, realizable M = .returned r := by
  rcases constraintPhase_cases M hwf with hcons | hcons
  · rw [realizable_of_constraintPhase_none M hcons]
    rcases hshape with h | h | h | h
    · rw [shapePhase_raw_allSumProduct M h]
      exact allSumProduct_returns M hwf
    · have hn : M.n = 3 := n_of_sum M 3 hsum (by rw [h]; rfl)
      rw [shapePhase_case21 M h]
      exact (case21_spec M.data_ (by rw [hwf, hn]; rfl)).1
    · have hn : M.n = 3 := n_of_sum M 3 hsum (by rw [h]; rfl)
      rw [shapePhase_case12 M h]
      exact (case12_spec M.data_ (by rw [hwf, hn]; rfl)).1
    · have hn : M.n = 4 := n_of_sum M 4 hsum (by rw [h]; rfl)
      rw [shapePhase_case22 M h]
      exact (case22_spec M.data_ (by rw [hwf, hn]; rfl)).1
  · unfold realizable
    rw [hcons]
    exact ⟨false, rfl⟩

/-- If `realizable()` returns true on a well-formed map, Step 1 was left without
returning and the factorization is an implemented shape. -/
theorem shape_of_realizable_true (M : MonotonicMap) (hwf : WellFormed M)
    (h : realizable M = .returned true) :
    (M.logic_.length = 1 ∨ maxTermsInFactor M.logic_ = 1) ∨
      M.logic_ = [2, 1] ∨ M.logic_ = [1, 2] ∨ M.logic_ = [2, 2] := by
  apply shape_of_not_unsupported
  intro hs
  unfold realizable at h
  rcases constraintPhase_cases M hwf with hc | hc
  · rw [hc] at h
    dsimp only at h
    rw [hs] at h
    cases h
  · rw [hc] at h
    cases h

theorem mem_appended_of_admitted (M : MonotonicMap) (data : List Int) (i : Nat) (d : Int)
    (hd : (d = -1 ∧ data.getD i 0 > 0) ∨ (d = 1 ∧ data.getD i 0 < M.m))
    (hadm : admitted M (data.set i (data.getD i 0 + d)) = .returned true) :
    mk5 M.n M.m M.logic_ M.constraints_ (data.set i (data.getD i 0 + d)) ∈
      appended M data i := by
  unfold appended
  rw [List.mem_append]
  rcases hd with ⟨hd1, hgt⟩ | ⟨hd1, hlt⟩
  · left
    rw [hd1, ← sub_eq_add_neg] at hadm ⊢
    rw [if_pos hgt]
    unfold probed
    rw [if_pos hadm]
    exact List.mem_singleton.2 rfl
  · right
    rw [hd1] at hadm ⊢
    rw [if_pos hlt]
    unfold probed
    rw [if_pos hadm]
    exact List.mem_singleton.2 rfl

/-- C12 (amended): for every `n ≤ 30`, on a well-formed map (`data_` of length
`2 ^ n`, `logic_` summing to `n`), for every vertex `i < 2 ^ n` and every step
`d` that the guards allow
(`d = -1` with `data_[i] > 0`, `d = +1` with `data_[i] < m`), if the map with
only `data_[i]` changed to `data_[i] + d` is monotonic and realizable, then
`neighbors()` returns and its result contains the map with exactly that data
and the source's `n`, `m`, `logic_` and `constraints_`. A realizable candidate
forces the factorization to be an implemented shape. -/
theorem C12_neighbors_complete (M : MonotonicMap) (hwf : WellFormed M) (hn : M.n ≤ 30)
    (hsum : M.logic_.sum = (M.n : Int)) (i : Nat) (hi : i < 2 ^ M.n) (d : Int)
    (hd : (d = -1 ∧ level M i > 0) ∨ (d = 1 ∧ level M i < M.m))
    (hmono : monotonic (mk5 M.n M.m M.logic_ M.constraints_
      (M.data_.set i (level M i + d))) = .returned true)
    (hreal : realizable (mk5 M.n M.m M.logic_ M.constraints_
      (M.data_.set i (level M i + d))) = .returned true) :
    ∃ rs, neighbors M = .returned rs ∧
      mk5 M.n M.m M.logic_ M.constraints_ (M.data_.set i (level M i + d)) ∈ rs := by
  have hcwf : WellFormed (mk5 M.n M.m M.logic_ M.constraints_
      (M.data_.set i (level M i + d))) := by
    unfold WellFormed
    exact (List.length_set _ _ _).trans hwf
  have hshape := shape_of_realizable_true _ hcwf hreal
  have hadm : ∀ data : List Int, data.length = M.data_.length →
      ∃ b, admitted M data = .returned b := by
    intro data hlen
    have hlen2 : data.length = 2 ^ M.n := hlen.trans hwf
    exact admitted_returns M data hlen2
      (realizable_returns_of_shape (mk5 M.n M.m M.logic_ M.constraints_ data) hlen2 hsum hshape)
  refine ⟨_, neighbors_of_admitted M hwf hadm, ?_⟩
  rw [List.mem_flatMap]
  refine ⟨i, (mem_upTo _ _ hn).2 hi, ?_⟩
  unfold level at hmono hreal hd ⊢
  apply mem_appended_of_admitted M M.data_ i d hd
  unfold admitted
  rw [hmono]
  exact hreal

/-- C12 at `n = 1`, `m = 1`, factorization `[1]`, `data = [0, 1]`, vertex 0 and
step `+1`: the candidate `[1, 1]` is monotonic and realizable, and it is in the
result of `neighbors()`. -/
theorem C12_neighbors_complete_witness :
    WellFormed (mk5 1 1 [1] [] [0, 1]) ∧ (mk5 1 1 [1] [] [0, 1]).n ≤ 30 ∧
    monotonic (mk5 1 1 [1] [] [1, 1]) = .returned true ∧
    realizable (mk5 1 1 [1] [] [1, 1]) = .returned true ∧
    ∃ rs, neighbors (mk5 1 1 [1] [] [0, 1]) = .returned rs ∧ mk5 1 1 [1] [] [1, 1] ∈ rs :=
  ⟨by decide, by decide, by decide, by decide,
   C12_neighbors_complete (mk5 1 1 [1] [] [0, 1]) (by decide) (by decide) (by decide) 0
     (by decide) 1 (Or.inr ⟨rfl, by decide⟩) (by decide) (by decide)⟩

/-- C12 as stated fails at `n = 31`, factorization `[31]`, `m = 1`, on the
all-zero map of `2 ^ 31` entries: the candidate with `data_[0]` raised to 1 is
allowed by the guard (`data_[0] = 0 < m`), and `monotonic()` and `realizable()`
return true on it, but `N = (1 << n)` is `INT_MIN`, the loop of `neighbors()` is
not entered and the result is empty. -/
theorem C12_int_shift_counterexample :
    WellFormed (mk5 31 1 [31] [] (0 :: 0 :: List.replicate (2 ^ 31 - 2) 0)) ∧
    (mk5 31 1 [31] [] (0 :: 0 :: List.replicate (2 ^ 31 - 2) 0)).logic_.sum =
      (((mk5 31 1 [31] [] (0 :: 0 :: List.replicate (2 ^ 31 - 2) 0)).n : Nat) : Int) ∧
    0 < 2 ^ 31 ∧
    level (mk5 31 1 [31] [] (0 :: 0 :: List.replicate (2 ^ 31 - 2) 0)) 0 < 1 ∧
    monotonic (mk5 31 1 [31] []
      ((0 :: 0 :: List.replicate (2 ^ 31 - 2) 0).set 0
        (level (mk5 31 1 [31] [] (0 :: 0 :: List.replicate (2 ^ 31 - 2) 0)) 0 + 1))) =
      .returned true ∧
    realizable (mk5 31 1 [31] []
      ((0 :: 0 :: List.replicate (2 ^ 31 - 2) 0).set 0
        (level (mk5 31 1 [31] [] (0 :: 0 :: List.replicate (2 ^ 31 - 2) 0)) 0 + 1))) =
      .returned true ∧
    neighbors (mk5 31 1 [31] [] (0 :: 0 :: List.replicate (2 ^ 31 - 2) 0)) = .returned [] :=
  ⟨wellFormed_of_length _ (length_two_cons_replicate 0 0 0), by decide, by decide, by decide,
   monotonic_of_lt _ (by decide), realizable_of_lt _ (by decide) (Or.inl rfl),
   neighbors_of_lt _ (by decide)⟩

/-! ## The result of `neighbors` as a set -/

theorem length_probed_le (M : MonotonicMap) (copy : List Int) : (probed M copy).length ≤ 1 := by
  unfold probed
  split <;> simp

theorem length_appended_le (M : MonotonicMap) (data : List Int) (i : Nat) :
    (appended M data i).length ≤ 2 := by
  unfold appended
  rw [List.length_append]
  have h1 : (if data.getD i 0 > 0 then probed M (data.set i (data.getD i 0 - 1))
      else []).length ≤ 1 := by
    split
    · exact length_probed_le M _
    · simp
  have h2 : (if data.getD i 0 < M.m then probed M (data.set i (data.getD i 0 + 1))
      else []).length ≤ 1 := by
    split
    · exact length_probed_le M _
    · simp
  omega

theorem length_flatMap_le {α β : Type} (f : α → List β) (k : Nat)
    (h : ∀ a, (f a).length ≤ k) (l : List α) : (l.flatMap f).length ≤ k * l.length := by
  induction l with
  | nil => simp
  | cons a l ih =>
    rw [List.flatMap_cons, List.length_append, List.length_cons, Nat.mul_succ]
    have := h a
    omega

/-- Two maps appended by `neighbors()` for vertices `i ≠ j`, or for the same
vertex with different steps, are told apart by `operator ==`. -/
theorem equals_false_of_steps (M : MonotonicMap) (hwf : WellFormed M) (i j : Nat)
    (hi : i ∈ upTo (shiftOne M.n)) (d e : Int) (hd : d ≠ 0)
    (hij : i ≠ j ∨ d ≠ e) :
    equals (mk5 M.n M.m M.logic_ M.constraints_ (M.data_.set i (M.data_.getD i 0 + d)))
      (mk5 M.n M.m M.logic_ M.constraints_ (M.data_.set j (M.data_.getD j 0 + e))) =
      .returned false := by
  have hilen : i < M.data_.length := by rw [hwf]; exact lt_of_mem_upTo _ _ hi
  have hA : WellFormed (mk5 M.n M.m M.logic_ M.constraints_
      (M.data_.set i (M.data_.getD i 0 + d))) := (List.length_set _ _ _).trans hwf
  have hB : WellFormed (mk5 M.n M.m M.logic_ M.constraints_
      (M.data_.set j (M.data_.getD j 0 + e))) := (List.length_set _ _ _).trans hwf
  refine equals_false_of_differ
    (mk5 M.n M.m M.logic_ M.constraints_ (M.data_.set i (M.data_.getD i 0 + d)))
    (mk5 M.n M.m M.logic_ M.constraints_ (M.data_.set j (M.data_.getD j 0 + e)))
    rfl rfl hA hB i hi ?_
  show (M.data_.set i (M.data_.getD i 0 + d)).getD i 0 ≠
    (M.data_.set j (M.data_.getD j 0 + e)).getD i 0
  rw [getD_set_self M.data_ i _ hilen]
  by_cases h : i = j
  · subst h
    rw [getD_set_self M.data_ i _ hilen]
    rcases hij with h1 | h1
    · exact absurd rfl h1
    · intro hc
      exact h1 (by omega)
  · rw [getD_set_other M.data_ j i _ h]
    intro hc
    exact hd (by omega)

theorem pairwise_appended (M : MonotonicMap) (hwf : WellFormed M) (i : Nat)
    (hi : i ∈ upTo (shiftOne M.n)) :
    (appended M M.data_ i).Pairwise (fun A B => equals A B = .returned false) := by
  unfold appended
  rw [List.pairwise_append]
  refine ⟨?_, ?_, ?_⟩
  · split
    · unfold probed
      split <;> simp
    · simp
  · split
    · unfold probed
      split <;> simp
    · simp
  · intro A hA B hB
    by_cases h1 : M.data_.getD i 0 > 0
    · rw [if_pos h1] at hA
      by_cases h2 : M.data_.getD i 0 < M.m
      · rw [if_pos h2] at hB
        rw [(mem_probed M _ A hA).1, (mem_probed M _ B hB).1, sub_eq_add_neg]
        exact equals_false_of_steps M hwf i i hi (-1) 1 (by decide) (Or.inr (by decide))
      · rw [if_neg h2] at hB
        cases hB
    · rw [if_neg h1] at hA
      cases hA

/-- C13: when `neighbors()` returns on a map whose `data_` has `2 ^ n` entries,
`operator ==` returns false on every two entries of the returned sequence, and
the sequence has at most `2 * 2 ^ n` entries. -/
theorem C13_neighbors_pairwise_distinct (M : MonotonicMap) (hwf : WellFormed M)
    (rs : List MonotonicMap) (h : neighbors M = .returned rs) :
    rs.Pairwise (fun A B => equals A B = .returned false) ∧ rs.length ≤ 2 * 2 ^ M.n := by
  rw [neighbors_returned M rs h]
  constructor
  · rw [List.pairwise_flatMap]
    constructor
    · intro i hi
      exact pairwise_appended M hwf i hi
    · have hlt : (upTo (shiftOne M.n)).Pairwise (fun a b => a < b) :=
        List.pairwise_lt_range _
      refine List.Pairwise.imp_of_mem ?_ hlt
      intro i j hi _ hij A hA B hB
      obtain ⟨d, hd, hAd, _⟩ := mem_appended M M.data_ i A hA
      obtain ⟨e, _, hBe, _⟩ := mem_appended M M.data_ j B hB
      rw [hAd, hBe]
      apply equals_false_of_steps M hwf i j hi d e
      · rcases hd with ⟨h1, _⟩ | ⟨h1, _⟩ <;> rw [h1] <;> decide
      · exact Or.inl (Nat.ne_of_lt hij)
  · have := length_flatMap_le (appended M M.data_) 2 (length_appended_le M M.data_)
      (upTo (shiftOne M.n))
    have hlen := length_upTo_le M.n
    omega

/-- C13 at `n = 1`, `m = 1`, factorization `[1]`, `data = [0, 1]`: `neighbors()`
returns two maps, which `operator ==` tells apart, and `2 ≤ 2 * 2 ^ 1`. -/
theorem C13_neighbors_pairwise_distinct_witness :
    WellFormed (mk5 1 1 [1] [] [0, 1]) ∧
    neighbors (mk5 1 1 [1] [] [0, 1]) =
      .returned [mk5 1 1 [1] [] [1, 1], mk5 1 1 [1] [] [0, 0]] ∧
    [mk5 1 1 [1] [] [1, 1], mk5 1 1 [1] [] [0, 0]].Pairwise
      (fun A B => equals A B = .returned false) ∧
    [mk5 1 1 [1] [] [1, 1], mk5 1 1 [1] [] [0, 0]].length ≤ 2 * 2 ^ 1 :=
  ⟨by decide, by decide,
   C13_neighbors_pairwise_distinct (mk5 1 1 [1] [] [0, 1]) (by decide)
     [mk5 1 1 [1] [] [1, 1], mk5 1 1 [1] [] [0, 0]] (by decide)⟩

/-! ## `operator ==` and `hash_value` -/

theorem checkEntry_guard (A B : MonotonicMap) (hn : A.n = B.n) (hA : WellFormed A)
    (hB : WellFormed B) :
    ∀ j ∈ upTo (shiftOne A.n),
      (level A j ≠ level B j → checkEntry A.data_ B.data_ j = some (.returned false)) ∧
      (¬ level A j ≠ level B j → checkEntry A.data_ B.data_ j = none) := by
  intro j hj
  have hj := lt_of_mem_upTo _ _ hj
  unfold checkEntry
  rw [data_at A hA j hj, data_at B hB j (by rw [← hn]; exact hj)]
  dsimp only
  exact ⟨fun h => by rw [if_pos h], fun h => by rw [if_neg h]⟩

theorem data_eq_of_levels (A B : MonotonicMap) (hn : A.n = B.n) (hA : WellFormed A)
    (hB : WellFormed B) (h : ∀ j, j < 2 ^ A.n → level A j = level B j) :
    A.data_ = B.data_ := by
  apply List.ext_getElem?
  intro j
  by_cases hj : j < 2 ^ A.n
  · rw [data_at A hA j hj, data_at B hB j (by rw [← hn]; exact hj), h j hj]
  · rw [List.getElem?_eq_none (by rw [hA]; exact not_lt.1 hj),
      List.getElem?_eq_none (by rw [hB, ← hn]; exact not_lt.1 hj)]

/-- Beyond `n = 30` the loop of `operator ==` is not entered: maps with the
same `n` and `m` compare equal. -/
theorem equals_of_lt (A B : MonotonicMap) (hn : A.n = B.n) (hm : A.m = B.m) (h : 30 < A.n) :
    equals A B = .returned true := by
  unfold equals
  rw [if_neg (not_not.2 hn), if_neg (not_not.2 hm), upTo_shiftOne_of_lt A.n h]
  rfl

/-- On well-formed maps with `n ≤ 30`, `operator ==` returns, and it returns
true exactly when `n`, `m` and `data_` agree. -/
theorem equals_spec (A B : MonotonicMap) (hA : WellFormed A) (hB : WellFormed B)
    (hA30 : A.n ≤ 30) :
    (∃ r, equals A B = .returned r) ∧
    (equals A B = .returned true ↔ A.n = B.n ∧ A.m = B.m ∧ A.data_ = B.data_) := by
  unfold equals
  by_cases hn : A.n = B.n
  · by_cases hm : A.m = B.m
    · rw [if_neg (not_not.2 hn), if_neg (not_not.2 hm)]
      have hg := firstExit_guard (checkEntry A.data_ B.data_) (upTo (shiftOne A.n))
        (Outcome.returned false) _ (checkEntry_guard A B hn hA hB)
      by_cases hdiff : ∃ j ∈ upTo (shiftOne A.n), level A j ≠ level B j
      · rw [hg.1 hdiff]
        refine ⟨⟨false, rfl⟩, ⟨fun h => (by cases h), fun h => ?_⟩⟩
        obtain ⟨j, _, hj⟩ := hdiff
        exact absurd (by unfold level; rw [h.2.2]) hj
      · rw [hg.2 hdiff]
        refine ⟨⟨true, rfl⟩, ⟨fun _ => ⟨hn, hm, ?_⟩, fun _ => rfl⟩⟩
        apply data_eq_of_levels A B hn hA hB
        intro j hj
        by_contra hne
        exact hdiff ⟨j, (mem_upTo _ _ hA30).2 hj, hne⟩
    · rw [if_neg (not_not.2 hn), if_pos hm]
      exact ⟨⟨false, rfl⟩, ⟨fun h => (by cases h), fun h => absurd h.2.1 hm⟩⟩
  · rw [if_pos hn]
    exact ⟨⟨false, rfl⟩, ⟨fun h => (by cases h), fun h => absurd h.1 hn⟩⟩

/-- On a well-formed map `operator ==` with the map itself returns true,
whatever `n` is. -/
theorem equals_self (A : MonotonicMap) (hA : WellFormed A) : equals A A = .returned true := by
  by_cases hn : A.n ≤ 30
  · exact (equals_spec A A hA hA hn).2.2 ⟨rfl, rfl, rfl⟩
  · exact equals_of_lt A A rfl rfl (by omega)

theorem hashLoop_returns (combine : Nat → Int → Nat) (data : List Int) (is : List Nat)
    (his : ∀ i ∈ is, i < data.length) :
    ∀ seed, ∃ h, hashLoop combine data is seed = .returned h := by
  induction is with
  | nil => intro seed; exact ⟨seed, rfl⟩
  | cons i is ih =>
    intro seed
    unfold hashLoop
    rw [getElem?_eq_getD data i (his i (List.mem_cons_self _ _))]
    exact ih (fun j hj => his j (List.mem_cons_of_mem _ hj)) _

/-- C14 (amended): for well-formed maps `A` and `B` with `A.n ≤ 30`, `A == B`
returns, and it returns true exactly when `n`, `m` and `data_` agree, whatever
`logic_` and `constraints_` are; `hash_value` returns on `A`, and when `A == B`
the two hash values are equal, whatever `boost::hash_combine` computes. -/
theorem C14_equality_and_hash (A B : MonotonicMap) (hA : WellFormed A) (hB : WellFormed B)
    (hn : A.n ≤ 30) :
    (∃ r, equals A B = .returned r) ∧
    (equals A B = .returned true ↔ A.n = B.n ∧ A.m = B.m ∧ A.data_ = B.data_) ∧
    (∀ combine : Nat → Int → Nat, ∃ h, hash_value combine A = .returned h) ∧
    (∀ combine : Nat → Int → Nat, equals A B = .returned true →
      hash_value combine A = hash_value combine B) := by
  obtain ⟨hret, hiff⟩ := equals_spec A B hA hB hn
  refine ⟨hret, hiff, ?_, ?_⟩
  · intro combine
    unfold hash_value
    exact hashLoop_returns combine A.data_ _
      (fun i hi => by rw [hA]; exact lt_of_mem_upTo _ _ hi) 0
  · intro combine heq
    obtain ⟨hnn, _, hdata⟩ := hiff.1 heq
    unfold hash_value
    rw [hnn, hdata]

/-- C14 at two maps with `n = 2`, `m = 1`, `data = [0, 0, 0, 1]`, one with
factorization `[2]` and no constraint, the other with `[1, 1]` and the
constraint `(1, (0, 1))`: they compare equal and hash equal. -/
theorem C14_equality_and_hash_witness :
    WellFormed (mk5 2 1 [2] [] [0, 0, 0, 1]) ∧
    WellFormed (mk5 2 1 [1, 1] [(1, (0, 1))] [0, 0, 0, 1]) ∧
    (mk5 2 1 [2] [] [0, 0, 0, 1]).n ≤ 30 ∧
    equals (mk5 2 1 [2] [] [0, 0, 0, 1]) (mk5 2 1 [1, 1] [(1, (0, 1))] [0, 0, 0, 1]) =
      .returned true ∧
    ∀ combine : Nat → Int → Nat,
      hash_value combine (mk5 2 1 [2] [] [0, 0, 0, 1]) =
        hash_value combine (mk5 2 1 [1, 1] [(1, (0, 1))] [0, 0, 0, 1]) :=
  ⟨by decide, by decide, by decide, by decide, fun combine =>
    (C14_equality_and_hash (mk5 2 1 [2] [] [0, 0, 0, 1])
      (mk5 2 1 [1, 1] [(1, (0, 1))] [0, 0, 0, 1]) (by decide) (by decide)
      (by decide)).2.2.2 combine (by decide)⟩

/-- C14 as stated fails at `n = 31`, on the two maps of `2 ^ 31` entries that
differ in `data_[0]` only: `N = (1 << n)` is `INT_MIN`, the loop of
`operator ==` compares no entry, and `A == B` returns true although the data
arrays are not identical. -/
theorem C14_int_shift_counterexample :
    WellFormed (mk5 31 1 [31] [] (0 :: 0 :: List.replicate (2 ^ 31 - 2) 0)) ∧
    WellFormed (mk5 31 1 [31] [] (1 :: 0 :: List.replicate (2 ^ 31 - 2) 0)) ∧
    (mk5 31 1 [31] [] (0 :: 0 :: List.replicate (2 ^ 31 - 2) 0)).data_ ≠
      (mk5 31 1 [31] [] (1 :: 0 :: List.replicate (2 ^ 31 - 2) 0)).data_ ∧
    equals (mk5 31 1 [31] [] (0 :: 0 :: List.replicate (2 ^ 31 - 2) 0))
      (mk5 31 1 [31] [] (1 :: 0 :: List.replicate (2 ^ 31 - 2) 0)) = .returned true :=
  ⟨wellFormed_of_length _ (length_two_cons_replicate 0 0 0),
   wellFormed_of_length _ (length_two_cons_replicate 1 0 0),
   fun h => absurd (List.head_eq_of_cons_eq h) (by decide),
   equals_of_lt _ _ rfl rfl (by decide)⟩

/-! ## Construction -/

theorem resize_nil {α : Type} (count : Nat) (value : α) :
    resize ([] : List α) count value = List.replicate count value := by
  unfold resize
  simp

theorem resizeData_of_le (n : Nat) (hn : n ≤ 30) :
    resizeData n = some (List.replicate (2 ^ n) 0) := by
  unfold resizeData
  rw [shiftOne_of_le n hn, if_neg (not_lt.2 (Int.ofNat_nonneg _)), Int.toNat_natCast,
    resize_nil]

/-- At `n = 31` and beyond the count passed to `resize` is negative as an `int`
and the call throws. -/
theorem resizeData_of_lt (n : Nat) (hn : 30 < n) : resizeData n = none := by
  have h : shiftOne n = -(2 ^ 31) := by
    unfold shiftOne
    rw [if_neg (not_le.2 hn)]
  unfold resizeData
  rw [h, if_pos (by decide)]

/-- C15 (amended): for `n ≤ 30`, `MonotonicMap(n, m)` yields `2 ^ n` data
entries, all 0, the factorization `[n]` and no constraint;
`MonotonicMap(n, m, logic)` and `MonotonicMap(n, m, logic, constraints)` yield
`2 ^ n` data entries, all 0, and store the supplied factorization and
constraints unchanged (no constraint when none is supplied). -/
theorem C15_construction_defaults (n : Nat) (hn : n ≤ 30) (m : Int) (logic : List Int)
    (constraints : List (Nat × (Nat × Nat))) :
    (∃ M, mk2 n m = .built M ∧ M.n = n ∧ M.m = m ∧ M.data_ = List.replicate (2 ^ n) 0 ∧
      M.data_.length = 2 ^ n ∧ M.logic_ = [(n : Int)] ∧ M.constraints_ = []) ∧
    (∃ M, mk3 n m logic = .built M ∧ M.n = n ∧ M.m = m ∧
      M.data_ = List.replicate (2 ^ n) 0 ∧ M.data_.length = 2 ^ n ∧ M.logic_ = logic ∧
      M.constraints_ = []) ∧
    (∃ M, mk4 n m logic constraints = .built M ∧ M.n = n ∧ M.m = m ∧
      M.data_ = List.replicate (2 ^ n) 0 ∧ M.data_.length = 2 ^ n ∧ M.logic_ = logic ∧
      M.constraints_ = constraints) := by
  have hdata := resizeData_of_le n hn
  have hlen : (List.replicate (2 ^ n) (0 : Int)).length = 2 ^ n := List.length_replicate _ _
  refine ⟨⟨_, by unfold mk2; rw [hdata], rfl, rfl, rfl, hlen, ?_, rfl⟩,
    ⟨_, by unfold mk3; rw [hdata], rfl, rfl, rfl, hlen, rfl, rfl⟩,
    ⟨_, by unfold mk4; rw [hdata], rfl, rfl, rfl, hlen, rfl, rfl⟩⟩
  show resize ([] : List Int) 1 (n : Int) = [(n : Int)]
  rw [resize_nil]
  rfl

/-- C15 at `n = 2`, `m = 1`: the hypothesis holds and `MonotonicMap(2, 1)` is
built with four data entries. -/
theorem C15_construction_defaults_witness :
    (2 : Nat) ≤ 30 ∧ ∃ M, mk2 2 1 = .built M ∧ M.data_.length = 2 ^ 2 :=
  ⟨by decide,
   (C15_construction_defaults 2 (by decide) 1 [2] []).1.imp
     (fun _ h => ⟨h.1, h.2.2.2.2.1⟩)⟩

/-- C15 as stated fails at `n = 31`: `(1 << n)` is `INT_MIN`, which `resize`
receives as a count above `max_size()`, so each of the three constructors
throws `std::length_error` and yields no map. -/
theorem C15_int_shift_counterexample :
    mk2 31 1 = .lengthError ∧ mk3 31 1 [31] = .lengthError ∧
    mk4 31 1 [31] [] = .lengthError := by
  decide

/-- C16 (amended): the five-argument constructor validates nothing: for all
arguments the call returns the map that stores `n`, `m`, the factorization, the
constraints and the data unchanged, also when the factorization does not sum to
`n`, the data length is not `2 ^ n` or a data entry is outside `[0, m]`. -/
theorem C16_construct_stores_arguments (n : Nat) (m : Int) (logic : List Int)
    (constraints : List (Nat × (Nat × Nat))) (data : List Int) :
    ∃ M, construct n m logic constraints data = .returned M ∧ M.n = n ∧ M.m = m ∧
      M.logic_ = logic ∧ M.constraints_ = constraints ∧ M.data_ = data :=
  ⟨mk5 n m logic constraints data, rfl, rfl, rfl, rfl, rfl, rfl⟩

/-- C16 as stated fails at `n = 3`, `m = 1`, factorization `[2, 2]` (sum 4),
data `[5, -1]` (length 2, both entries outside `[0, 1]`): the constructor
returns a map holding these values. -/
theorem C16_no_validation_counterexample :
    ([2, 2] : List Int).sum ≠ ((3 : Nat) : Int) ∧
    ([5, -1] : List Int).length ≠ 2 ^ 3 ∧
    (¬ ∀ v ∈ ([5, -1] : List Int), 0 ≤ v ∧ v ≤ 1) ∧
    construct 3 1 [2, 2] [] [5, -1] = .returned (mk5 3 1 [2, 2] [] [5, -1]) ∧
    (mk5 3 1 [2, 2] [] [5, -1]).data_ = [5, -1] :=
  ⟨by decide, by decide, by decide, rfl, rfl⟩

/-! ## `prettyPrint` -/

theorem emitTerms_spec (symbol : String) (input_symbols : List String) (i : Nat) (lj : Int)
    (ks : List Nat) :
    ∀ count, count + ks.length ≤ input_symbols.length →
      ∃ t, ∀ ss, emitTerms symbol input_symbols i lj ks ss count =
        some (ss ++ t, count + ks.length) := by
  induction ks with
  | nil =>
    intro count _
    exact ⟨"", fun ss => by rw [String.append_empty]; rfl⟩
  | cons k ks ih =>
    intro count hle
    rw [List.length_cons] at hle
    have hlt : count < input_symbols.length := by omega
    obtain ⟨t1, ht1⟩ := ih (count + 1) (by omega)
    refine ⟨((if i &&& (1 <<< count) = 0 then "L(" else "U(") ++ input_symbols[count] ++ ", " ++
      symbol ++ ")") ++ (if (k : Int) ≠ lj - 1 then " + " else "") ++ t1, fun ss => ?_⟩
    unfold emitTerms
    rw [List.getElem?_eq_getElem hlt]
    dsimp only
    rw [ht1, List.length_cons]
    by_cases hk : (k : Int) ≠ lj - 1
    · rw [if_pos hk, if_pos hk]
      simp only [String.append_assoc, Nat.add_assoc, Nat.add_comm 1]
    · rw [if_neg hk, if_neg hk]
      simp only [String.append_assoc, String.append_empty, String.empty_append, Nat.add_assoc,
        Nat.add_comm 1]

theorem emitFactors_spec (symbol : String) (input_symbols : List String) (i : Nat)
    (ls : List Int) :
    ∀ count, count + (ls.map Int.toNat).sum ≤ input_symbols.length →
      ∃ t, ∀ ss, emitFactors symbol input_symbols i ls ss count =
        some (ss ++ t, count + (ls.map Int.toNat).sum) := by
  induction ls with
  | nil =>
    intro count _
    exact ⟨"", fun ss => by rw [String.append_empty]; rfl⟩
  | cons lj ls ih =>
    intro count hle
    rw [List.map_cons, List.sum_cons] at hle
    obtain ⟨t1, ht1⟩ := emitTerms_spec symbol input_symbols i lj (List.range lj.toNat) count
      (by rw [List.length_range]; omega)
    rw [List.length_range] at ht1
    obtain ⟨t2, ht2⟩ := ih (count + lj.toNat) (by omega)
    refine ⟨"(" ++ t1 ++ ")" ++ t2, fun ss => ?_⟩
    unfold emitFactors
    rw [ht1]
    dsimp only
    rw [ht2, List.map_cons, List.sum_cons]
    simp only [String.append_assoc, Nat.add_assoc]

theorem sum_toNat_eq (l : List Int) (h : ∀ f ∈ l, 0 < f) :
    (((l.map Int.toNat).sum : Nat) : Int) = l.sum := by
  induction l with
  | nil => rfl
  | cons x xs ih =>
    rw [List.map_cons, List.sum_cons, List.sum_cons, Nat.cast_add,
      ih (fun f hf => h f (List.mem_cons_of_mem _ hf)),
      Int.toNat_of_nonneg (le_of_lt (h x (List.mem_cons_self _ _)))]

theorem getElem?_string (l : List String) (k : Nat) (h : k < l.length) :
    l[k]? = some (l.getD k "") := by
  rw [List.getD_eq_getElem?_getD, List.getElem?_eq_getElem h]
  rfl

theorem emitLower_spec (symbol : String) (output_symbols : List String) (m bin : Int)
    (hlen : (output_symbols.length : Int) = m) (hbin : bin ≤ m) (ss : String) :
    emitLower symbol output_symbols bin ss =
      some (ss ++ lowerBound symbol output_symbols bin) := by
  unfold emitLower lowerBound
  by_cases h : bin > 0
  · rw [if_pos h, if_pos h, getElem?_string output_symbols _ (by omega)]
    simp only [String.append_assoc]
  · rw [if_neg h, if_neg h, String.append_empty]

theorem emitUpper_spec (symbol : String) (output_symbols : List String) (m bin : Int)
    (hlen : (output_symbols.length : Int) = m) (hbin : 0 ≤ bin) (ss : String) :
    emitUpper symbol output_symbols m bin ss =
      some (ss ++ upperBound symbol output_symbols m bin) := by
  unfold emitUpper upperBound
  by_cases h : bin < m
  · rw [if_pos h, if_pos h, if_neg (not_lt.2 hbin), getElem?_string output_symbols _ (by omega)]
    simp only [String.append_assoc]
  · rw [if_neg h, if_neg h, String.append_empty]

theorem level_mem (M : MonotonicMap) (hwf : WellFormed M) (i : Nat) (hi : i < 2 ^ M.n) :
    level M i ∈ M.data_ := by
  have hlt : i < M.data_.length := by rw [hwf]; exact hi
  unfold level
  rw [List.getD_eq_getElem _ _ hlt]
  exact List.getElem_mem hlt

theorem emitAll_spec (M : MonotonicMap) (symbol : String)
    (input_symbols output_symbols : List String) (entry : Nat → String) (is : List Nat)
    (h : ∀ i ∈ is, ∀ ss, emitVertex M symbol input_symbols output_symbols ss i =
      some (ss ++ entry i)) :
    ∀ ss, emitAll M symbol input_symbols output_symbols is ss =
      some (is.foldl (fun acc i => acc ++ entry i) ss) := by
  induction is with
  | nil => intro ss; rfl
  | cons i is ih =>
    intro ss
    unfold emitAll
    rw [h i (List.mem_cons_self _ _) ss]
    dsimp only
    rw [ih (fun j hj => h j (List.mem_cons_of_mem _ hj)), List.foldl_cons]

/-- Beyond `n = 30` the vertex loop of `prettyPrint` is not entered: with
matching symbol lists the empty text is returned. -/
theorem prettyPrint_of_lt (M : MonotonicMap) (symbol : String)
    (input_symbols output_symbols : List String) (hn : 30 < M.n)
    (hin : input_symbols.length = M.n) (hout : (output_symbols.length : Int) = M.m) :
    prettyPrint M symbol input_symbols output_symbols = .text "" := by
  unfold prettyPrint
  rw [if_neg (not_not.2 hin), if_neg (not_not.2 hout), upTo_shiftOne_of_lt M.n hn]
  rfl

/-- On a well-formed map with `n ≤ 30` and matching symbol lists, `prettyPrint`
returns the concatenation, in increasing vertex order, of the entries "lower
bound, factor expression, upper bound, `;` and a line break". -/
theorem prettyPrint_text (M : MonotonicMap) (symbol : String)
    (input_symbols output_symbols : List String) (hwf : WellFormed M) (hn : M.n ≤ 30)
    (hrange : ∀ v ∈ M.data_, 0 ≤ v ∧ v ≤ M.m) (hpos : ∀ f ∈ M.logic_, 0 < f)
    (hsum : M.logic_.sum = (M.n : Int)) (hin : input_symbols.length = M.n)
    (hout : (output_symbols.length : Int) = M.m) :
    ∃ factors : Nat → String,
      (∀ i ss, ∃ count, emitFactors symbol input_symbols i M.logic_ ss 0 =
        some (ss ++ factors i, count)) ∧
      prettyPrint M symbol input_symbols output_symbols =
        .text ((List.range (2 ^ M.n)).foldl (fun acc i => acc ++
          (lowerBound symbol output_symbols (level M i) ++ factors i ++
            upperBound symbol output_symbols M.m (level M i) ++ ";\n")) "") := by
  have hterms : 0 + (M.logic_.map Int.toNat).sum ≤ input_symbols.length := by
    have h1 := sum_toNat_eq M.logic_ hpos
    rw [hsum] at h1
    have h2 : (M.logic_.map Int.toNat).sum = M.n := Int.ofNat.inj h1
    omega
  choose factors hfactors using fun i =>
    emitFactors_spec symbol input_symbols i M.logic_ 0 hterms
  refine ⟨factors, fun i ss => ⟨_, hfactors i ss⟩, ?_⟩
  have hvertex : ∀ i ∈ List.range (1 <<< M.n), ∀ ss,
      emitVertex M symbol input_symbols output_symbols ss i =
        some (ss ++ (lowerBound symbol output_symbols (level M i) ++ factors i ++
          upperBound symbol output_symbols M.m (level M i) ++ ";\n")) := by
    intro i hi ss
    rw [mem_range_shift] at hi
    obtain ⟨h0, hm⟩ := hrange _ (level_mem M hwf i hi)
    unfold emitVertex
    rw [data_at M hwf i hi]
    dsimp only
    rw [emitLower_spec symbol output_symbols M.m _ hout hm]
    dsimp only
    rw [hfactors i]
    dsimp only
    rw [emitUpper_spec symbol output_symbols M.m _ hout h0]
    dsimp only
    simp only [String.append_assoc]
  unfold prettyPrint
  rw [if_neg (not_not.2 hin), if_neg (not_not.2 hout), upTo_shiftOne M.n hn,
    emitAll_spec M symbol input_symbols output_symbols _ _ hvertex, Nat.one_shiftLeft]

/-- C17 (amended): `prettyPrint` throws from its length checks exactly when
`input_symbols.size() != n` or `output_symbols.size() != m`; and on a
well-formed map (data of length `2 ^ n` with entries in `[0, m]`, positive
factorization entries summing to `n`) with both lengths matching it returns
text. -/
theorem C17_prettyPrint_symbol_count (M : MonotonicMap) (symbol : String)
    (input_symbols output_symbols : List String) :
    (prettyPrint M symbol input_symbols output_symbols = .symbolCountMismatch ↔
      input_symbols.length ≠ M.n ∨ (output_symbols.length : Int) ≠ M.m) ∧
    (WellFormed M → (∀ v ∈ M.data_, 0 ≤ v ∧ v ≤ M.m) → (∀ f ∈ M.logic_, 0 < f) →
      M.logic_.sum = (M.n : Int) → input_symbols.length = M.n →
      (output_symbols.length : Int) = M.m →
      ∃ t, prettyPrint M symbol input_symbols output_symbols = .text t) := by
  constructor
  · unfold prettyPrint
    by_cases hin : input_symbols.length ≠ M.n
    · rw [if_pos hin]
      exact ⟨fun _ => Or.inl hin, fun _ => rfl⟩
    · rw [if_neg hin]
      by_cases hout : (output_symbols.length : Int) ≠ M.m
      · rw [if_pos hout]
        exact ⟨fun _ => Or.inr hout, fun _ => rfl⟩
      · rw [if_neg hout]
        constructor
        · intro h
          split at h <;> cases h
        · intro h
          rcases h with h | h
          · exact absurd h hin
          · exact absurd h hout
  · intro hwf hrange hpos hsum hin hout
    by_cases hn : M.n ≤ 30
    · obtain ⟨factors, _, htext⟩ := prettyPrint_text M symbol input_symbols output_symbols hwf
        hn hrange hpos hsum hin hout
      exact ⟨_, htext⟩
    · exact ⟨_, prettyPrint_of_lt M symbol input_symbols output_symbols (by omega) hin hout⟩

/-- C17 at `n = 1`, `m = 1`, factorization `[1]`, `data = [0, 1]`: with the
symbol lists `[x]` and `[y]` the call returns text; with the input list
`[x, z]` it throws. -/
theorem C17_prettyPrint_symbol_count_witness :
    (∃ t, prettyPrint (mk5 1 1 [1] [] [0, 1]) "s" ["x"] ["y"] = .text t) ∧
    prettyPrint (mk5 1 1 [1] [] [0, 1]) "s" ["x", "z"] ["y"] = .symbolCountMismatch :=
  ⟨(C17_prettyPrint_symbol_count (mk5 1 1 [1] [] [0, 1]) "s" ["x"] ["y"]).2 (by decide)
     (by decide) (by decide) (by decide) (by decide) (by decide),
   (C17_prettyPrint_symbol_count (mk5 1 1 [1] [] [0, 1]) "s" ["x", "z"] ["y"]).1.2
     (Or.inl (by decide))⟩

/-- C17 as stated fails at `n = 1`, `m = 1`, factorization `[1]`, data `[2, 0]`
(a map the five-argument constructor accepts, with `data_[0]` above `m`) and
the symbol lists `[x]`, `[y]`: both lengths match, but the lower bound of
vertex 0 reads `output_symbols[1]`, outside the vector, and no text is
returned. With the same symbol lists it fails in the same way for each of the
other conditions of a well-formed map: with the data `[0]` (one entry instead
of `2 ^ n`) vertex 1 reads `data_[1]`; with the factorization `[2]` (sum 2
instead of `n`) and with the factorization `[-1, 2]` (sum `n`, one entry not
positive) the second term reads `input_symbols[1]`. -/
theorem C17_unchecked_access_counterexample :
    ["x"].length = (mk5 1 1 [1] [] [2, 0]).n ∧
    ((["y"].length : Nat) : Int) = (mk5 1 1 [1] [] [2, 0]).m ∧
    construct 1 1 [1] [] [2, 0] = .returned (mk5 1 1 [1] [] [2, 0]) ∧
    prettyPrint (mk5 1 1 [1] [] [2, 0]) "s" ["x"] ["y"] = .outOfRange ∧
    (¬ ∃ t, prettyPrint (mk5 1 1 [1] [] [2, 0]) "s" ["x"] ["y"] = .text t) ∧
    prettyPrint (mk5 1 1 [1] [] [0]) "s" ["x"] ["y"] = .outOfRange ∧
    prettyPrint (mk5 1 1 [2] [] [0, 1]) "s" ["x"] ["y"] = .outOfRange ∧
    prettyPrint (mk5 1 1 [-1, 2] [] [0, 1]) "s" ["x"] ["y"] = .outOfRange :=
  ⟨by decide, by decide, rfl, by decide,
   fun ⟨_, h⟩ => absurd ((by decide : prettyPrint (mk5 1 1 [1] [] [2, 0]) "s" ["x"] ["y"] =
     .outOfRange).symm.trans h) (by intro hc; cases hc),
   by decide, by decide, by decide⟩

/-- C18 (amended): for every `n ≤ 30`, on a well-formed map (data of length
`2 ^ n` with entries in `[0, m]`, positive factorization entries summing to
`n`) with matching symbol lists, `prettyPrint` returns the concatenation, for `i = 0 .. 2 ^ n - 1` in order, of
one entry per vertex followed by `;` and a line break; the entry is the lower
bound `THETA(symbol, output_symbols[data[i]-1]) <= ` (present exactly when
`data[i] > 0`), then what the factor loops write for vertex `i`, then the upper
bound ` <= THETA(symbol, output_symbols[data[i]])` (present exactly when
`data[i] < m`). -/
theorem C18_prettyPrint_structure (M : MonotonicMap) (symbol : String)
    (input_symbols output_symbols : List String) (hwf : WellFormed M) (hn : M.n ≤ 30)
    (hrange : ∀ v ∈ M.data_, 0 ≤ v ∧ v ≤ M.m) (hpos : ∀ f ∈ M.logic_, 0 < f)
    (hsum : M.logic_.sum = (M.n : Int)) (hin : input_symbols.length = M.n)
    (hout : (output_symbols.length : Int) = M.m) :
    ∃ factors : Nat → String,
      (∀ i ss, ∃ count, emitFactors symbol input_symbols i M.logic_ ss 0 =
        some (ss ++ factors i, count)) ∧
      prettyPrint M symbol input_symbols output_symbols =
        .text ((List.range (2 ^ M.n)).foldl (fun acc i => acc ++
          ((if level M i > 0 then
              "THETA(" ++ symbol ++ ", " ++ output_symbols.getD (level M i - 1).toNat "" ++
                ") <= "
            else "") ++
            factors i ++
            (if level M i < M.m then
              " <= THETA(" ++ symbol ++ ", " ++ output_symbols.getD (level M i).toNat "" ++ ")"
            else "") ++
            ";\n")) "") :=
  prettyPrint_text M symbol input_symbols output_symbols hwf hn hrange hpos hsum hin hout

/-- C18 at the worked example `n = 1`, `m = 1`, factorization `[1]`,
`data = [0, 1]`, symbol `s`, `input_symbols = [x]`, `output_symbols = [y]`: the
hypotheses hold, the text has the stated structure, and it is
`(L(x, s)) <= THETA(s, y);` then `THETA(s, y) <= (U(x, s));`, each followed by a
line break. -/
theorem C18_prettyPrint_structure_witness :
    (mk5 1 1 [1] [] [0, 1]).n ≤ 30 ∧
    (∃ factors : Nat → String,
      (∀ i ss, ∃ count, emitFactors "s" ["x"] i [1] ss 0 = some (ss ++ factors i, count)) ∧
      prettyPrint (mk5 1 1 [1] [] [0, 1]) "s" ["x"] ["y"] =
        .text ((List.range (2 ^ 1)).foldl (fun acc i => acc ++
          ((if level (mk5 1 1 [1] [] [0, 1]) i > 0 then
              "THETA(" ++ "s" ++ ", " ++
                ["y"].getD (level (mk5 1 1 [1] [] [0, 1]) i - 1).toNat "" ++ ") <= "
            else "") ++
            factors i ++
            (if level (mk5 1 1 [1] [] [0, 1]) i < 1 then
              " <= THETA(" ++ "s" ++ ", " ++
                ["y"].getD (level (mk5 1 1 [1] [] [0, 1]) i).toNat "" ++ ")"
            else "") ++
            ";\n")) "")) ∧
    prettyPrint (mk5 1 1 [1] [] [0, 1]) "s" ["x"] ["y"] =
      .text "(L(x, s)) <= THETA(s, y);\nTHETA(s, y) <= (U(x, s));\n" :=
  ⟨by decide,
   C18_prettyPrint_structure (mk5 1 1 [1] [] [0, 1]) "s" ["x"] ["y"] (by decide) (by decide)
     (by decide) (by decide) (by decide) (by decide) (by decide),
   by decide⟩

theorem length_le_foldl_append (g : Nat → String) (l : List Nat) :
    ∀ acc : String, acc.length ≤ (l.foldl (fun acc i => acc ++ g i) acc).length := by
  induction l with
  | nil => intro acc; exact le_refl _
  | cons i is ih =>
    intro acc
    rw [List.foldl_cons]
    have h1 := ih (acc ++ g i)
    rw [String.length_append] at h1
    omega

/-- A text made of one entry per vertex, each ending in `;` and a line break,
is not empty when there is a vertex. -/
theorem foldl_entries_ne_empty (g : Nat → String) (k : Nat) (hk : 0 < k) :
    (List.range k).foldl (fun acc i => acc ++ (g i ++ ";\n")) "" ≠ "" := by
  cases k with
  | zero => exact absurd hk (lt_irrefl _)
  | succ k =>
    rw [List.range_succ_eq_map, List.foldl_cons]
    intro hc
    have h1 := length_le_foldl_append (fun i => g i ++ ";\n") (List.map Nat.succ (List.range k))
      ("" ++ (g 0 ++ ";\n"))
    rw [hc, String.length_append, String.length_append] at h1
    have h2 : (";\n" : String).length = 2 := by decide
    have h3 : ("" : String).length = 0 := by decide
    omega

/-- C18 as stated fails at `n = 31`, `m = 1`, factorization `[31]`, on the
all-zero map of `2 ^ 31` entries with 31 input symbols and one output symbol:
the map is well-formed and the lengths match, but `N = (1 << n)` is `INT_MIN`,
the vertex loop is not entered and the returned text is empty, while a text with
one entry per vertex `i = 0 .. 2 ^ 31 - 1`, each ending in `;`, is not. -/
theorem C18_int_shift_counterexample :
    WellFormed (mk5 31 1 [31] [] (0 :: 0 :: List.replicate (2 ^ 31 - 2) 0)) ∧
    (∀ v ∈ (mk5 31 1 [31] [] (0 :: 0 :: List.replicate (2 ^ 31 - 2) 0)).data_,
      0 ≤ v ∧ v ≤ (mk5 31 1 [31] [] (0 :: 0 :: List.replicate (2 ^ 31 - 2) 0)).m) ∧
    (∀ f ∈ (mk5 31 1 [31] [] (0 :: 0 :: List.replicate (2 ^ 31 - 2) 0)).logic_, 0 < f) ∧
    (mk5 31 1 [31] [] (0 :: 0 :: List.replicate (2 ^ 31 - 2) 0)).logic_.sum =
      (((mk5 31 1 [31] [] (0 :: 0 :: List.replicate (2 ^ 31 - 2) 0)).n : Nat) : Int) ∧
    (List.replicate 31 "x").length =
      (mk5 31 1 [31] [] (0 :: 0 :: List.replicate (2 ^ 31 - 2) 0)).n ∧
    ((["y"].length : Nat) : Int) =
      (mk5 31 1 [31] [] (0 :: 0 :: List.replicate (2 ^ 31 - 2) 0)).m ∧
    prettyPrint (mk5 31 1 [31] [] (0 :: 0 :: List.replicate (2 ^ 31 - 2) 0)) "s"
      (List.replicate 31 "x") ["y"] = .text "" ∧
    ∀ entry : Nat → String,
      (List.range (2 ^ 31)).foldl (fun acc i => acc ++ (entry i ++ ";\n")) "" ≠ "" :=
  ⟨wellFormed_of_length _ (length_two_cons_replicate 0 0 0),
   fun v hv => by
     rw [zero_of_mem_zeros v hv]
     decide,
   by decide, by decide, by decide, by decide,
   prettyPrint_of_lt _ _ _ _ (by decide) (by decide) (by decide),
   fun entry => foldl_entries_ne_empty entry (2 ^ 31) (by decide)⟩

set_option maxRecDepth 100000 in
/-- C19, evaluated: for `n = 3`, factorization `[2, 1]` and input symbols
`a, b, c`, the factor loops give the two terms of the first factor to bits 0
and 1 of the vertex and the single term of the last factor to bit 2. At vertex
`001` (only bit 0 set) the last factor is written `L(c, s)` and the first term
of the first factor `U(a, s)`; at vertex `100` (only bit 2 set) the last factor
is written `U(c, s)`. -/
theorem C19_first_factor_takes_low_bits :
    emitFactors "s" ["a", "b", "c"] 1 [2, 1] "" 0 = some ("(U(a, s) + L(b, s))(L(c, s))", 3) ∧
    emitFactors "s" ["a", "b", "c"] 2 [2, 1] "" 0 = some ("(L(a, s) + U(b, s))(L(c, s))", 3) ∧
    emitFactors "s" ["a", "b", "c"] 4 [2, 1] "" 0 = some ("(L(a, s) + L(b, s))(U(c, s))", 3) ∧
    prettyPrint (mk5 3 1 [2, 1] [] [0, 0, 0, 0, 0, 0, 0, 0]) "s" ["a", "b", "c"] ["y"] =
      .text ("(L(a, s) + L(b, s))(L(c, s)) <= THETA(s, y);\n" ++
        "(U(a, s) + L(b, s))(L(c, s)) <= THETA(s, y);\n" ++
        "(L(a, s) + U(b, s))(L(c, s)) <= THETA(s, y);\n" ++
        "(U(a, s) + U(b, s))(L(c, s)) <= THETA(s, y);\n" ++
        "(L(a, s) + L(b, s))(U(c, s)) <= THETA(s, y);\n" ++
        "(U(a, s) + L(b, s))(U(c, s)) <= THETA(s, y);\n" ++
        "(L(a, s) + U(b, s))(U(c, s)) <= THETA(s, y);\n" ++
        "(U(a, s) + U(b, s))(U(c, s)) <= THETA(s, y);\n") := by
  refine ⟨by decide, by decide, by decide, ?_⟩
  decide

/-- C20, evaluated: for `n = 1`, `data = [0, 0]` and the constraint
`(1, (0, 1))`, the pair `a = 0`, `b = 1` meets the guard of Step 1 and
`data_[a] < data_[b]` does not hold, but `realizable()` returns true: Step 1
only rejects `data_[a] > data_[b]`. -/
theorem C20_constraint_not_strict :
    WellFormed (mk5 1 1 [1] [(1, (0, 1))] [0, 0]) ∧
    constraintApplies 0 1 (1, (0, 1)) ∧
    ¬ (level (mk5 1 1 [1] [(1, (0, 1))] [0, 0]) 0 < level (mk5 1 1 [1] [(1, (0, 1))] [0, 0]) 1) ∧
    realizable (mk5 1 1 [1] [(1, (0, 1))] [0, 0]) = .returned true := by
  decide

/-! ## Invariants of the neighbour step -/

/-- C22: when `neighbors()` returns on a map whose `data_` has `2 ^ n` entries,
all in `[0, m]`, every returned map has the source's `n`, `m`, `logic_` and
`constraints_`, and its `data_` again has `2 ^ n` entries, all in `[0, m]`. -/
theorem C22_neighbors_keep_range (M : MonotonicMap) (hwf : WellFormed M)
    (hrange : ∀ v ∈ M.data_, 0 ≤ v ∧ v ≤ M.m) (rs : List MonotonicMap)
    (h : neighbors M = .returned rs) (R : MonotonicMap) (hR : R ∈ rs) :
    R.n = M.n ∧ R.m = M.m ∧ R.logic_ = M.logic_ ∧ R.constraints_ = M.constraints_ ∧
    R.data_.length = 2 ^ R.n ∧ ∀ v ∈ R.data_, 0 ≤ v ∧ v ≤ R.m := by
  obtain ⟨i, _, hi, hmem⟩ := mem_neighbors M rs h R hR
  obtain ⟨d, hd, hRd, _⟩ := mem_appended M M.data_ i R hmem
  have hv := hrange _ (level_mem M hwf i hi)
  unfold level at hv
  rw [hRd]
  refine ⟨rfl, rfl, rfl, rfl, (List.length_set _ _ _).trans hwf, ?_⟩
  intro v hvmem
  show 0 ≤ v ∧ v ≤ M.m
  rcases List.mem_or_eq_of_mem_set hvmem with h1 | h1
  · exact hrange v h1
  · rw [h1]
    rcases hd with ⟨hd1, hlt⟩ | ⟨hd1, hgt⟩
    · rw [hd1]; omega
    · rw [hd1]; omega

/-- C22 at `n = 1`, `m = 1`, factorization `[1]`, `data = [0, 1]`: the returned
map with data `[1, 1]` keeps `n`, `m`, the factorization and the range. -/
theorem C22_neighbors_keep_range_witness :
    WellFormed (mk5 1 1 [1] [] [0, 1]) ∧
    (∀ v ∈ (mk5 1 1 [1] [] [0, 1]).data_, 0 ≤ v ∧ v ≤ (mk5 1 1 [1] [] [0, 1]).m) ∧
    neighbors (mk5 1 1 [1] [] [0, 1]) =
      .returned [mk5 1 1 [1] [] [1, 1], mk5 1 1 [1] [] [0, 0]] ∧
    ∀ v ∈ (mk5 1 1 [1] [] [1, 1]).data_, 0 ≤ v ∧ v ≤ (mk5 1 1 [1] [] [1, 1]).m :=
  ⟨by decide, by decide, by decide,
   (C22_neighbors_keep_range (mk5 1 1 [1] [] [0, 1]) (by decide) (by decide)
     [mk5 1 1 [1] [] [1, 1], mk5 1 1 [1] [] [0, 0]] (by decide)
     (mk5 1 1 [1] [] [1, 1]) (by decide)).2.2.2.2.2⟩

/-! ## Index safety -/

theorem level_const (M : MonotonicMap) (hwf : WellFormed M) (c : Int)
    (hconst : ∀ v ∈ M.data_, v = c) (i : Nat) (hi : i < 2 ^ M.n) : level M i = c :=
  hconst _ (level_mem M hwf i hi)

theorem getD_const (data : List Int) (c : Int) (hconst : ∀ v ∈ data, v = c) (i : Nat)
    (hi : i < data.length) : data.getD i 0 = c := by
  rw [List.getD_eq_getElem _ _ hi]
  exact hconst _ (List.getElem_mem hi)

theorem monotonic_const (M : MonotonicMap) (hwf : WellFormed M) (c : Int)
    (hconst : ∀ v ∈ M.data_, v = c) : monotonic M = .returned true := by
  by_cases hn : M.n ≤ 30
  · apply (monotonic_covering M hwf hn).2.2
    intro i hi pos hpos _
    rw [level_const M hwf c hconst i hi,
      level_const M hwf c hconst _ (or_bit_lt _ _ _ hi hpos)]
  · exact monotonic_of_lt M (by omega)

theorem constraintPhase_const (M : MonotonicMap) (hwf : WellFormed M) (c : Int)
    (hconst : ∀ v ∈ M.data_, v = c) : constraintPhase M = none := by
  by_cases hn : M.n ≤ 30
  · apply (constraintPhase_eq_none_iff M hwf hn).2
    intro a b ha hb _ _ _
    rw [level_const M hwf c hconst a ha, level_const M hwf c hconst b hb]
  · exact constraintPhase_of_lt M (by omega)

theorem allSumProduct_const (M : MonotonicMap) (hwf : WellFormed M) (c : Int)
    (hconst : ∀ v ∈ M.data_, v = c) : allSumProduct M = .returned true := by
  by_cases hn : M.n ≤ 30
  · apply (allSumProduct_spec M hwf hn).2
    rintro ⟨I, _, a, ha, _, b, hb, _, ⟨c1, hc1, _, hlt⟩, _⟩
    rw [level_const M hwf c hconst _ (Nat.or_lt_two_pow ha hc1),
      level_const M hwf c hconst _ (Nat.or_lt_two_pow hb hc1)] at hlt
    exact lt_irrefl _ hlt
  · exact allSumProduct_of_lt M (by omega)

theorem case21_const (data : List Int) (hlen : data.length = 8) (c : Int)
    (hconst : ∀ v ∈ data, v = c) : case21 data = .returned true := by
  apply (case21_spec data hlen).2.2
  rw [getD_const data c hconst 1 (by omega), getD_const data c hconst 2 (by omega),
    getD_const data c hconst 3 (by omega), getD_const data c hconst 4 (by omega),
    getD_const data c hconst 5 (by omega), getD_const data c hconst 6 (by omega)]
  exact ⟨fun _ => le_refl _, fun _ => le_refl _, fun _ => le_refl _, fun _ => le_refl _⟩

theorem case12_const (data : List Int) (hlen : data.length = 8) (c : Int)
    (hconst : ∀ v ∈ data, v = c) : case12 data = .returned true := by
  apply (case12_spec data hlen).2.2
  rw [getD_const data c hconst 1 (by omega), getD_const data c hconst 2 (by omega),
    getD_const data c hconst 3 (by omega), getD_const data c hconst 4 (by omega),
    getD_const data c hconst 5 (by omega), getD_const data c hconst 6 (by omega)]
  exact ⟨fun _ => le_refl _, fun _ => le_refl _, fun _ => le_refl _, fun _ => le_refl _⟩

theorem case22_const (data : List Int) (hlen : data.length = 16) (c : Int)
    (hconst : ∀ v ∈ data, v = c) : case22 data = .returned true := by
  apply (case22_spec data hlen).2.2
  constructor
  · intro slice _ x v hx hv hlt
    rw [getD_const data c hconst x (by omega),
      getD_const data c hconst _ (by rw [hlen]; exact slice_index_lt x v slice hx hv)] at hlt
    exact absurd hlt (lt_irrefl _)
  · intro x y hx hy hlt
    rw [getD_const data c hconst x (by omega), getD_const data c hconst y (by omega)] at hlt
    exact absurd hlt (lt_irrefl _)

/-- A constant map of an implemented shape is monotonic and realizable. -/
theorem const_admissible (M : MonotonicMap) (hwf : WellFormed M)
    (hsum : M.logic_.sum = (M.n : Int)) (c : Int) (hconst : ∀ v ∈ M.data_, v = c)
    (hshape : M.logic_.length = 1 ∨ (M.logic_ ≠ [] ∧ ∀ f ∈ M.logic_, f = 1) ∨
      M.logic_ = [2, 1] ∨ M.logic_ = [1, 2] ∨ M.logic_ = [2, 2]) :
    monotonic M = .returned true ∧ realizable M = .returned true := by
  refine ⟨monotonic_const M hwf c hconst, ?_⟩
  rw [realizable_of_constraintPhase_none M (constraintPhase_const M hwf c hconst)]
  rcases hshape with h | h | h | h | h
  · rw [shapePhase_allSumProduct M (Or.inl h)]
    exact allSumProduct_const M hwf c hconst
  · rw [shapePhase_allSumProduct M (Or.inr h)]
    exact allSumProduct_const M hwf c hconst
  · have hn : M.n = 3 := n_of_sum M 3 hsum (by rw [h]; rfl)
    rw [shapePhase_case21 M h]
    exact case21_const M.data_ (by rw [hwf, hn]; rfl) c hconst
  · have hn : M.n = 3 := n_of_sum M 3 hsum (by rw [h]; rfl)
    rw [shapePhase_case12 M h]
    exact case12_const M.data_ (by rw [hwf, hn]; rfl) c hconst
  · have hn : M.n = 4 := n_of_sum M 4 hsum (by rw [h]; rfl)
    rw [shapePhase_case22 M h]
    exact case22_const M.data_ (by rw [hwf, hn]; rfl) c hconst

/-- C25 (amended): for every `n ≤ 31` and every well-formed map (`data_` of
length `2 ^ n`, `logic_` summing to `n`) whose data is constant and whose
`logic_` has exactly one entry, or is non-empty with all entries 1, or is
`[2, 1]`, `[1, 2]` or `[2, 2]`, and for every constraint set, `monotonic()`
returns true and `realizable()` returns true; in particular, for `n ≤ 30`, on
the default map that `MonotonicMap(n, m)` builds. -/
theorem C25_constant_maps_admissible (M : MonotonicMap) (hwf : WellFormed M) (hn : M.n ≤ 31)
    (hsum : M.logic_.sum = (M.n : Int)) (c : Int) (hconst : ∀ v ∈ M.data_, v = c)
    (hshape : M.logic_.length = 1 ∨ (M.logic_ ≠ [] ∧ ∀ f ∈ M.logic_, f = 1) ∨
      M.logic_ = [2, 1] ∨ M.logic_ = [1, 2] ∨ M.logic_ = [2, 2]) :
    (monotonic M = .returned true ∧ realizable M = .returned true) ∧
    ∀ k : Nat, k ≤ 30 → ∀ m : Int, ∃ D, mk2 k m = .built D ∧
      monotonic D = .returned true ∧ realizable D = .returned true := by
  have hM : monotonic M = .returned true ∧ realizable M = .returned true := by
    rcases Nat.lt_or_ge 30 M.n with hbig | _
    · have h31 : M.n = 31 := by omega
      refine ⟨monotonic_of_lt M hbig, ?_⟩
      rcases hshape with h | h | h | h | h
      · exact realizable_of_lt M hbig (Or.inl h)
      · exact realizable_of_lt M hbig (Or.inr (maxTermsInFactor_ones _ h.1 h.2))
      · have := n_of_sum M 3 hsum (by rw [h]; rfl)
        omega
      · have := n_of_sum M 3 hsum (by rw [h]; rfl)
        omega
      · have := n_of_sum M 4 hsum (by rw [h]; rfl)
        omega
    · exact const_admissible M hwf hsum c hconst hshape
  refine ⟨hM, fun k hk m => ?_⟩
  have hbuilt : mk2 k m = .built
      { n := k, m := m, logic_ := resize [] 1 (k : Int), data_ := List.replicate (2 ^ k) 0,
        constraints_ := [] } := by
    unfold mk2
    rw [resizeData_of_le k hk]
  refine ⟨_, hbuilt, ?_⟩
  have hlogic : resize ([] : List Int) 1 (k : Int) = [(k : Int)] := by
    rw [resize_nil]
    rfl
  apply const_admissible _ _ _ 0 _ (Or.inl (by
    show (resize ([] : List Int) 1 (k : Int)).length = 1
    rw [hlogic]
    rfl))
  · exact List.length_replicate _ _
  · show (resize ([] : List Int) 1 (k : Int)).sum = (k : Int)
    rw [hlogic]
    simp
  · intro v hv
    exact (List.mem_replicate.1 hv).2

/-- C25 at `n = 4`, factorization `[2, 2]`, constant data 1 and the constraint
`(1, (1, 0))`: the hypotheses hold, and `monotonic()` and `realizable()` return
true. -/
theorem C25_constant_maps_admissible_witness :
    WellFormed (mk5 4 1 [2, 2] [(1, (1, 0))] (List.replicate 16 1)) ∧
    (mk5 4 1 [2, 2] [(1, (1, 0))] (List.replicate 16 1)).n ≤ 31 ∧
    ([2, 2] : List Int).sum = ((4 : Nat) : Int) ∧
    (∀ v ∈ List.replicate 16 (1 : Int), v = 1) ∧
    monotonic (mk5 4 1 [2, 2] [(1, (1, 0))] (List.replicate 16 1)) = .returned true ∧
    realizable (mk5 4 1 [2, 2] [(1, (1, 0))] (List.replicate 16 1)) = .returned true :=
  ⟨by decide, by decide, by decide, by decide,
   (C25_constant_maps_admissible (mk5 4 1 [2, 2] [(1, (1, 0))] (List.replicate 16 1))
     (by decide) (by decide) (by decide) 1 (by decide)
     (Or.inr (Or.inr (Or.inr (Or.inr rfl))))).1⟩

/-- C25 as stated fails at `n = 0` with the empty factorization and the
constant data `[0]`: the map is well-formed, its factors are (vacuously) all of
size 1, `monotonic()` returns true, but `realizable()` throws; this is also the
map that `MonotonicMap(0, 1, {})` builds. And at `n = 31` there is no default
all-zero map: `MonotonicMap(31, 1)` throws `std::length_error`. -/
theorem C25_empty_factorization_counterexample :
    WellFormed (mk5 0 1 [] [] [0]) ∧
    (mk5 0 1 [] [] [0]).logic_.sum = (((mk5 0 1 [] [] [0]).n : Nat) : Int) ∧
    (∀ v ∈ (mk5 0 1 [] [] [0]).data_, v = 0) ∧
    (∀ f ∈ (mk5 0 1 [] [] [0]).logic_, f = 1) ∧
    monotonic (mk5 0 1 [] [] [0]) = .returned true ∧
    realizable (mk5 0 1 [] [] [0]) = .unsupportedFactorization ∧
    mk3 0 1 [] = .built (mk5 0 1 [] [] [0]) ∧
    mk2 31 1 = .lengthError :=
  ⟨by decide, by decide, by decide, by decide, by decide, by decide, by decide, by decide⟩

/-! ## Symmetry of the neighbour relation -/

theorem mk5_eta (A : MonotonicMap) : mk5 A.n A.m A.logic_ A.constraints_ A.data_ = A := by
  cases A
  rfl

/-- Undoing the step: from the neighbour obtained by moving `data_[i]` by `d`,
moving `data_[i]` by `-d` gives the source back. -/
theorem step_back (A : MonotonicMap) (hwf : WellFormed A) (i : Nat) (hi : i < 2 ^ A.n)
    (d : Int) :
    mk5 A.n A.m A.logic_ A.constraints_
      ((A.data_.set i (A.data_.getD i 0 + d)).set i
        ((A.data_.set i (A.data_.getD i 0 + d)).getD i 0 + -d)) = A := by
  have hilen : i < A.data_.length := by rw [hwf]; exact hi
  rw [getD_set_self A.data_ i _ hilen, add_neg_cancel_right,
    set_restore A.data_ i _ _ (getElem?_eq_getD A.data_ i hilen)]
  exact mk5_eta A

/-- C23: for every well-formed map `A` (`data_` of length `2 ^ n` with entries in
`[0, m]`, `logic_` summing to `n`) on which `monotonic()` and `realizable()`
return true, and every `B` returned by `A.neighbors()`, `B.neighbors()` returns
and its result contains `A` itself, a map on which `operator ==` with `A`
returns true. -/
theorem C23_neighbors_symmetric (A : MonotonicMap) (hwf : WellFormed A)
    (hsum : A.logic_.sum = (A.n : Int)) (hrange : ∀ v ∈ A.data_, 0 ≤ v ∧ v ≤ A.m)
    (hmono : monotonic A = .returned true) (hreal : realizable A = .returned true)
    (rs : List MonotonicMap) (h : neighbors A = .returned rs) (B : MonotonicMap)
    (hB : B ∈ rs) :
    ∃ rs1, neighbors B = .returned rs1 ∧ A ∈ rs1 ∧
      ∃ A1 ∈ rs1, equals A1 A = .returned true := by
  obtain ⟨i, hiu, hi, hmem⟩ := mem_neighbors A rs h B hB
  obtain ⟨d, hd, hBd, _⟩ := mem_appended A A.data_ i B hmem
  have hilen : i < A.data_.length := by rw [hwf]; exact hi
  have hv := hrange _ (level_mem A hwf i hi)
  unfold level at hv
  have hshape := shape_of_realizable_true A hwf hreal
  have hBwf : WellFormed B := by
    rw [hBd]
    exact (List.length_set _ _ _).trans hwf
  have hBlen : B.data_.length = 2 ^ A.n := by
    rw [hBd]
    exact (List.length_set _ _ _).trans hwf
  have hadm : ∀ data : List Int, data.length = B.data_.length →
      ∃ b, admitted B data = .returned b := by
    intro data hlen
    have hlen2 : data.length = 2 ^ A.n := hlen.trans hBlen
    rw [hBd]
    exact admitted_returns _ data hlen2
      (realizable_returns_of_shape (mk5 A.n A.m A.logic_ A.constraints_ data) hlen2 hsum hshape)
  have hback : mk5 B.n B.m B.logic_ B.constraints_
      (B.data_.set i (B.data_.getD i 0 + -d)) = A := by
    rw [hBd]
    exact step_back A hwf i hi d
  have hAmem : A ∈ (upTo (shiftOne B.n)).flatMap (appended B B.data_) := by
    rw [List.mem_flatMap]
    refine ⟨i, ?_, ?_⟩
    · rw [hBd]
      exact hiu
    · have hguard : (-d = -1 ∧ B.data_.getD i 0 > 0) ∨ (-d = 1 ∧ B.data_.getD i 0 < B.m) := by
        have hBi : B.data_.getD i 0 = A.data_.getD i 0 + d := by
          rw [hBd]
          exact getD_set_self A.data_ i _ hilen
        have hBm : B.m = A.m := by rw [hBd]; rfl
        rw [hBi, hBm]
        rcases hd with ⟨hd1, _⟩ | ⟨hd1, _⟩
        · left; rw [hd1]; exact ⟨rfl, by omega⟩
        · right; rw [hd1]; exact ⟨rfl, by omega⟩
      have hcand := mem_appended_of_admitted B B.data_ i (-d) hguard (by
        unfold admitted
        rw [hback, hmono]
        exact hreal)
      rw [hback] at hcand
      exact hcand
  exact ⟨_, neighbors_of_admitted B hBwf hadm, hAmem, A, hAmem, equals_self A hwf⟩

/-- C23 at `A` with `n = 1`, `m = 1`, factorization `[1]`, `data = [0, 1]` and
its neighbour `B` with data `[1, 1]`: `B.neighbors()` returns and contains
`A`. -/
theorem C23_neighbors_symmetric_witness :
    WellFormed (mk5 1 1 [1] [] [0, 1]) ∧
    monotonic (mk5 1 1 [1] [] [0, 1]) = .returned true ∧
    realizable (mk5 1 1 [1] [] [0, 1]) = .returned true ∧
    neighbors (mk5 1 1 [1] [] [0, 1]) =
      .returned [mk5 1 1 [1] [] [1, 1], mk5 1 1 [1] [] [0, 0]] ∧
    ∃ rs1, neighbors (mk5 1 1 [1] [] [1, 1]) = .returned rs1 ∧ mk5 1 1 [1] [] [0, 1] ∈ rs1 ∧
      ∃ A1 ∈ rs1, equals A1 (mk5 1 1 [1] [] [0, 1]) = .returned true :=
  ⟨by decide, by decide, by decide, by decide,
   C23_neighbors_symmetric (mk5 1 1 [1] [] [0, 1]) (by decide) (by decide) (by decide)
     (by decide) (by decide) [mk5 1 1 [1] [] [1, 1], mk5 1 1 [1] [] [0, 0]] (by decide)
     (mk5 1 1 [1] [] [1, 1]) (by decide)⟩

/-! ## `neighbors` on an unsupported shape -/

theorem level_set (M : MonotonicMap) (hwf : WellFormed M) (v : Nat) (hv : v < 2 ^ M.n)
    (w : Int) (j : Nat) :
    level (mk5 M.n M.m M.logic_ M.constraints_ (M.data_.set v w)) j =
      if j = v then w else level M j := by
  have hvlen : v < M.data_.length := by rw [hwf]; exact hv
  by_cases hj : j = v
  · rw [if_pos hj, hj]
    exact getD_set_self M.data_ v w hvlen
  · rw [if_neg hj]
    exact getD_set_other M.data_ v j w hj

/-- A monotonic map with `m ≥ 1` always has a monotonic candidate: the
decrement at the least vertex with a positive level, or, when no level is
positive, the increment at the top vertex. -/
theorem exists_monotonic_candidate (M : MonotonicMap) (hwf : WellFormed M) (hn : M.n ≤ 30)
    (hm : 1 ≤ M.m) (hmono : monotonic M = .returned true) :
    ∃ i, i < 2 ^ M.n ∧ ∃ d : Int,
      ((d = -1 ∧ M.data_.getD i 0 > 0) ∨ (d = 1 ∧ M.data_.getD i 0 < M.m)) ∧
      monotonic (mk5 M.n M.m M.logic_ M.constraints_
        (M.data_.set i (M.data_.getD i 0 + d))) = .returned true := by
  have hcov := (monotonic_covering M hwf hn).2.1 hmono
  by_cases hex : ∃ v, v < 2 ^ M.n ∧ level M v > 0
  · have hv := Nat.find_spec hex
    have hmin : ∀ u, u < Nat.find hex → u < 2 ^ M.n → level M u ≤ 0 := by
      intro u hu hu2
      have := Nat.find_min hex hu
      by_contra hc
      exact this ⟨hu2, not_le.1 hc⟩
    refine ⟨Nat.find hex, hv.1, -1, Or.inl ⟨rfl, hv.2⟩, ?_⟩
    have hcwf : WellFormed (mk5 M.n M.m M.logic_ M.constraints_
        (M.data_.set (Nat.find hex) (M.data_.getD (Nat.find hex) 0 + -1))) :=
      (List.length_set _ _ _).trans hwf
    apply (monotonic_covering _ hcwf hn).2.2
    intro i hi pos hpos hbit
    have hi1 : i < 2 ^ M.n := hi
    have hj1 : i ||| 2 ^ pos < 2 ^ M.n := or_bit_lt _ _ _ hi1 hpos
    have hlt : i < i ||| 2 ^ pos := lt_or_bit i pos (testBit_of_and_bit_eq_zero i pos hbit)
    have hstep := hcov i hi1 pos hpos hbit
    rw [level_set M hwf _ hv.1, level_set M hwf _ hv.1]
    have hvpos : level M (Nat.find hex) > 0 := hv.2
    have hfv : M.data_.getD (Nat.find hex) 0 = level M (Nat.find hex) := rfl
    rw [hfv]
    by_cases h1 : i = Nat.find hex
    · have h2 : ¬ (i ||| 2 ^ pos = Nat.find hex) := by omega
      have hli : level M i = level M (Nat.find hex) := by rw [h1]
      rw [if_pos h1, if_neg h2]
      omega
    · rw [if_neg h1]
      by_cases h2 : i ||| 2 ^ pos = Nat.find hex
      · rw [if_pos h2]
        have := hmin i (by omega) hi1
        omega
      · rw [if_neg h2]
        exact hstep
  · have hall : ∀ v, v < 2 ^ M.n → level M v ≤ 0 := by
      intro v hv
      by_contra hc
      exact hex ⟨v, hv, not_le.1 hc⟩
    have htop : 2 ^ M.n - 1 < 2 ^ M.n := by
      have := Nat.two_pow_pos M.n
      omega
    have htop0 := hall _ htop
    refine ⟨2 ^ M.n - 1, htop, 1, Or.inr ⟨rfl, ?_⟩, ?_⟩
    · unfold level at htop0
      omega
    · have hcwf : WellFormed (mk5 M.n M.m M.logic_ M.constraints_
          (M.data_.set (2 ^ M.n - 1) (M.data_.getD (2 ^ M.n - 1) 0 + 1))) :=
        (List.length_set _ _ _).trans hwf
      apply (monotonic_covering _ hcwf hn).2.2
      intro i hi pos hpos hbit
      have hi1 : i < 2 ^ M.n := hi
      have hpos1 : pos < M.n := hpos
      have hstep := hcov i hi1 pos hpos1 hbit
      rw [level_set M hwf _ htop, level_set M hwf _ htop]
      have hft : M.data_.getD (2 ^ M.n - 1) 0 = level M (2 ^ M.n - 1) := rfl
      rw [hft]
      have h1 : ¬ (i = 2 ^ M.n - 1) := by
        intro hc
        have hb := testBit_of_and_bit_eq_zero i pos hbit
        rw [hc, Nat.testBit_two_pow_sub_one, decide_eq_true hpos1] at hb
        cases hb
      rw [if_neg h1]
      by_cases h2 : i ||| 2 ^ pos = 2 ^ M.n - 1
      · rw [if_pos h2]
        have hlj : level M (i ||| 2 ^ pos) = level M (2 ^ M.n - 1) := by rw [h2]
        omega
      · rw [if_neg h2]
        exact hstep

/-- With a factorization that is none of the implemented shapes, the admission
test on an array of `2 ^ n` entries throws exactly when the candidate is
monotonic and passes Step 1, and returns false otherwise. -/
theorem admitted_unsupported (M : MonotonicMap) (hpos : ∀ f ∈ M.logic_, 0 < f)
    (h1 : M.logic_.length ≠ 1) (hones : ¬ ∀ f ∈ M.logic_, f = 1)
    (h21 : M.logic_ ≠ [2, 1]) (h12 : M.logic_ ≠ [1, 2]) (h22 : M.logic_ ≠ [2, 2])
    (data : List Int) (hlen : data.length = 2 ^ M.n) :
    ((monotonic (mk5 M.n M.m M.logic_ M.constraints_ data) = .returned true ∧
        constraintPhase (mk5 M.n M.m M.logic_ M.constraints_ data) = none) →
      admitted M data = .unsupportedFactorization) ∧
    (¬ (monotonic (mk5 M.n M.m M.logic_ M.constraints_ data) = .returned true ∧
        constraintPhase (mk5 M.n M.m M.logic_ M.constraints_ data) = none) →
      admitted M data = .returned false) := by
  have hwf : WellFormed (mk5 M.n M.m M.logic_ M.constraints_ data) := hlen
  have hshape : shapePhase (mk5 M.n M.m M.logic_ M.constraints_ data) =
      .unsupportedFactorization :=
    shapePhase_unsupported (mk5 M.n M.m M.logic_ M.constraints_ data) hpos h1 hones h21 h12 h22
  unfold admitted
  rcases monotonic_returns _ hwf with hm | hm
  · rw [hm]
    dsimp only
    rcases constraintPhase_cases _ hwf with hc | hc
    · rw [realizable_of_constraintPhase_none _ hc, hshape]
      exact ⟨fun _ => rfl, fun hno => absurd ⟨rfl, hc⟩ hno⟩
    · unfold realizable
      rw [hc]
      exact ⟨fun h => (by cases h.2), fun _ => rfl⟩
  · rw [hm]
    exact ⟨fun h => (by cases h.1), fun _ => rfl⟩

theorem probe_of_false (M : MonotonicMap) (copy : List Int) (results : List MonotonicMap)
    (h : admitted M copy = .returned false) : probe M copy results = .returned results := by
  unfold probe
  rw [h]

theorem probe_of_unsupported (M : MonotonicMap) (copy : List Int)
    (results : List MonotonicMap) (h : admitted M copy = .unsupportedFactorization) :
    probe M copy results = .unsupportedFactorization := by
  unfold probe
  rw [h]

theorem incrementStep_unsupported (M : MonotonicMap) (i : Nat) (copy : List Int)
    (results : List MonotonicMap) (hi : i < copy.length)
    (hall : ∀ w, admitted M (copy.set i w) = .returned false ∨
      admitted M (copy.set i w) = .unsupportedFactorization) :
    ((copy.getD i 0 < M.m ∧
        admitted M (copy.set i (copy.getD i 0 + 1)) = .unsupportedFactorization) →
      incrementStep M i copy results = .unsupportedFactorization) ∧
    (¬ (copy.getD i 0 < M.m ∧
        admitted M (copy.set i (copy.getD i 0 + 1)) = .unsupportedFactorization) →
      incrementStep M i copy results = .returned (copy, results)) := by
  have hv := getElem?_eq_getD copy i hi
  unfold incrementStep
  rw [hv]
  dsimp only
  by_cases hlt : copy.getD i 0 < M.m
  · rw [if_pos hlt]
    rcases hall (copy.getD i 0 + 1) with h | h
    · rw [probe_of_false M _ results h]
      dsimp only
      rw [add_sub_cancel_right, set_restore copy i _ _ hv]
      exact ⟨fun hq => (by rw [h] at hq; cases hq.2), fun _ => rfl⟩
    · rw [probe_of_unsupported M _ results h]
      exact ⟨fun _ => rfl, fun hno => absurd ⟨hlt, h⟩ hno⟩
  · rw [if_neg hlt]
    exact ⟨fun hq => absurd hq.1 hlt, fun _ => rfl⟩

theorem neighborsStep_unsupported (M : MonotonicMap) (i : Nat) (copy : List Int)
    (results : List MonotonicMap) (hi : i < copy.length)
    (hall : ∀ w, admitted M (copy.set i w) = .returned false ∨
      admitted M (copy.set i w) = .unsupportedFactorization) :
    (((copy.getD i 0 > 0 ∧
        admitted M (copy.set i (copy.getD i 0 - 1)) = .unsupportedFactorization) ∨
      (copy.getD i 0 < M.m ∧
        admitted M (copy.set i (copy.getD i 0 + 1)) = .unsupportedFactorization)) →
      neighborsStep M i copy results = .unsupportedFactorization) ∧
    (¬ ((copy.getD i 0 > 0 ∧
        admitted M (copy.set i (copy.getD i 0 - 1)) = .unsupportedFactorization) ∨
      (copy.getD i 0 < M.m ∧
        admitted M (copy.set i (copy.getD i 0 + 1)) = .unsupportedFactorization)) →
      neighborsStep M i copy results = .returned (copy, results)) := by
  have hv := getElem?_eq_getD copy i hi
  obtain ⟨hinc1, hinc2⟩ := incrementStep_unsupported M i copy results hi hall
  unfold neighborsStep
  rw [hv]
  dsimp only
  by_cases hgt : copy.getD i 0 > 0
  · rw [if_pos hgt]
    rcases hall (copy.getD i 0 - 1) with h | h
    · rw [probe_of_false M _ results h]
      dsimp only
      rw [sub_add_cancel, set_restore copy i _ _ hv]
      constructor
      · intro hq
        rcases hq with hq | hq
        · rw [h] at hq; cases hq.2
        · exact hinc1 hq
      · intro hno
        exact hinc2 (fun hq => hno (Or.inr hq))
    · rw [probe_of_unsupported M _ results h]
      exact ⟨fun _ => rfl, fun hno => absurd (Or.inl ⟨hgt, h⟩) hno⟩
  · rw [if_neg hgt]
    constructor
    · intro hq
      rcases hq with hq | hq
      · exact absurd hq.1 hgt
      · exact hinc1 hq
    · intro hno
      exact hinc2 (fun hq => hno (Or.inr hq))

/-- When the admission test never returns true and never reads out of range,
the loop of `neighbors()` throws at the first candidate on which the test
throws, and returns `results` unchanged when there is none. -/
theorem neighborsLoop_unsupported (M : MonotonicMap) (copy : List Int) (is : List Nat)
    (his : ∀ i ∈ is, i < copy.length)
    (hall : ∀ i ∈ is, ∀ w, admitted M (copy.set i w) = .returned false ∨
      admitted M (copy.set i w) = .unsupportedFactorization) :
    ∀ results,
      ((∃ i ∈ is, (copy.getD i 0 > 0 ∧
          admitted M (copy.set i (copy.getD i 0 - 1)) = .unsupportedFactorization) ∨
        (copy.getD i 0 < M.m ∧
          admitted M (copy.set i (copy.getD i 0 + 1)) = .unsupportedFactorization)) →
        neighborsLoop M is copy results = .unsupportedFactorization) ∧
      ((¬ ∃ i ∈ is, (copy.getD i 0 > 0 ∧
          admitted M (copy.set i (copy.getD i 0 - 1)) = .unsupportedFactorization) ∨
        (copy.getD i 0 < M.m ∧
          admitted M (copy.set i (copy.getD i 0 + 1)) = .unsupportedFactorization)) →
        neighborsLoop M is copy results = .returned results) := by
  induction is with
  | nil =>
    intro results
    exact ⟨fun ⟨i, hi, _⟩ => (by cases hi), fun _ => rfl⟩
  | cons i is ih =>
    intro results
    obtain ⟨hs1, hs2⟩ := neighborsStep_unsupported M i copy results
      (his i (List.mem_cons_self _ _)) (hall i (List.mem_cons_self _ _))
    obtain ⟨ih1, ih2⟩ := ih (fun j hj => his j (List.mem_cons_of_mem _ hj))
      (fun j hj => hall j (List.mem_cons_of_mem _ hj)) results
    unfold neighborsLoop
    by_cases hq : (copy.getD i 0 > 0 ∧
        admitted M (copy.set i (copy.getD i 0 - 1)) = .unsupportedFactorization) ∨
      (copy.getD i 0 < M.m ∧
        admitted M (copy.set i (copy.getD i 0 + 1)) = .unsupportedFactorization)
    · rw [hs1 hq]
      exact ⟨fun _ => rfl, fun hno => absurd ⟨i, List.mem_cons_self _ _, hq⟩ hno⟩
    · rw [hs2 hq]
      dsimp only
      constructor
      · rintro ⟨j, hj, hqj⟩
        rcases List.mem_cons.1 hj with h | h
        · rw [h] at hqj; exact absurd hqj hq
        · exact ih1 ⟨j, h, hqj⟩
      · intro hno
        exact ih2 (fun ⟨j, hj, hqj⟩ => hno ⟨j, List.mem_cons_of_mem _ hj, hqj⟩)

/-- C26 (amended): for every `n ≤ 30` and every well-formed map whose `logic_`
has positive entries and is none of the implemented shapes (not one entry, not
all entries 1, not `[2, 1]`, `[1, 2]` or `[2, 2]`): with `m ≥ 1`,
`monotonic() == true` and no constraint, `neighbors()` throws, because some
`+1` or `-1` candidate is monotonic and reaches the throw of `realizable()`; and
whatever `m`, the data and the constraints are, when `neighbors()` returns, its
result is empty and every candidate that the guards allow is either not
monotonic or rejected by Step 1. -/
theorem C26_neighbors_unsupported_shape (M : MonotonicMap) (hwf : WellFormed M)
    (hn : M.n ≤ 30)
    (hpos : ∀ f ∈ M.logic_, 0 < f) (h1 : M.logic_.length ≠ 1)
    (hones : ¬ ∀ f ∈ M.logic_, f = 1) (h21 : M.logic_ ≠ [2, 1]) (h12 : M.logic_ ≠ [1, 2])
    (h22 : M.logic_ ≠ [2, 2]) :
    (1 ≤ M.m → monotonic M = .returned true → M.constraints_ = [] →
      neighbors M = .unsupportedFactorization) ∧
    (∀ rs, neighbors M = .returned rs →
      rs = [] ∧
      ∀ i, i < 2 ^ M.n → ∀ d : Int,
        ((d = -1 ∧ level M i > 0) ∨ (d = 1 ∧ level M i < M.m)) →
        monotonic (mk5 M.n M.m M.logic_ M.constraints_ (M.data_.set i (level M i + d))) =
          .returned true →
        constraintPhase (mk5 M.n M.m M.logic_ M.constraints_
          (M.data_.set i (level M i + d))) = some (.returned false)) := by
  have hadm := fun data hlen => admitted_unsupported M hpos h1 hones h21 h12 h22 data hlen
  have his : ∀ i ∈ upTo (shiftOne M.n), i < M.data_.length := by
    intro i hi
    rw [hwf]
    exact lt_of_mem_upTo _ _ hi
  have hall : ∀ i ∈ upTo (shiftOne M.n), ∀ w,
      admitted M (M.data_.set i w) = .returned false ∨
      admitted M (M.data_.set i w) = .unsupportedFactorization := by
    intro i _ w
    have hlen : (M.data_.set i w).length = 2 ^ M.n := (List.length_set _ _ _).trans hwf
    by_cases hq : monotonic (mk5 M.n M.m M.logic_ M.constraints_ (M.data_.set i w)) =
        .returned true ∧
        constraintPhase (mk5 M.n M.m M.logic_ M.constraints_ (M.data_.set i w)) = none
    · exact Or.inr ((hadm _ hlen).1 hq)
    · exact Or.inl ((hadm _ hlen).2 hq)
  obtain ⟨hloop1, hloop2⟩ := neighborsLoop_unsupported M M.data_ _ his hall []
  constructor
  · intro hm hmono hcons
    obtain ⟨i, hi, d, hd, hcand⟩ := exists_monotonic_candidate M hwf hn hm hmono
    have hthrow : admitted M (M.data_.set i (M.data_.getD i 0 + d)) =
        .unsupportedFactorization :=
      (hadm _ ((List.length_set _ _ _).trans hwf)).1 ⟨hcand, constraintPhase_nil _ hcons⟩
    unfold neighbors
    apply hloop1
    refine ⟨i, (mem_upTo _ _ hn).2 hi, ?_⟩
    rcases hd with ⟨hd1, hgt⟩ | ⟨hd1, hlt⟩
    · left
      rw [hd1, ← sub_eq_add_neg] at hthrow
      exact ⟨hgt, hthrow⟩
    · right
      rw [hd1] at hthrow
      exact ⟨hlt, hthrow⟩
  · intro rs hrs
    unfold neighbors at hrs
    have hno : ¬ ∃ i ∈ upTo (shiftOne M.n),
        (M.data_.getD i 0 > 0 ∧
          admitted M (M.data_.set i (M.data_.getD i 0 - 1)) = .unsupportedFactorization) ∨
        (M.data_.getD i 0 < M.m ∧
          admitted M (M.data_.set i (M.data_.getD i 0 + 1)) = .unsupportedFactorization) := by
      intro hq
      rw [hloop1 hq] at hrs
      cases hrs
    rw [hloop2 hno] at hrs
    refine ⟨(Outcome.returned.inj hrs).symm, ?_⟩
    intro i hi d hd hmono
    have hcwf : WellFormed (mk5 M.n M.m M.logic_ M.constraints_
        (M.data_.set i (level M i + d))) := (List.length_set _ _ _).trans hwf
    rcases constraintPhase_cases _ hcwf with hc | hc
    · exfalso
      have hthrow := (hadm _ ((List.length_set _ _ _).trans hwf)).1 ⟨hmono, hc⟩
      unfold level at hthrow hd
      apply hno
      refine ⟨i, (mem_upTo _ _ hn).2 hi, ?_⟩
      rcases hd with ⟨hd1, hgt⟩ | ⟨hd1, hlt⟩
      · left
        rw [hd1, ← sub_eq_add_neg] at hthrow
        exact ⟨hgt, hthrow⟩
      · right
        rw [hd1] at hthrow
        exact ⟨hlt, hthrow⟩
    · exact hc

/-- C26 at `n = 4`, `m = 1`, factorization `[3, 1]`, all-zero data and no
constraint: the hypotheses hold, the map is monotonic, and `neighbors()`
throws. -/
theorem C26_neighbors_unsupported_shape_witness :
    WellFormed (mk5 4 1 [3, 1] [] (List.replicate 16 0)) ∧
    (mk5 4 1 [3, 1] [] (List.replicate 16 0)).n ≤ 30 ∧
    (∀ f ∈ ([3, 1] : List Int), 0 < f) ∧
    monotonic (mk5 4 1 [3, 1] [] (List.replicate 16 0)) = .returned true ∧
    neighbors (mk5 4 1 [3, 1] [] (List.replicate 16 0)) = .unsupportedFactorization :=
  ⟨by decide, by decide, by decide, by decide,
   (C26_neighbors_unsupported_shape (mk5 4 1 [3, 1] [] (List.replicate 16 0)) (by decide)
     (by decide) (by decide) (by decide) (by decide) (by decide) (by decide) (by decide)).1
     (by decide) (by decide) rfl⟩

/-- C26 as stated fails at `n = 31`, `m = 1`, the unsupported factorization
`[30, 1]`, no constraint, on the all-zero map of `2 ^ 31` entries: the map is
well-formed and `monotonic()` returns true, but `N = (1 << n)` is `INT_MIN`, the
loop of `neighbors()` is not entered, `realizable()` is never called and an
empty result is returned instead of the throw. -/
theorem C26_int_shift_counterexample :
    WellFormed (mk5 31 1 [30, 1] [] (0 :: 0 :: List.replicate (2 ^ 31 - 2) 0)) ∧
    (mk5 31 1 [30, 1] [] (0 :: 0 :: List.replicate (2 ^ 31 - 2) 0)).logic_.sum =
      (((mk5 31 1 [30, 1] [] (0 :: 0 :: List.replicate (2 ^ 31 - 2) 0)).n : Nat) : Int) ∧
    (∀ f ∈ ([30, 1] : List Int), 0 < f) ∧ ([30, 1] : List Int).length ≠ 1 ∧
    (¬ ∀ f ∈ ([30, 1] : List Int), f = 1) ∧ ([30, 1] : List Int) ≠ [2, 1] ∧
    ([30, 1] : List Int) ≠ [1, 2] ∧ ([30, 1] : List Int) ≠ [2, 2] ∧
    1 ≤ (mk5 31 1 [30, 1] [] (0 :: 0 :: List.replicate (2 ^ 31 - 2) 0)).m ∧
    (∀ v ∈ (mk5 31 1 [30, 1] [] (0 :: 0 :: List.replicate (2 ^ 31 - 2) 0)).data_,
      0 ≤ v ∧ v ≤ (mk5 31 1 [30, 1] [] (0 :: 0 :: List.replicate (2 ^ 31 - 2) 0)).m) ∧
    monotonic (mk5 31 1 [30, 1] [] (0 :: 0 :: List.replicate (2 ^ 31 - 2) 0)) =
      .returned true ∧
    (mk5 31 1 [30, 1] [] (0 :: 0 :: List.replicate (2 ^ 31 - 2) 0)).constraints_ = [] ∧
    neighbors (mk5 31 1 [30, 1] [] (0 :: 0 :: List.replicate (2 ^ 31 - 2) 0)) =
      .returned [] :=
  ⟨wellFormed_of_length _ (length_two_cons_replicate 0 0 0), by decide, by decide, by decide,
   by decide, by decide, by decide, by decide, by decide,
   fun v hv => by
     rw [zero_of_mem_zeros v hv]
     decide,
   monotonic_of_lt _ (by decide), rfl, neighbors_of_lt _ (by decide)⟩

/-! ## The constraint phase as a per-vertex check -/

theorem testBit_andNot (a mask j : Nat) (ha : a < 2 ^ 64) (hm : mask < 2 ^ 64) :
    (andNot a mask).testBit j = (a.testBit j && !mask.testBit j) := by
  unfold andNot
  have hsub : 2 ^ 64 - 1 - mask = 2 ^ 64 - (mask + 1) := by omega
  rw [Nat.testBit_and, hsub, Nat.testBit_two_pow_sub_succ hm]
  by_cases hj : j < 64
  · simp [hj]
  · have hlt : a < 2 ^ j :=
      lt_of_lt_of_le ha (Nat.pow_le_pow_right (by decide) (not_lt.1 hj))
    rw [Nat.testBit_lt_two_pow hlt]
    simp

theorem and_eq_self_of_andNot_zero (x mask : Nat) (hx : x < 2 ^ 64) (hm : mask < 2 ^ 64)
    (h : andNot x mask = 0) : x &&& mask = x := by
  apply Nat.eq_of_testBit_eq
  intro j
  have hj := congrArg (fun t => Nat.testBit t j) h
  simp only [testBit_andNot x mask j hx hm, Nat.zero_testBit] at hj
  rw [Nat.testBit_and]
  revert hj
  cases x.testBit j <;> cases mask.testBit j <;> simp

theorem andNot_or_eq (r x mask : Nat) (hr : r < 2 ^ 64) (hx : x < 2 ^ 64)
    (hm : mask < 2 ^ 64) (hrm : r &&& mask = 0) (hxm : x &&& mask = x) :
    andNot (r ||| x) mask = r := by
  apply Nat.eq_of_testBit_eq
  intro j
  have h1 := congrArg (fun t => Nat.testBit t j) hrm
  have h2 := congrArg (fun t => Nat.testBit t j) hxm
  simp only [Nat.testBit_and, Nat.zero_testBit] at h1 h2
  rw [testBit_andNot _ mask j (Nat.or_lt_two_pow hr hx) hm, Nat.testBit_or]
  revert h1 h2
  cases r.testBit j <;> cases x.testBit j <;> cases mask.testBit j <;> simp

theorem or_and_eq (r x mask : Nat) (hrm : r &&& mask = 0) (hxm : x &&& mask = x) :
    (r ||| x) &&& mask = x := by
  apply Nat.eq_of_testBit_eq
  intro j
  have h1 := congrArg (fun t => Nat.testBit t j) hrm
  have h2 := congrArg (fun t => Nat.testBit t j) hxm
  simp only [Nat.testBit_and, Nat.zero_testBit] at h1 h2
  rw [Nat.testBit_and, Nat.testBit_or]
  revert h1 h2
  cases r.testBit j <;> cases x.testBit j <;> cases mask.testBit j <;> simp

theorem andNot_and_eq_zero (a mask : Nat) (ha : a < 2 ^ 64) (hm : mask < 2 ^ 64) :
    andNot a mask &&& mask = 0 := by
  apply Nat.eq_of_testBit_eq
  intro j
  rw [Nat.testBit_and, testBit_andNot a mask j ha hm, Nat.zero_testBit]
  cases a.testBit j <;> cases mask.testBit j <;> simp

theorem andNot_or_and (a mask : Nat) (ha : a < 2 ^ 64) (hm : mask < 2 ^ 64) :
    andNot a mask ||| (a &&& mask) = a := by
  apply Nat.eq_of_testBit_eq
  intro j
  rw [Nat.testBit_or, Nat.testBit_and, testBit_andNot a mask j ha hm]
  cases a.testBit j <;> cases mask.testBit j <;> simp

/-- No bit of `a & mask` is outside `mask`. -/
theorem andNot_and_self (a mask : Nat) : andNot (a &&& mask) mask = 0 := by
  by_cases hm : mask < 2 ^ 64
  · apply Nat.eq_of_testBit_eq
    intro j
    unfold andNot
    have hsub : 2 ^ 64 - 1 - mask = 2 ^ 64 - (mask + 1) := by omega
    rw [Nat.testBit_and, Nat.testBit_and, hsub, Nat.testBit_two_pow_sub_succ hm,
      Nat.zero_testBit]
    cases a.testBit j <;> cases mask.testBit j <;> simp
  · unfold andNot
    have hsub : 2 ^ 64 - 1 - mask = 0 := by omega
    rw [hsub]
    exact Nat.and_zero _

/-- A constraint whose `x` or `y` has a bit outside `mask` never meets the guard
of Step 1. -/
theorem checkConstraint_outside (data : List Int) (a b : Nat) (c : Nat × (Nat × Nat))
    (h : andNot c.2.1 c.1 ≠ 0 ∨ andNot c.2.2 c.1 ≠ 0) : checkConstraint data a b c = none := by
  unfold checkConstraint
  rw [if_neg]
  rintro ⟨_, hx, hy⟩
  rcases h with h | h
  · rw [← hx] at h
    exact h (andNot_and_self a c.1)
  · rw [← hy] at h
    exact h (andNot_and_self b c.1)

/-- C24 (amended): for every `n ≤ 30`, every well-formed map and every
constraint set whose entries `(mask, (x, y))` are non-negative 64-bit words with
`mask < 2 ^ n`, `x & ~mask == 0` and `y & ~mask == 0`, Step 1 is left without
returning false exactly when, for every constraint and every `r < 2 ^ n` with
`r & mask == 0`, `data_[r | x] ≤ data_[r | y]`; otherwise it returns false. A
constraint whose `x` or `y` has a bit outside `mask` never meets the guard, so
it never causes a rejection. -/
theorem C24_constraint_phase_per_vertex (M : MonotonicMap) (hwf : WellFormed M)
    (hn : M.n ≤ 30)
    (hcons : ∀ c ∈ M.constraints_, c.1 < 2 ^ M.n ∧ andNot c.2.1 c.1 = 0 ∧ andNot c.2.2 c.1 = 0)
    (hword : ∀ c ∈ M.constraints_, c.2.1 < 2 ^ 64 ∧ c.2.2 < 2 ^ 64) :
    (constraintPhase M = none ↔
      ∀ c ∈ M.constraints_, ∀ r, r < 2 ^ M.n → r &&& c.1 = 0 →
        level M (r ||| c.2.1) ≤ level M (r ||| c.2.2)) ∧
    (constraintPhase M = none ∨ constraintPhase M = some (.returned false)) ∧
    (∀ c : Nat × (Nat × Nat), andNot c.2.1 c.1 ≠ 0 ∨ andNot c.2.2 c.1 ≠ 0 →
      ∀ a b, checkConstraint M.data_ a b c = none) := by
  have hN : 2 ^ M.n ≤ 2 ^ 64 := Nat.pow_le_pow_right (by decide) (by omega)
  refine ⟨?_, constraintPhase_cases M hwf, fun c h a b => checkConstraint_outside M.data_ a b c h⟩
  rw [constraintPhase_eq_none_iff M hwf hn]
  constructor
  · intro h c hc r hr hrm
    obtain ⟨hmask, hx0, hy0⟩ := hcons c hc
    obtain ⟨hxw, hyw⟩ := hword c hc
    have hmw : c.1 < 2 ^ 64 := lt_of_lt_of_le hmask hN
    have hrw : r < 2 ^ 64 := lt_of_lt_of_le hr hN
    have hxm := and_eq_self_of_andNot_zero c.2.1 c.1 hxw hmw hx0
    have hym := and_eq_self_of_andNot_zero c.2.2 c.1 hyw hmw hy0
    have hxn : c.2.1 < 2 ^ M.n := by
      have := @Nat.and_le_right c.2.1 c.1
      rw [hxm] at this
      omega
    have hyn : c.2.2 < 2 ^ M.n := by
      have := @Nat.and_le_right c.2.2 c.1
      rw [hym] at this
      omega
    apply h (r ||| c.2.1) (r ||| c.2.2) (Nat.or_lt_two_pow hr hxn) (Nat.or_lt_two_pow hr hyn)
      c hc
    refine ⟨?_, or_and_eq r c.2.1 c.1 hrm hxm, or_and_eq r c.2.2 c.1 hrm hym⟩
    rw [andNot_or_eq r c.2.1 c.1 hrw hxw hmw hrm hxm,
      andNot_or_eq r c.2.2 c.1 hrw hyw hmw hrm hym]
  · intro h a b ha hb c hc happ
    obtain ⟨hmask, _, _⟩ := hcons c hc
    have hmw : c.1 < 2 ^ 64 := lt_of_lt_of_le hmask hN
    have haw : a < 2 ^ 64 := lt_of_lt_of_le ha hN
    have hbw : b < 2 ^ 64 := lt_of_lt_of_le hb hN
    obtain ⟨hout, hx, hy⟩ := happ
    have hr : andNot a c.1 < 2 ^ M.n := by
      unfold andNot
      exact lt_of_le_of_lt Nat.and_le_left ha
    have hstep := h c hc (andNot a c.1) hr (andNot_and_eq_zero a c.1 haw hmw)
    have ha2 : andNot a c.1 ||| c.2.1 = a := by
      rw [← hx]
      exact andNot_or_and a c.1 haw hmw
    have hb2 : andNot a c.1 ||| c.2.2 = b := by
      rw [hout, ← hy]
      exact andNot_or_and b c.1 hbw hmw
    rw [ha2, hb2] at hstep
    exact hstep

/-- C24 at `n = 2`, `data = [0, 1, 0, 1]` and the constraint `(1, (0, 1))` ("the
level does not decrease when bit 0 is turned on"): the hypotheses hold, the
per-vertex check passes for `r = 0` and `r = 2`, and Step 1 is left without
returning. -/
theorem C24_constraint_phase_per_vertex_witness :
    WellFormed (mk5 2 1 [2] [(1, (0, 1))] [0, 1, 0, 1]) ∧
    (mk5 2 1 [2] [(1, (0, 1))] [0, 1, 0, 1]).n ≤ 30 ∧
    (∀ c ∈ (mk5 2 1 [2] [(1, (0, 1))] [0, 1, 0, 1]).constraints_,
      c.1 < 2 ^ 2 ∧ andNot c.2.1 c.1 = 0 ∧ andNot c.2.2 c.1 = 0) ∧
    (∀ c ∈ (mk5 2 1 [2] [(1, (0, 1))] [0, 1, 0, 1]).constraints_,
      c.2.1 < 2 ^ 64 ∧ c.2.2 < 2 ^ 64) ∧
    constraintPhase (mk5 2 1 [2] [(1, (0, 1))] [0, 1, 0, 1]) = none :=
  ⟨by decide, by decide, by decide, by decide,
   (C24_constraint_phase_per_vertex (mk5 2 1 [2] [(1, (0, 1))] [0, 1, 0, 1]) (by decide)
     (by decide) (by decide) (by decide)).1.2 (by decide)⟩

/-- C24 as stated fails at `n = 31`, with the constraint `(1, (0, 1))` and the
map of `2 ^ 31` entries with `data_[0] = 1` and every other entry 0: the
per-vertex check fails at `r = 0` (`data_[0 | 0] > data_[0 | 1]`), but
`N = (1 << n)` is `INT_MIN`, the pair search is not entered and Step 1
passes. -/
theorem C24_int_shift_counterexample :
    WellFormed (mk5 31 1 [31] [(1, (0, 1))] (1 :: 0 :: List.replicate (2 ^ 31 - 2) 0)) ∧
    (∀ c ∈ (mk5 31 1 [31] [(1, (0, 1))]
        (1 :: 0 :: List.replicate (2 ^ 31 - 2) 0)).constraints_,
      c.1 < 2 ^ 31 ∧ andNot c.2.1 c.1 = 0 ∧ andNot c.2.2 c.1 = 0) ∧
    (∀ c ∈ (mk5 31 1 [31] [(1, (0, 1))]
        (1 :: 0 :: List.replicate (2 ^ 31 - 2) 0)).constraints_,
      c.2.1 < 2 ^ 64 ∧ c.2.2 < 2 ^ 64) ∧
    constraintPhase (mk5 31 1 [31] [(1, (0, 1))]
      (1 :: 0 :: List.replicate (2 ^ 31 - 2) 0)) = none ∧
    ¬ ∀ c ∈ (mk5 31 1 [31] [(1, (0, 1))]
        (1 :: 0 :: List.replicate (2 ^ 31 - 2) 0)).constraints_,
      ∀ r, r < 2 ^ 31 → r &&& c.1 = 0 →
        level (mk5 31 1 [31] [(1, (0, 1))] (1 :: 0 :: List.replicate (2 ^ 31 - 2) 0))
            (r ||| c.2.1) ≤
          level (mk5 31 1 [31] [(1, (0, 1))] (1 :: 0 :: List.replicate (2 ^ 31 - 2) 0))
            (r ||| c.2.2) :=
  ⟨wellFormed_of_length _ (length_two_cons_replicate 1 0 0), by decide, by decide,
   constraintPhase_of_lt _ (by decide),
   fun h => absurd (h (1, (0, 1)) (List.mem_singleton.2 rfl) 0 (by decide) (by decide))
     (by decide)⟩

end MonotonicMap

end BooleanSwitching
